import Mathlib

/-!
# BlobStash: the blob store, the range index and the tree writer

A shallow embedding of `pkg/blobstore/blobstore.go` (the `BlobStore` facade:
`New`, `Put`, `Get`, `Stat`, `Enumerate`, `Scan`), of `pkg/blobstore/http.go`
(the upload handler and `nextHexKey`), of `pkg/rangedb/rangedb.go` (the
`Range` iterator), of `pkg/filetree/writer/filewriter.go` (the tree writer),
of `pkg/filetree/reader/dirreader.go` (`GetDir`), of `pkg/config/config.go`
(`S3Repl.Key`), of `pkg/ctxutil/ctxutil.go` (the tags of a context) and of
`client/filewriter.go` (`FileWriter`), together with the properties the
specification states about them.

Conventions of the embedding.

* A Go `[]byte` is a `List Nat` (every element stands for one byte); a Go
  `string` is a Lean `String`; a Go `int` is an `Int`.
* A Go `error` result is an `Option Error` (`none` is `nil`); a Go
  `(value, error)` result is an `Except Error value`.
* The collaborators of the facade (the blobs file backend, the S3 replication
  backend, the event hub, the hasher) are not part of the sources at hand.
  They are fields of the `BlobStore` structure, as in the Go struct, and every
  one of their methods is a function on an arbitrary world state `W`, so that
  a call may succeed, fail, and change the world in any way.
* Every call the facade makes to a collaborator is recorded, in order and
  with its result, in a ghost `trace`; logging (`bs.log`) and the read of the request out of the
  context are not part of the model.
-/

set_option autoImplicit false

deriving instance DecidableEq for Except

namespace BlobStash

/-! ## Data model -/

/-- A Go byte slice. -/
abbrev Bytes := List Nat

/-- A Go `error` value. -/
structure Error where
  msg : String
deriving DecidableEq, Repr

/-- The struct `blob.Blob`: a hash and the data it names. -/
structure Blob where
  Hash : String
  Data : Bytes
deriving DecidableEq, Repr

/-- The struct `blob.SizedBlobRef`: what `Enumerate` returns for a blob. -/
structure SizedBlobRef where
  Hash : String
  Size : Int
deriving DecidableEq, Repr

/-- The struct `blobsfile.Blob`: what the backend enumeration emits. -/
structure BFBlob where
  Hash : String
  Size : Int
deriving DecidableEq, Repr

/-- The error a blob whose hash does not match its data is rejected with. -/
def ErrCorrupted : Error := ⟨"blob corrupted, hash does not match"⟩

/-- Modelled from the spec: `blob.Check` of `pkg/blob` is not part of the
sources at hand. The specification says that a blob `(h, b)` is rejected when
`hash(b) ≠ h`, with `ErrCorrupted`; `H` is the hasher (`hashutil.Compute`). -/
def Blob.Check (H : Bytes → String) (b : Blob) : Option Error :=
  if b.Hash = H b.Data then none else some ErrCorrupted

/-! ## Collaborators and the ghost trace -/

/-- One call of the facade to a collaborator, with what the call returned
(for the backend enumeration: the blobs it sent and its final error). -/
inductive Call where
  | backExists (hash : String) (res : Except Error Bool)
  | backPut (hash : String) (data : Bytes) (res : Option Error)
  | backGet (hash : String) (res : Except Error Bytes)
  | backEnumerate (start stop : String) (limit : Int) (sent : List BFBlob) (res : Option Error)
  | s3Put (hash : String) (res : Option Error)
  | newBlobEvent (blob : Blob) (res : Option Error)
  | scanBlobEvent (blob : Blob) (res : Option Error)
deriving DecidableEq

/-- The methods of `*blobsfile.BlobsFiles` the facade calls. `Enumerate`
sends blobs on a channel and then returns an error or `nil`: its result is the
list of the blobs sent, in order, and the final error. -/
structure BlobsFiles (W : Type) where
  Exists : W → String → Except Error Bool × W
  Put : W → String → Bytes → Option Error × W
  Get : W → String → Except Error Bytes × W
  Enumerate : W → String → String → Int → (List BFBlob × Option Error) × W

/-- The method of `*s3.S3Backend` the facade calls: `Put(hash)` enqueues. -/
structure S3Backend (W : Type) where
  Put : W → String → Option Error × W

/-- The methods of `*hub.Hub` the facade calls. -/
structure Hub (W : Type) where
  NewBlobEvent : W → Blob → Option Error × W
  ScanBlobEvent : W → Blob → Option Error × W

/-- The struct `BlobStore`. `s3back` is `none` for the Go `nil` (replication
not configured); `hash` is the hasher `blob.Check` uses. -/
structure BlobStore (W : Type) where
  back : BlobsFiles W
  s3back : Option (S3Backend W)
  hub : Hub W
  hash : Bytes → String

/-- The state a facade operation runs on: the world of the collaborators and
the trace of the calls made so far. -/
structure Sys (W : Type) where
  world : W
  trace : List Call

/-- Record the call `c`, after which the world is `w`. -/
def Sys.call {W : Type} (s : Sys W) (c : Call) (w : W) : Sys W :=
  ⟨w, s.trace ++ [c]⟩

/-! ## `pkg/blobstore/blobstore.go` -/

/-- Steps 4 and 5 of `BlobStore.Put` (lines 93-106): the S3 enqueue when
replication is enabled, then the `NewBlob` publication. -/
def BlobStore.putNotify {W : Type} (bs : BlobStore W) (s : Sys W) (blob : Blob) :
    Option Error × Sys W :=
  match bs.s3back with
  | some s3 =>
    let q := s3.Put s.world blob.Hash
    let s3s := s.call (.s3Put blob.Hash q.1) q.2
    match q.1 with
    | some err => (some err, s3s)
    | none =>
      let e := bs.hub.NewBlobEvent s3s.world blob
      (e.1, s3s.call (.newBlobEvent blob e.1) e.2)
  | none =>
    let e := bs.hub.NewBlobEvent s.world blob
    (e.1, s.call (.newBlobEvent blob e.1) e.2)

/-- The method `BlobStore.Put` (lines 69-107). -/
def BlobStore.Put {W : Type} (bs : BlobStore W) (s : Sys W) (blob : Blob) :
    Option Error × Sys W :=
  match blob.Check bs.hash with
  | some err => (some err, s)
  | none =>
    let x := bs.back.Exists s.world blob.Hash
    let sx := s.call (.backExists blob.Hash x.1) x.2
    match x.1 with
    | .error err => (some err, sx)
    | .ok true => (none, sx)
    | .ok false =>
      let p := bs.back.Put sx.world blob.Hash blob.Data
      let sp := sx.call (.backPut blob.Hash blob.Data p.1) p.2
      match p.1 with
      | some err => (some err, sp)
      | none => bs.putNotify sp blob

/-- The method `BlobStore.Get` (lines 109-113). -/
def BlobStore.Get {W : Type} (bs : BlobStore W) (s : Sys W) (hash : String) :
    Except Error Bytes × Sys W :=
  let g := bs.back.Get s.world hash
  (g.1, s.call (.backGet hash g.1) g.2)

/-- The method `BlobStore.Stat` (lines 115-119). -/
def BlobStore.Stat {W : Type} (bs : BlobStore W) (s : Sys W) (hash : String) :
    Except Error Bool × Sys W :=
  let x := bs.back.Exists s.world hash
  (x.1, s.call (.backExists hash x.1) x.2)

/-- The loop `for cblob := range out` of `BlobStore.enumerate` (lines
140-151) over the blobs the backend sends; `refs` is the slice built so far.
An early `return nil, err` is the `.error` result. -/
def BlobStore.enumerateLoop {W : Type} (bs : BlobStore W) (scan : Bool) :
    List BFBlob → List SizedBlobRef → Sys W → Except Error (List SizedBlobRef) × Sys W
  | [], refs, s => (.ok refs, s)
  | cblob :: rest, refs, s =>
    if scan then
      let g := bs.Get s cblob.Hash
      match g.1 with
      | .error err => (.error err, g.2)
      | .ok fullblob =>
        let e := bs.hub.ScanBlobEvent g.2.world ⟨cblob.Hash, fullblob⟩
        let se := g.2.call (.scanBlobEvent ⟨cblob.Hash, fullblob⟩ e.1) e.2
        match e.1 with
        | some err => (.error err, se)
        | none => BlobStore.enumerateLoop bs scan rest (refs ++ [⟨cblob.Hash, cblob.Size⟩]) se
    else
      BlobStore.enumerateLoop bs scan rest (refs ++ [⟨cblob.Hash, cblob.Size⟩]) s

/-- The method `BlobStore.enumerate` (lines 131-156). The backend
enumeration runs in its own goroutine and its error is read from `errc`
after the loop; the blobs it sends are those of the store at the time of the
call. An early return of the loop leaves that goroutine behind, which the
model does not follow. -/
def BlobStore.enumerate {W : Type} (bs : BlobStore W) (s : Sys W) (start stop : String)
    (limit : Int) (scan : Bool) : Except Error (List SizedBlobRef) × Sys W :=
  let e := bs.back.Enumerate s.world start stop limit
  let r := bs.enumerateLoop scan e.1.1 []
    (s.call (.backEnumerate start stop limit e.1.1 e.1.2) e.2)
  match r.1 with
  | .error err => (.error err, r.2)
  | .ok refs =>
    match e.1.2 with
    | some err => (.error err, r.2)
    | none => (.ok refs, r.2)

/-- The method `BlobStore.Enumerate` (lines 122-124). -/
def BlobStore.Enumerate {W : Type} (bs : BlobStore W) (s : Sys W) (start stop : String)
    (limit : Int) : Except Error (List SizedBlobRef) × Sys W :=
  bs.enumerate s start stop limit false

/-- The method `BlobStore.Scan` (lines 126-129): the refs are dropped, the
error kept. The Go literal `"\xff"` is the string of the one byte `0xff`; it
is passed on to the backend as it is. -/
def BlobStore.Scan {W : Type} (bs : BlobStore W) (s : Sys W) : Option Error × Sys W :=
  let r := bs.enumerate s "" "\xff" 0 true
  (match r.1 with
   | .error err => some err
   | .ok _ => none, r.2)

/-! ## Reference collaborators

The facade is stated over arbitrary collaborators. Where a property speaks of
what the store holds after an operation (the blob is still in the backend, a
second `Put` finds the first one), it is stated over the reference
collaborators below: the backend is a list of records, the replication queue
a list of hashes, the hub the list of the events it delivered. A write or a
delivery either takes effect or fails, as the fault of the call says. -/

/-- Modelled from the spec: the world of the reference collaborators. `blobs`
are the committed records of the blobs file backend (hash and bytes, in the
order they were appended), `queue` the hashes enqueued for S3 replication,
`newBlobs` and `scanBlobs` the events the subscribers of the hub received. -/
structure Store where
  blobs : List (String × Bytes)
  queue : List String
  newBlobs : List Blob
  scanBlobs : List Blob
deriving DecidableEq, Repr

/-- The store that holds nothing. -/
def Store.empty : Store := ⟨[], [], [], []⟩

/-- The bytes the index maps `hash` to, if any. -/
def Store.lookup (w : Store) (hash : String) : Option Bytes :=
  List.lookup hash w.blobs

/-- The outcome the environment decides for each fallible step of one
operation: `none` lets the step take effect, `some err` makes it fail with
`err` and without effect. -/
structure Faults where
  backPut : Option Error
  s3Put : Option Error
  newBlobEvent : Option Error
  scanBlobEvent : Option Error
deriving DecidableEq, Repr

/-- No step fails. -/
def Faults.none : Faults := ⟨Option.none, Option.none, Option.none, Option.none⟩

/-- The error `Get` of the backend returns for a hash it does not hold. -/
def ErrBlobNotFound : Error := ⟨"blob not found"⟩

/-- Modelled from the spec: the packfile store (`a4.io/blobsfile`, not part of
the sources at hand). `exists` and `get` read the index; `put` of a hash the
index already contains does not touch the store, otherwise it appends a
record; `enumerate` emits `(hash, size)` by ascending hash over the half-open
range `[start, end)`, and `limit = 0` means unbounded. -/
def refBack (f : Faults) : BlobsFiles Store where
  Exists w hash := (.ok (w.lookup hash).isSome, w)
  Put w hash data :=
    match f.backPut with
    | some err => (some err, w)
    | Option.none =>
      (Option.none, if (w.lookup hash).isSome then w else { w with blobs := w.blobs ++ [(hash, data)] })
  Get w hash :=
    (match w.lookup hash with
     | some data => .ok data
     | Option.none => .error ErrBlobNotFound, w)
  Enumerate w start stop limit :=
    let inRange := (w.blobs.mergeSort (fun a b => decide (a.1 ≤ b.1))).filter
      (fun p => decide (start ≤ p.1) && decide (p.1 < stop))
    let emitted := if limit ≤ 0 then inRange else inRange.take limit.toNat
    ((emitted.map (fun p => ⟨p.1, (p.2.length : Int)⟩), Option.none), w)

/-- Modelled from the spec: the replication worker (`pkg/backend/s3`, not part
of the sources at hand), of which the facade uses `Put(hash)`: enqueue. -/
def refS3 (f : Faults) : S3Backend Store where
  Put w hash :=
    match f.s3Put with
    | some err => (some err, w)
    | Option.none => (Option.none, { w with queue := w.queue ++ [hash] })

/-- Modelled from the spec: the event hub (`pkg/hub`, not part of the sources
at hand). A publication is delivered to the subscribers, or a subscriber fails
and the error surfaces to the publisher. -/
def refHub (f : Faults) : Hub Store where
  NewBlobEvent w blob :=
    match f.newBlobEvent with
    | some err => (some err, w)
    | Option.none => (Option.none, { w with newBlobs := w.newBlobs ++ [blob] })
  ScanBlobEvent w blob :=
    match f.scanBlobEvent with
    | some err => (some err, w)
    | Option.none => (Option.none, { w with scanBlobs := w.scanBlobs ++ [blob] })

/-- The facade over the reference collaborators: `H` is the hasher, `s3on`
says whether replication is configured, `f` decides the faults. -/
def refStore (H : Bytes → String) (s3on : Bool) (f : Faults) : BlobStore Store where
  back := refBack f
  s3back := if s3on then some (refS3 f) else Option.none
  hub := refHub f
  hash := H

/-- The `Put` of the facade over the reference collaborators. -/
def refPut (H : Bytes → String) (s3on : Bool) (f : Faults) (s : Sys Store) (b : Blob) :
    Option Error × Sys Store :=
  (refStore H s3on f).Put s b

/-- The `Get` of the facade over the reference collaborators. -/
def refGet (H : Bytes → String) (s3on : Bool) (f : Faults) (s : Sys Store) (hash : String) :
    Except Error Bytes × Sys Store :=
  (refStore H s3on f).Get s hash

/-- The result of the second of two `Put` calls of the same blob, run one
after the other, the first with the faults `f1`, the second with `f2`. -/
def refPutTwice (H : Bytes → String) (s3on : Bool) (f1 f2 : Faults) (s : Sys Store) (b : Blob) :
    Option Error × Sys Store :=
  refPut H s3on f2 (refPut H s3on f1 s b).2 b

/-- A sequence of `Put` calls, each with the faults the environment decides
for it, whatever each call returns. -/
def runPuts (H : Bytes → String) (s3on : Bool) : List (Faults × Blob) → Sys Store → Sys Store
  | [], s => s
  | (f, b) :: rest, s => runPuts H s3on rest (refPut H s3on f s b).2

/-- The start of every run: nothing stored, no call made. -/
def Sys.init : Sys Store := ⟨Store.empty, []⟩

/-- Is the call a backend `Put` of `hash`? -/
def Call.isBackPut (hash : String) : Call → Bool
  | .backPut h _ _ => h == hash
  | _ => false

/-- Is the call an S3 enqueue of `hash`? -/
def Call.isS3Put (hash : String) : Call → Bool
  | .s3Put h _ => h == hash
  | _ => false

/-- Is the call a `NewBlob` publication? -/
def Call.isNewBlob : Call → Bool
  | .newBlobEvent _ _ => true
  | _ => false

/-- A hasher for the concrete instances: the length of the data, in unary. -/
def toyHash (data : Bytes) : String := String.mk (List.replicate data.length 'a')

/-- The blob `("a", [5])`, well-formed for `toyHash`. -/
def blobA : Blob := ⟨"a", [5]⟩

/-- The blob `("aa", [1, 2])`, well-formed for `toyHash`. -/
def blobB : Blob := ⟨"aa", [1, 2]⟩

/-- The blob `("zz", [1])`, whose hash is not the `toyHash` of its data. -/
def blobBad : Blob := ⟨"zz", [1]⟩

/-- The reference store that holds `blobA`, before any call. -/
def sysA : Sys Store := ⟨⟨[("a", [5])], [], [], []⟩, []⟩

/-- The S3 enqueue fails, every other step takes effect. -/
def faultS3 : Faults := ⟨none, some ⟨"s3 down"⟩, none, none⟩

/-- A backend whose enumeration sends the blob `("aa", 2)` and then reports
an error; every other call succeeds. -/
def scriptedStore : BlobStore Unit where
  back :=
    { Exists := fun w _ => (.ok true, w)
      Put := fun w _ _ => (Option.none, w)
      Get := fun w _ => (.ok [7, 7], w)
      Enumerate := fun w _ _ _ => (([⟨"aa", 2⟩], some ⟨"enumerate failed"⟩), w) }
  s3back := Option.none
  hub := { NewBlobEvent := fun w _ => (Option.none, w), ScanBlobEvent := fun w _ => (Option.none, w) }
  hash := toyHash

/-- The calls made after the first `n` calls of the trace. -/
def Sys.callsSince {W : Type} (s : Sys W) (n : Nat) : List Call :=
  s.trace.drop n

/-- Every record of the backend holds bytes whose digest is its hash. -/
def Store.Sound (H : Bytes → String) (w : Store) : Prop :=
  ∀ p ∈ w.blobs, H p.2 = p.1

/-- The calls `Scan` makes for a blob it publishes: the `Get` of the blob,
which returned `data`, and the delivered `ScanBlob` event carrying the hash
and that `data`. -/
def scanCalls (p : BFBlob × Bytes) : List Call :=
  [.backGet p.1.Hash (.ok p.2), .scanBlobEvent ⟨p.1.Hash, p.2⟩ none]

/-! ## `pkg/rangedb/rangedb.go`

The range iterator over the ordered key-value database `github.com/cznic/kv`.
The database is a collaborator: `Range` is stated over any implementation `KV`
of the methods it calls, and the properties of the sequence a range yields
are stated over the reference database `refKV`. Taking the mutex of the
database is not part of the model. A method called on a `nil` enumerator
panics: the operations return `none` for a panic. -/

/-- The function `bytes.Compare`: `-1`, `0` or `1` as `a` is lexicographically less than,
equal to or greater than `b`. -/
def Compare : Bytes → Bytes → Int
  | [], [] => 0
  | [], _ :: _ => -1
  | _ :: _, [] => 1
  | a :: as, b :: bs => if a < b then -1 else if b < a then 1 else Compare as bs

/-- The error `io.EOF`. -/
def EOF : Error := ⟨"EOF"⟩

/-- The result `(k, v, err)` of `Next` and `Prev`; `none` is `nil`. -/
abbrev Triple := Option Bytes × Option Bytes × Option Error

/-- The methods of `*kv.DB` and of `*kv.Enumerator` the range calls. `Seek`
returns `(enum, hit, err)` and `SeekLast` returns `(enum, err)`, where `enum`
is `none` for a `nil` enumerator; `Next` and `Prev` return a triple and move
the enumerator. -/
structure KV (D E : Type) where
  Seek : D → Bytes → Option E × Bool × Option Error
  SeekLast : D → Option E × Option Error
  Next : E → Triple × E
  Prev : E → Triple × E

/-- The struct `Range`; `db` stands for the database behind `*RangeDB`. -/
structure Range (D E : Type) where
  Reverse : Bool
  Min : Bytes
  Max : Bytes
  db : D
  enum : Option E

/-- The method `RangeDB.Range` (lines 67-74): a range that has no enumerator yet. -/
def RangeDB.Range {D E : Type} (db : D) (min max : Bytes) (reverse : Bool) : Range D E :=
  { Min := min, Max := max, Reverse := reverse, db := db, enum := none }

/-- The method `Range.shouldContinue` (lines 122-128). -/
def Range.shouldContinue {D E : Type} (r : Range D E) (key : Option Bytes) : Bool :=
  if r.Reverse then
    match key with
    | none => false
    | some k => decide (Compare k r.Min ≥ 0)
  else
    match key with
    | none => false
    | some k => decide (Compare k r.Max ≤ 0)

/-- The method `Range.first` (lines 76-99). The error of the forward `Seek` is dropped,
as in the source; `bytes.Compare` reads a `nil` key as the empty key. -/
def Range.first {D E : Type} (kv : KV D E) (r : Range D E) : Option (Triple × Range D E) :=
  if r.Reverse then
    let sk := kv.Seek r.db r.Max
    match sk.2.2 with
    | some err => some ((none, none, some err), { r with enum := sk.1 })
    | none =>
      match sk.1 with
      | none => none
      | some e =>
        let p := kv.Prev e
        if p.1.2.2 = some EOF then
          match (kv.SeekLast r.db).1 with
          | none => none
          | some e2 => some ((kv.Prev e2).1, { r with enum := some (kv.Prev e2).2 })
        else
          match p.1.2.2 with
          | some err => some ((none, none, some err), { r with enum := some p.2 })
          | none =>
            if Compare (p.1.1.getD []) r.Max > 0 then
              some ((kv.Prev p.2).1, { r with enum := some (kv.Prev p.2).2 })
            else
              some (p.1, { r with enum := some p.2 })
  else
    match (kv.Seek r.db r.Min).1 with
    | none => none
    | some e => some ((kv.Next e).1, { r with enum := some (kv.Next e).2 })

/-- The method `Range.next` (lines 101-109). -/
def Range.next {D E : Type} (kv : KV D E) (r : Range D E) : Option (Triple × Range D E) :=
  match r.enum with
  | none => r.first kv
  | some e =>
    if r.Reverse then
      some ((kv.Prev e).1, { r with enum := some (kv.Prev e).2 })
    else
      some ((kv.Next e).1, { r with enum := some (kv.Next e).2 })

/-- The method `Range.Next` (lines 111-120). -/
def Range.Next {D E : Type} (kv : KV D E) (r : Range D E) : Option (Triple × Range D E) :=
  match r.next kv with
  | none => none
  | some (t, r1) =>
    if r1.shouldContinue t.1 then some (t, r1) else some ((none, none, some EOF), r1)

/-- The results of `n` successive calls of `Next` on the range; a call that
panics ends the sequence with `none`. -/
def Range.calls {D E : Type} (kv : KV D E) : Nat → Range D E → List (Option Triple)
  | 0, _ => []
  | n + 1, r =>
    match r.Next kv with
    | none => [none]
    | some (t, r1) => some t :: Range.calls kv n r1

/-- Modelled from the spec: the content of the ordered key-value database of
the range index, the `(k, v)` pairs by ascending key. -/
structure DB where
  items : List (Bytes × Bytes)
deriving DecidableEq, Repr

/-- Modelled from the spec: an enumerator of the database, positioned on
the pair of index `pos`, or on no pair when `pos` is not an index. -/
structure Enumerator where
  items : List (Bytes × Bytes)
  pos : Int
deriving DecidableEq, Repr

/-- The pair the enumerator is positioned on, if any. -/
def Enumerator.cur (e : Enumerator) : Option (Bytes × Bytes) :=
  if 0 ≤ e.pos then e.items[e.pos.toNat]? else none

/-- Modelled from the spec: `Next` returns the pair the enumerator is
positioned on and moves to the next pair in key order; with no pair to
return it returns `io.EOF`. -/
def Enumerator.Next (e : Enumerator) : Triple × Enumerator :=
  match e.cur with
  | some p => ((some p.1, some p.2, none), { e with pos := e.pos + 1 })
  | none => ((none, none, some EOF), e)

/-- Modelled from the spec: `Prev` returns the pair the enumerator is
positioned on and moves to the previous pair in key order; with no pair to
return it returns `io.EOF`. -/
def Enumerator.Prev (e : Enumerator) : Triple × Enumerator :=
  match e.cur with
  | some p => ((some p.1, some p.2, none), { e with pos := e.pos - 1 })
  | none => ((none, none, some EOF), e)

/-- Modelled from the spec: `Seek` returns an enumerator positioned on the
first pair whose key is greater than or equal to `k` (on no pair when there
is none), and whether that key is `k`. -/
def DB.Seek (db : DB) (k : Bytes) : Option Enumerator × Bool × Option Error :=
  let n := (db.items.takeWhile (fun p => decide (Compare p.1 k < 0))).length
  (some ⟨db.items, n⟩,
    (match db.items[n]? with
     | some p => decide (Compare p.1 k = 0)
     | none => false),
    none)

/-- Modelled from the spec: `SeekLast` returns an enumerator positioned on
the last pair; for an empty database it returns no enumerator and `io.EOF`. -/
def DB.SeekLast (db : DB) : Option Enumerator × Option Error :=
  match db.items with
  | [] => (none, some EOF)
  | _ :: _ => (some ⟨db.items, (db.items.length : Int) - 1⟩, none)

/-- The reference database as the collaborator of the range. -/
def refKV : KV DB Enumerator where
  Seek := DB.Seek
  SeekLast := DB.SeekLast
  Next := Enumerator.Next
  Prev := Enumerator.Prev

/-- The keys of the database are strictly ascending. -/
def DB.Sorted (db : DB) : Prop :=
  db.items.Pairwise (fun a b => Compare a.1 b.1 < 0)

instance (db : DB) : Decidable db.Sorted :=
  inferInstanceAs (Decidable
    (db.items.Pairwise (fun (a b : Bytes × Bytes) => Compare a.1 b.1 < 0)))

/-- The pairs of the database whose key is in `[min, max]`, in key order. -/
def DB.inRange (db : DB) (min max : Bytes) : List (Bytes × Bytes) :=
  db.items.filter (fun p => decide (Compare min p.1 ≤ 0) && decide (Compare p.1 max ≤ 0))

/-- A pair as `Next` returns it. -/
def yielded (p : Bytes × Bytes) : Option Triple :=
  some (some p.1, some p.2, none)

/-- The end of the range as `Next` returns it: `(nil, nil, io.EOF)`. -/
def atEnd : Option Triple :=
  some (none, none, some EOF)

/-- The first `n` results of a range that yields the pairs `ps`, in order and
each once, and `io.EOF` from then on. -/
def yieldsThenEOF : Nat → List (Bytes × Bytes) → List (Option Triple)
  | 0, _ => []
  | n + 1, [] => atEnd :: yieldsThenEOF n []
  | n + 1, p :: ps => yielded p :: yieldsThenEOF n ps

/-- The pairs after `(k, v)` is set: the pair replaces the pair of the same
key, or is inserted at its place in key order. -/
def setPair (k v : Bytes) : List (Bytes × Bytes) → List (Bytes × Bytes)
  | [] => [(k, v)]
  | p :: tl =>
    if Compare k p.1 < 0 then (k, v) :: p :: tl
    else if Compare k p.1 = 0 then (k, v) :: tl
    else p :: setPair k v tl

/-- Modelled from the spec: `set(k, v)` of the ordered key-value database. -/
def DB.Set (db : DB) (k v : Bytes) : DB :=
  ⟨setPair k v db.items⟩

/-- The method `RangeDB.Set` (lines 47-54), over the reference database, where a write
does not fail. -/
def RangeDB.Set (db : DB) (k v : Bytes) : Option Error × DB :=
  (none, db.Set k v)

/-- The database a sequence of `Set` calls builds from the empty database. -/
def DB.ofSets (sets : List (Bytes × Bytes)) : DB :=
  sets.foldl (fun db kv => (RangeDB.Set db kv.1 kv.2).2) ⟨[]⟩

/-- A database of four pairs, for the concrete instances. -/
def db4 : DB := ⟨[([1], [10]), ([2], [20]), ([2, 0], [21]), ([4], [40])]⟩

/-! ## `pkg/filetree/writer/filewriter.go`

The tree writer. Its collaborators are not part of the sources at hand: the
blob store it writes to (`up.bs`), the hasher `hashutil.Compute`, the running
BLAKE2b-256 hash, the chunker `github.com/restic/chunker`, the node type
`rnode.RawNode` and the file system. They are fields of `Uploader` and of
`OS`, or modelled from the specification. A `panic` of the writer is the
result `none`. `StartUpload` and `UploadDone` only count the uploads in
flight and are not part of the model. -/

/-- A value of the `data` map of a node (a Go `interface{}`): a string or an
integer. -/
inductive Value where
  | str (s : String)
  | int (n : Int)
deriving DecidableEq, Repr

/-- Modelled from the spec: the struct `rnode.RawNode`, a tree node with
fields `{type, name, size, refs, data}` and its hash; `Kind` is the field
`Type`, a ref is a pair `[offset, hash]`, and `Data` lists the bindings of
the map `data`. -/
structure RawNode where
  Hash : String
  Name : String
  Kind : String
  Size : Int
  Refs : List (Int × String)
  Data : List (String × Value)
deriving DecidableEq, Repr

/-- The node `&rnode.RawNode{}`: every field has its zero value. -/
def RawNode.zero : RawNode := ⟨"", "", "", 0, [], []⟩

/-- Modelled from the spec: `AddIndexedRef(index, hash)` appends the pair
`[index, hash]` to `refs`. -/
def RawNode.AddIndexedRef (n : RawNode) (index : Int) (hash : String) : RawNode :=
  { n with Refs := n.Refs ++ [(index, hash)] }

/-- The bindings of a map after `m[key] = value`. -/
def setKey (key : String) (value : Value) : List (String × Value) → List (String × Value)
  | [] => [(key, value)]
  | p :: tl => if p.1 = key then (key, value) :: tl else p :: setKey key value tl

/-- Modelled from the spec: `AddData(key, value)` sets `data[key] = value`. -/
def RawNode.AddData (n : RawNode) (key : String) (value : Value) : RawNode :=
  { n with Data := setKey key value n.Data }

/-- Modelled from the spec: `Encode()` returns the hash and the bytes of the
encoding of the node, where the encoding `enc` (canonical JSON) covers type,
name, size, refs and data, not the hash, and the hash of a node is the digest
`H` of its encoding. -/
def RawNode.Encode (H : Bytes → String) (enc : RawNode → Bytes) (n : RawNode) : String × Bytes :=
  (H (enc { n with Hash := "" }), enc { n with Hash := "" })

/-- A Go `uint` (64 bits) holding the natural number `n`. -/
def uint (n : Nat) : Nat := n % 2 ^ 64

/-- The conversion `int(x)` of a `uint` to a 64-bit `int`. -/
def intOfUint (x : Nat) : Int :=
  if x < 2 ^ 63 then (x : Int) else (x : Int) - 2 ^ 64

/-- The struct `chunker.Chunk`, of which the writer reads `Length` and
`Data`. -/
structure Chunk where
  Length : Nat
  Data : Bytes
deriving DecidableEq, Repr

/-- An `io.Reader`: the bytes it yields, and then `io.EOF` (`none`) or a read
error. -/
structure Reader where
  data : Bytes
  err : Option Error
deriving DecidableEq, Repr

/-- One call of the writer to the blob store, with what the call returned. -/
inductive UpCall where
  | stat (hash : String) (found : Bool) (err : Option Error)
  | put (hash : String) (data : Bytes) (err : Option Error)
deriving DecidableEq, Repr

/-- The methods of the blob store `up.bs` the writer calls: `Stat(hash)`
returns `(exists, err)` and `Put(hash, data)` returns an error or `nil`. -/
structure BlobStorer (W : Type) where
  Stat : W → String → (Bool × Option Error) × W
  Put : W → String → Bytes → Option Error × W

/-- The struct `Uploader` with what `writeReader` uses: the blob store `bs`,
`hash` for `hashutil.Compute`, `blake2b` for the hexadecimal BLAKE2b-256
digest `fmt.Sprintf("%x", fullHash.Sum(nil))` of the bytes written to
`fullHash`, `enc` for the encoding of a node, and `chunker`: for a polynomial
and a reader, the results `(chunk, err)` of the successive calls of `Next` on
`chunker.New(reader, pol)` before `Next` reports the end of the stream. -/
structure Uploader (W : Type) where
  bs : BlobStorer W
  hash : Bytes → String
  blake2b : Bytes → String
  enc : RawNode → Bytes
  chunker : Nat → Reader → List (Chunk × Option Error)

/-- The state the writer runs on: the world of the blob store and the calls
made to it so far. -/
structure UpSys (W : Type) where
  world : W
  calls : List UpCall

/-- Record the call `c`, after which the world is `w`. -/
def UpSys.call {W : Type} (s : UpSys W) (c : UpCall) (w : W) : UpSys W :=
  ⟨w, s.calls ++ [c]⟩

/-- The polynomial `pol` (line 17). -/
def pol : Nat := 0x3c657535c4d6f5

/-- How a call of the writer ends: it returns `a`, or it panics. -/
inductive Outcome (α : Type) where
  | ret (a : α)
  | panic
deriving DecidableEq, Repr

/-- The loop of `writeReader` (lines 33-57) over the results of `Next` still
to come; `size` is the variable `size`. The loop ends when `Next` returns
`io.EOF`: at such a result, or after the last result. In the body, `err` is
assigned by `Next` and then again by `Stat` (line 41), so that the test of
line 54 reads the error of `Stat`. The loop returns `(err, size, meta)`,
where `err` is the error a `return err` of the body returned, or it panics;
the state is the one reached in either case. -/
def Uploader.writeLoop {W : Type} (up : Uploader W) :
    List (Chunk × Option Error) → Nat → UpSys W → RawNode →
      Outcome (Option Error × Nat × RawNode) × UpSys W
  | [], size, s, m => (.ret (none, size, m), s)
  | (chunk, err) :: rest, size, s, m =>
    if err = some EOF then (.ret (none, size, m), s)
    else
      let chunkHash := up.hash chunk.Data
      let size1 := uint (size + chunk.Length)
      let st := up.bs.Stat s.world chunkHash
      let s1 := s.call (.stat chunkHash st.1.1 st.1.2) st.2
      match st.1.2 with
      | some _ => (.panic, s1)
      | none =>
        let put : Option Error × UpSys W :=
          if st.1.1 then (none, s1)
          else
            let p := up.bs.Put s1.world chunkHash chunk.Data
            (p.1, s1.call (.put chunkHash chunk.Data p.1) p.2)
        match put.1 with
        | some _ => (.panic, put.2)
        | none =>
          let m1 := m.AddIndexedRef (intOfUint size1) chunkHash
          match st.1.2 with
          | some e => (.ret (some e, size1, m1), put.2)
          | none => Uploader.writeLoop up rest size1 put.2 m1

/-- The method `Uploader.writeReader` (lines 20-60): the reader `f` is read
through a tee into `fullHash` by the chunker, so that `fullHash` has received
the bytes of `f` when the loop ends. It returns the error and the node `meta`
as updated. -/
def Uploader.writeReader {W : Type} (up : Uploader W) (s : UpSys W) (f : Reader)
    (m : RawNode) : Outcome (Option Error × RawNode) × UpSys W :=
  match up.writeLoop (up.chunker pol f) 0 s m with
  | (.panic, s1) => (.panic, s1)
  | (.ret (some e, _, m1), s1) => (.ret (some e, m1), s1)
  | (.ret (none, size, m1), s1) =>
    (.ret (none,
      ({ m1 with Size := intOfUint size }).AddData "blake2b-hash" (.str (up.blake2b f.data))),
     s1)

/-- The method `Uploader.PutMeta` (lines 121-140): it returns the error and
the node `meta` as updated. The same statements end `PutFile` (lines 101-118)
and `PutReader` (lines 187-204). -/
def Uploader.PutMeta {W : Type} (up : Uploader W) (s : UpSys W) (m : RawNode) :
    (Option Error × RawNode) × UpSys W :=
  let e := m.Encode up.hash up.enc
  let st := up.bs.Stat s.world e.1
  let s1 := s.call (.stat e.1 st.1.1 st.1.2) st.2
  match st.1.2 with
  | some err => ((some ⟨"failed to stat blob " ++ e.1 ++ ": " ++ err.msg⟩, m), s1)
  | none =>
    if st.1.1 then ((none, { m with Hash := e.1 }), s1)
    else
      let p := up.bs.Put s1.world e.1 e.2
      let s2 := s1.call (.put e.1 e.2 p.1) p.2
      match p.1 with
      | some err => ((some ⟨"failed to put blob " ++ e.1 ++ ": " ++ err.msg⟩, m), s2)
      | none => ((none, { m with Hash := e.1 }), s2)

/-- The end of `PutFile` and of `PutReader`: the statements of `PutMeta`,
after which the node is returned, or `nil` and the error. -/
def Uploader.putNode {W : Type} (up : Uploader W) (s : UpSys W) (m : RawNode) :
    Outcome (Except Error RawNode) × UpSys W :=
  match (up.PutMeta s m).1.1 with
  | some err => (.ret (.error err), (up.PutMeta s m).2)
  | none => (.ret (.ok (up.PutMeta s m).1.2), (up.PutMeta s m).2)

/-- The call of `writeReader` and the statements that follow it in `PutFile`
(lines 92-118) and in `PutReader` (lines 178-204): an error of `writeReader`
is returned, and else the node is encoded and put. -/
def Uploader.writeAndPut {W : Type} (up : Uploader W) (s : UpSys W) (f : Reader) (m : RawNode) :
    Outcome (Except Error RawNode) × UpSys W :=
  match up.writeReader s f m with
  | (.panic, s1) => (.panic, s1)
  | (.ret (some err, _), s1) => (.ret (.error err), s1)
  | (.ret (none, m1), s1) => up.putNode s1 m1

/-- The function `filepath.Split` on a slash-separated path: the path is
split after its last slash into directory and file. -/
def filepathSplit (path : String) : String × String :=
  (String.mk (path.toList.reverse.dropWhile (fun c => c != '/')).reverse,
   String.mk (path.toList.reverse.takeWhile (fun c => c != '/')).reverse)

/-- The function `filepath.Base` on a slash-separated path: the last element
of the path, after the trailing slashes are removed; `"."` for the empty
path and `"/"` for a path of slashes only. -/
def filepathBase (path : String) : String :=
  if path.toList = [] then "."
  else
    if ((path.toList.reverse.dropWhile (fun c => c == '/')).takeWhile (fun c => c != '/')) = []
    then "/"
    else
      String.mk
        ((path.toList.reverse.dropWhile (fun c => c == '/')).takeWhile (fun c => c != '/')).reverse

/-- The node `meta` of `PutReader` before the call of `writeReader` (lines
169-176); `data` is `none` for a `nil` map and else lists the bindings of the
map, which `range` visits in the order of the list. -/
def startNode (name : String) (data : Option (List (String × Value))) : RawNode :=
  match data with
  | none => { RawNode.zero with Name := filepathBase name, Kind := "file" }
  | some kvs =>
    kvs.foldl (fun (m : RawNode) (kv : String × Value) => m.AddData kv.1 kv.2)
      { RawNode.zero with Name := filepathBase name, Kind := "file" }

/-- The method `Uploader.PutReader` (lines 165-205). -/
def Uploader.PutReader {W : Type} (up : Uploader W) (s : UpSys W) (name : String)
    (reader : Reader) (data : Option (List (String × Value))) :
    Outcome (Except Error RawNode) × UpSys W :=
  up.writeAndPut s reader (startNode name data)

/-- What `os.Stat` returns: the file info, of which the writer reads the
size, or an error for which `os.IsNotExist` holds, or another error. -/
inductive StatResult where
  | info (size : Int)
  | notExist (err : Error)
  | failed (err : Error)
deriving DecidableEq, Repr

/-- The file system calls of `PutFile`: `os.Stat` and `os.Open`, where an
open file is the reader of its contents. -/
structure OS where
  Stat : String → StatResult
  Open : String → Except Error Reader

/-- The method `Uploader.PutFile` (lines 69-119). After an error of `os.Stat`
for which `os.IsNotExist` does not hold, `fstat` is `nil` and `fstat.Size()`
panics. -/
def Uploader.PutFile {W : Type} (up : Uploader W) (os : OS) (s : UpSys W) (path : String) :
    Outcome (Except Error RawNode) × UpSys W :=
  match os.Stat path with
  | .notExist err => (.ret (.error err), s)
  | .failed _ => (.panic, s)
  | .info size =>
    let m : RawNode :=
      { RawNode.zero with Name := (filepathSplit path).2, Size := size, Kind := "file" }
    if size > 0 then
      match os.Open path with
      | .error err => (.ret (.error err), s)
      | .ok f => up.writeAndPut s f m
    else up.putNode s m

/-- The file system in which `path` is a regular file of contents `c`, and
nothing else exists. -/
def OS.single (path : String) (c : Bytes) : OS where
  Stat p := if p = path then .info c.length else .notExist ⟨"no such file or directory"⟩
  Open p := if p = path then .ok ⟨c, none⟩ else .error ⟨"no such file or directory"⟩

/-- Modelled from the spec: the blob store the writer writes to, over the
reference packfile store: `Stat` is `exists`, which reads the index, and
`Put` is `put`. -/
def refBlobStorer (f : Faults) : BlobStorer Store where
  Stat w hash := (((w.lookup hash).isSome, none), w)
  Put w hash data := (refBack f).Put w hash data

/-- The results of `Next` for a stream the chunker splits into the chunks
`cs`: every chunk with its length and no error. -/
def chunkResults (cs : List Bytes) : List (Chunk × Option Error) :=
  cs.map (fun c => (⟨c.length, c⟩, none))

/-- The refs of the chunks `cs` after `acc` bytes: for every chunk, the
number of bytes up to its end and its digest. -/
def refsFrom (H : Bytes → String) : Nat → List Bytes → List (Int × String)
  | _, [] => []
  | acc, c :: cs => ((acc + c.length : Nat), H c) :: refsFrom H (acc + c.length) cs

/-- The node of a returned `(node, nil)`, if the call returned one. -/
def nodeOf {W : Type} (r : Outcome (Except Error RawNode) × UpSys W) : Option RawNode :=
  match r.1 with
  | .ret (.ok n) => some n
  | _ => none

/-- The calls made after the first `n` calls. -/
def UpSys.callsSince {W : Type} (s : UpSys W) (n : Nat) : List UpCall :=
  s.calls.drop n

/-- Is the call a `Put`? -/
def UpCall.isPut : UpCall → Bool
  | .put _ _ _ => true
  | _ => false

/-- A `Put` names the digest of its data; a `Stat` is not constrained. -/
def UpCall.hashed (H : Bytes → String) : UpCall → Prop
  | .put h d _ => h = H d
  | .stat _ _ _ => True

/-- Every `Put` of the calls follows at once a `Stat` of the same hash that
reported the blob absent, without error: the calls are `Stat` calls, each
followed or not by such a `Put`. -/
inductive Guarded : List UpCall → Prop where
  | nil : Guarded []
  | stat (h : String) (found : Bool) (err : Option Error) (rest : List UpCall) :
      Guarded rest → Guarded (.stat h found err :: rest)
  | statPut (h : String) (d : Bytes) (err : Option Error) (rest : List UpCall) :
      Guarded rest → Guarded (.stat h false none :: .put h d err :: rest)

/-- The state after the call `Stat(hash)` of the writer. -/
def Uploader.statted {W : Type} (up : Uploader W) (s : UpSys W) (hash : String) : UpSys W :=
  s.call (.stat hash (up.bs.Stat s.world hash).1.1 (up.bs.Stat s.world hash).1.2)
    (up.bs.Stat s.world hash).2

/-- The state after the calls `Stat(hash)` and `Put(hash, data)` of the
writer. -/
def Uploader.stored {W : Type} (up : Uploader W) (s : UpSys W) (hash : String) (data : Bytes) :
    UpSys W :=
  (up.statted s hash).call
    (.put hash data (up.bs.Put (up.statted s hash).world hash data).1)
    (up.bs.Put (up.statted s hash).world hash data).2

/-- The calls of the writer from the state `s` to the state `t`: `t` holds
the calls of `s` and then calls that are guarded, that name the digest of the
data they put, and that put only data among `ds`. -/
def Adds {W : Type} (H : Bytes → String) (ds : List Bytes) (s t : UpSys W) : Prop :=
  ∃ new, t.calls = s.calls ++ new ∧ Guarded new ∧ (∀ c ∈ new, c.hashed H) ∧
    ∀ h d e, UpCall.put h d e ∈ new → d ∈ ds

/-- The results of `Next` the loop of `writeReader` works on: those before
the first `io.EOF`. -/
def processed (rs : List (Chunk × Option Error)) : List (Chunk × Option Error) :=
  rs.takeWhile (fun r => decide (r.2 ≠ some EOF))

/-- The store `w2` holds what the store `w` holds, under the same hashes. -/
def Store.Below (w w2 : Store) : Prop :=
  ∀ h d, w.lookup h = some d → w2.lookup h = some d

/-- The `Stat` calls of a run of the loop of `writeReader` that finds every
chunk in the store. -/
def foundCalls (H : Bytes → String) (rs : List (Chunk × Option Error)) : List UpCall :=
  (processed rs).map (fun r => .stat (H r.1.Data) true none)

/-- What the loop of `writeReader` computes when it returns: the size and the
node, from the results of `Next` and the hasher alone. -/
def loopRet (H : Bytes → String) : List (Chunk × Option Error) → Nat → RawNode → Nat × RawNode
  | [], size, m => (size, m)
  | (chunk, err) :: rest, size, m =>
    if err = some EOF then (size, m)
    else
      loopRet H rest (uint (size + chunk.Length))
        (m.AddIndexedRef (intOfUint (uint (size + chunk.Length))) (H chunk.Data))

/-- The node `writeReader` returns, when it returns without error, from the
results `rs` of `Next` on a stream of bytes `data`, with the hasher `H` and
the digest `B` of the stream. -/
def readerNode (H B : Bytes → String) (rs : List (Chunk × Option Error)) (data : Bytes)
    (m : RawNode) : RawNode :=
  ({ (loopRet H rs 0 m).2 with Size := intOfUint (loopRet H rs 0 m).1 }).AddData
    "blake2b-hash" (.str (B data))

/-- What the writer is asked to ingest: a stream under a name with data, for
`PutReader`, or the file at a path of a file system, for `PutFile`. -/
inductive Input where
  | reader (name : String) (r : Reader) (data : Option (List (String × Value)))
  | file (os : OS) (path : String)

/-- The call of `PutReader` or of `PutFile` on the input. -/
def Uploader.ingest {W : Type} (up : Uploader W) (s : UpSys W) :
    Input → Outcome (Except Error RawNode) × UpSys W
  | .reader name r data => up.PutReader s name r data
  | .file os path => up.PutFile os s path

/-! ## The chunker

Modelled from the spec: content-defined chunking with a rolling hash over a
window of 64 bytes; a chunk boundary is declared when the rolling hash of the
window matches the target mask, never before the hard minimum and at the
latest at the hard maximum. The rolling hash is a parameter `cut`: for the
polynomial and the window, whether the hash matches the mask. -/

/-- The hard minimum of a chunk: 512 KiB. -/
def MinSize : Nat := 512 * 1024

/-- The hard maximum of a chunk: 8 MiB. -/
def MaxSize : Nat := 8 * 1024 * 1024

/-- The size of the rolling window: 64 bytes. -/
def windowSize : Nat := 64

/-- The last `windowSize` bytes of the chunk read so far. -/
def window (cur : Bytes) : Bytes :=
  cur.drop (cur.length - windowSize)

/-- Modelled from the spec: the chunks of a stream. `cur` is the chunk read
so far and the second argument the bytes still to read; `fin` is how the
stream ends (`none` for `io.EOF`, or a read error). At the end of the stream
the bytes read so far are the last chunk, if there are any; at a read error
the current chunk is abandoned and the error returned. -/
def chunkLoop (min max : Nat) (cut : Bytes → Bool) (fin : Option Error) :
    Bytes → Bytes → List (Chunk × Option Error)
  | cur, [] =>
    match fin with
    | none => if cur = [] then [] else [(⟨cur.length, cur⟩, none)]
    | some e => [(⟨0, []⟩, some e)]
  | cur, b :: rest =>
    if min ≤ cur.length + 1 ∧ (cut (window (cur ++ [b])) = true ∨ max ≤ cur.length + 1) then
      (⟨cur.length + 1, cur ++ [b]⟩, none) :: chunkLoop min max cut fin [] rest
    else chunkLoop min max cut fin (cur ++ [b]) rest

/-- Modelled from the spec: the chunker with hard minimum `min` and hard
maximum `max`, as the results of the calls of `Next` for a polynomial and a
reader. -/
def chunkerOf (min max : Nat) (cut : Nat → Bytes → Bool) (p : Nat) (r : Reader) :
    List (Chunk × Option Error) :=
  chunkLoop min max (cut p) r.err [] r.data

/-- Modelled from the spec: the chunker of the tree writer, with hard
minimum 512 KiB and hard maximum 8 MiB. -/
def specChunker (cut : Nat → Bytes → Bool) : Nat → Reader → List (Chunk × Option Error) :=
  chunkerOf MinSize MaxSize cut

/-- The data of the chunks among the results of `Next`. -/
def chunkData (rs : List (Chunk × Option Error)) : List Bytes :=
  rs.map (fun r => r.1.Data)

/-! ## The upload handler -/

/-- What a call of `mr.NextPart()` returns before `io.EOF`: a part, with its
form name and the bytes read from it, or an error. -/
inductive PartRead where
  | part (name : String) (body : Bytes)
  | failed (err : Error)
deriving DecidableEq, Repr

/-- What the handler writes to the `http.ResponseWriter`, as the call it
makes: `httputil.Error(w, err)`, `httputil.WriteJSONError(w, status, msg)` or
`w.WriteHeader(status)`. -/
inductive Reply where
  | error (err : Error)
  | jsonError (status : Nat) (msg : String)
  | header (status : Nat)
deriving DecidableEq, Repr

/-- The constant `http.StatusInternalServerError`. -/
def StatusInternalServerError : Nat := 500

/-- The constant `http.StatusMethodNotAllowed`. -/
def StatusMethodNotAllowed : Nat := 405

/-- What the handler reads of the `http.Request`: the method, and what
`r.MultipartReader()` returns: an error, or the reader, given by the results
of its `NextPart` calls before `io.EOF`. -/
structure Request where
  Method : String
  parts : Except Error (List PartRead)

/-- The state of the handler: the state of the blob store, the replies
written so far, and the blobs handed to `bs.Put` so far. -/
structure Handling (W : Type) where
  sys : Sys W
  replies : List Reply
  puts : List Blob

/-- The loop of `uploadHandler` (lines 45-67) over the results of `NextPart`
still to come. A failed `NextPart` and a part whose form name is not the
digest of its body end the handler; a failed `Put` is reported and the loop
goes on. -/
def BlobStore.uploadLoop {W : Type} (bs : BlobStore W) :
    List PartRead → Handling W → Handling W
  | [], h => h
  | .failed err :: _, h => { h with replies := h.replies ++ [.error err] }
  | .part hash blob :: rest, h =>
    let chash := bs.hash blob
    if hash ≠ chash then
      { h with replies := h.replies ++
          [.jsonError StatusInternalServerError
            ("blob corrupted, hash does not match, expected " ++ chash)] }
    else
      let r := bs.Put h.sys ⟨hash, blob⟩
      BlobStore.uploadLoop bs rest
        { sys := r.2,
          replies :=
            match r.1 with
            | some err => h.replies ++ [.jsonError StatusInternalServerError err.msg]
            | none => h.replies,
          puts := h.puts ++ [⟨hash, blob⟩] }

/-- The handler `uploadHandler` (lines 25-73), from the state `s` of the blob
store. -/
def BlobStore.uploadHandler {W : Type} (bs : BlobStore W) (r : Request) (s : Sys W) :
    Handling W :=
  if r.Method = "GET" then ⟨s, [], []⟩
  else if r.Method = "POST" then
    match r.parts with
    | .error err => ⟨s, [.error err], []⟩
    | .ok parts => bs.uploadLoop parts ⟨s, [], []⟩
  else ⟨s, [.header StatusMethodNotAllowed], []⟩

/-- Is the result of `NextPart` a part whose form name is the digest of its
body? -/
def PartRead.wellFormed (H : Bytes → String) : PartRead → Bool
  | .part name body => decide (name = H body)
  | .failed _ => false

/-! ## The configuration of the replication -/

/-- The struct `S3Repl`. -/
structure S3Repl where
  Bucket : String
  Region : String
  KeyFile : String
deriving DecidableEq, Repr

/-- The builtin `copy(dst, src)`, as the contents of `dst` after the call:
the first `min(len(dst), len(src))` elements are those of `src`. -/
def goCopy (dst src : Bytes) : Bytes :=
  src.take dst.length ++ dst.drop src.length

/-- The method `S3Repl.Key` (lines 48-59); `readFile` is `ioutil.ReadFile`.
The key returned is the array `out`, `none` for the `nil` pointer. -/
def S3Repl.Key (readFile : String → Except Error Bytes) (s3 : S3Repl) :
    Except Error (Option Bytes) :=
  if s3.KeyFile = "" then .ok none
  else
    let out : Bytes := List.replicate 32 0
    match readFile s3.KeyFile with
    | .error err => .error err
    | .ok data => .ok (some (goCopy out data))

/-! ## The construction of the facade -/

/-- The struct `config.Config`, of which `New` reads `S3Repl`; `none` is the
Go `nil`. -/
structure Config where
  S3Repl : Option S3Repl
deriving DecidableEq, Repr

/-- Is replication configured: `S3Repl` present with a non-empty bucket (the
test of line 39). -/
def Config.replicates (conf : Config) : Bool :=
  match conf.S3Repl with
  | some s3repl => decide (s3repl.Bucket ≠ "")
  | none => false

/-- The function `New` (lines 31-55). `newBack` is what `blobsfile.New`
returns and `newS3` what `s3.New` returns for the backend; `hash` is the
hasher of `blob.Check`. The configuration and the logger, which `Put` does
not read, are not kept. -/
def New {W : Type} (conf2 : Config) (hub : Hub W) (hash : Bytes → String)
    (newBack : Except Error (BlobsFiles W))
    (newS3 : BlobsFiles W → Except Error (S3Backend W)) : Except Error (BlobStore W) :=
  match newBack with
  | .error err => .error ⟨"failed to init BlobsFile: " ++ err.msg⟩
  | .ok back =>
    match conf2.S3Repl with
    | some s3repl =>
      if s3repl.Bucket ≠ "" then
        match newS3 back with
        | .error err => .error err
        | .ok s3back => .ok ⟨back, some s3back, hub, hash⟩
      else .ok ⟨back, none, hub, hash⟩
    | none => .ok ⟨back, none, hub, hash⟩

/-! ## The tags of a context: `pkg/ctxutil/ctxutil.go` -/

/-- A key of a context value: a key of the unexported type `key` of `ctxutil`
(lines 8-13), or a key of another type, which equals no key of `ctxutil`. -/
inductive CtxKey where
  | key (n : Int)
  | foreign (id : Nat)
deriving DecidableEq, Repr

/-- The constant `requestKey` (line 11). -/
def requestKey : CtxKey := .key 0

/-- The constant `namespaceKey` (line 12). -/
def namespaceKey : CtxKey := .key 1

/-- A value held by a context (an `interface{}`): a string, a pointer
`*http.Request` (`none` for the `nil` pointer), or a value of another type. -/
inductive CtxValue where
  | str (s : String)
  | request (r : Option Request)
  | other (n : Nat)

/-- The type `context.Context` of the standard library: the background
context, or a context derived by `context.WithValue(parent, key, val)`. -/
inductive Context where
  | background
  | withValue (parent : Context) (key : CtxKey) (val : CtxValue)

/-- The method `ctx.Value(key)` of the standard library: the value of the
innermost `WithValue` for the key, or `nil` (`none`). -/
def Context.Value : Context → CtxKey → Option CtxValue
  | .background, _ => none
  | .withValue parent k v, key => if key = k then some v else parent.Value key

/-- Was the context derived, at some point, with a value for the key? -/
def Context.tagged : Context → CtxKey → Bool
  | .background, _ => false
  | .withValue parent k _, key => decide (key = k) || parent.tagged key

/-- The function `WithNamespace` (lines 15-17). -/
def ctxutil.WithNamespace (ctx : Context) (ns : String) : Context :=
  .withValue ctx namespaceKey (.str ns)

/-- The function `Namespace` (lines 19-22): the type assertion with `ok`
gives the zero value and `false` for a value that is not a string, and for
`nil`. -/
def ctxutil.Namespace (ctx : Context) : String × Bool :=
  match ctx.Value namespaceKey with
  | some (.str ns) => (ns, true)
  | _ => ("", false)

/-- The function `WithRequest` (lines 24-26). -/
def ctxutil.WithRequest (ctx : Context) (req : Option Request) : Context :=
  .withValue ctx requestKey (.request req)

/-- The function `Request` (lines 28-34): the type assertion of line 31
panics for a value that is not a `*http.Request`; a `nil` pointer held by the
context is not the `nil` interface. -/
def ctxutil.Request (ctx : Context) : Outcome (Option Request × Bool) :=
  match ctx.Value requestKey with
  | none => .ret (none, false)
  | some (.request req) => .ret (req, true)
  | some _ => .panic

/-! ## The cursor of the enumeration: `nextHexKey` of `pkg/blobstore/http.go` -/

/-- The table `hextable` of `encoding/hex`. -/
def hextable : List Char := "0123456789abcdef".toList

/-- The hexadecimal digit of a value below 16. -/
def hexDigit (n : Nat) : Char := hextable.getD n '0'

/-- The function `fromHexChar` of `encoding/hex`: the value of a hexadecimal
digit, in lower or upper case. -/
def fromHexChar (c : Char) : Option Nat :=
  if 48 ≤ c.toNat ∧ c.toNat ≤ 57 then some (c.toNat - 48)
  else if 97 ≤ c.toNat ∧ c.toNat ≤ 102 then some (c.toNat - 97 + 10)
  else if 65 ≤ c.toNat ∧ c.toNat ≤ 70 then some (c.toNat - 65 + 10)
  else none

/-- The function `hex.DecodeString` of the standard library: two digits per
byte; `none` is an error (a character that is no hexadecimal digit, or an odd
length). -/
def hexDecode : List Char → Option Bytes
  | [] => some []
  | [_] => none
  | a :: b :: rest =>
    match fromHexChar a, fromHexChar b, hexDecode rest with
    | some x, some y, some tl => some ((x * 16 + y) :: tl)
    | _, _, _ => none

/-- The function `hex.EncodeToString` of the standard library: two lower
case digits per byte. -/
def hexEncode : Bytes → List Char
  | [] => []
  | v :: rest => hexDigit (v / 16) :: hexDigit (v % 16) :: hexEncode rest

/-- The loop of `nextHexKey` (lines 121-128) on the bytes in reverse order:
the byte is incremented, as a `byte`, and the loop goes on to the byte before
while the result is zero. -/
def incrRev : Bytes → Bytes
  | [] => []
  | b :: rest => if (b + 1) % 256 ≠ 0 then ((b + 1) % 256) :: rest else 0 :: incrRev rest

/-- The bytes `bkey` after the loop of `nextHexKey`. -/
def incr (bkey : Bytes) : Bytes :=
  (incrRev bkey.reverse).reverse

/-- The function `nextHexKey` (lines 115-130); `none` is the panic on a key
that does not decode. -/
def nextHexKey (key : String) : Option String :=
  match hexDecode key.toList with
  | none => none
  | some bkey => some (String.mk (hexEncode (incr bkey)))

/-- The big-endian integer the bytes encode. -/
def beValue : Bytes → Nat
  | [] => 0
  | x :: rest => x * 256 ^ rest.length + beValue rest

/-- The little-endian integer the bytes encode. -/
def leValue : Bytes → Nat
  | [] => 0
  | x :: rest => x + 256 * leValue rest

/-- The bytes of a string of ASCII characters. -/
def strBytes (s : String) : Bytes :=
  s.toList.map Char.toNat

/-- The order of Go strings: the order of `bytes.Compare` on their bytes. -/
def strLess (a b : String) : Prop :=
  Compare (strBytes a) (strBytes b) < 0

instance (a b : String) : Decidable (strLess a b) :=
  inferInstanceAs (Decidable (Compare (strBytes a) (strBytes b) < 0))

/-! ## The file writer of the client: `client/filewriter.go`

The declarations of `WriteResult`, `SHA1` and `Client` are not part of the
sources at hand; `FileWriter` is stated over the fields and functions it
uses. The rolling checksum `rs` is the function `onSplit` of the bytes
written to it so far; the file is the bytes its reads return before `io.EOF`.
The redis connection is a collaborator over an arbitrary world; its calls are
recorded in a ghost list. -/

/-- The struct `WriteResult`, with the fields `FileWriter` sets. -/
structure WriteResult where
  Hash : String
  Size : Int
  BlobsCnt : Int
  SkippedCnt : Int
  SkippedSize : Int
  UploadedCnt : Int
  UploadedSize : Int
deriving DecidableEq, Repr

/-- The zero value `&WriteResult{}` (line 21). -/
def WriteResult.zero : WriteResult := ⟨"", 0, 0, 0, 0, 0, 0⟩

/-- One command sent on the connection, with what it returned. -/
inductive DbCall where
  | txinit (txID : String) (res : Option Error)
  | bexists (hash : String) (res : Except Error Bool)
  | bput (data : Bytes) (res : Except Error String)
  | ladd (key : String) (index : Int) (hash : String)
deriving DecidableEq

/-- The commands `FileWriter` sends with `con.Do`: `TXINIT`, `BEXISTS` read
with `redis.Bool`, `BPUT` read with `redis.String`, and `LADD`, whose reply
is dropped. -/
structure Conn (W : Type) where
  TXINIT : W → String → Option Error × W
  BEXISTS : W → String → Except Error Bool × W
  BPUT : W → Bytes → Except Error String × W
  LADD : W → String → Int → String → W

/-- What `FileWriter` uses of the client and of its packages: the connection
`client.Pool.Get()`, the digest `SHA1` of a chunk, the hexadecimal digest
`fullSum` of the bytes written to `fullHash`, the split signal `onSplit` of
the rolling checksum after the bytes written to it, and `os.Open` with the
reads of the file. -/
structure Client (W : Type) where
  con : Conn W
  SHA1 : Bytes → String
  fullSum : Bytes → String
  onSplit : Bytes → Bool
  Open : String → Except Error Bytes

/-- The state `FileWriter` runs on: the world of the connection and the
commands sent so far. -/
structure FwSys (W : Type) where
  world : W
  calls : List DbCall

/-- Record the command `c`, after which the world is `w`. -/
def FwSys.call {W : Type} (s : FwSys W) (c : DbCall) (w : W) : FwSys W :=
  ⟨w, s.calls ++ [c]⟩

/-- The body of the `if` of lines 53-82, for the buffer `buf`: the chunk is
looked up and, when absent, put; the size grows by the length of the chunk
and `LADD` records the size and the digest. It returns the write result and
the bytes written to `fullHash`, or panics. -/
def Client.flush {W : Type} (cl : Client W) (key : String) (s : FwSys W) (wr : WriteResult)
    (full buf : Bytes) : Outcome (WriteResult × Bytes) × FwSys W :=
  let nsha := cl.SHA1 buf
  let ex := cl.con.BEXISTS s.world nsha
  let s1 := s.call (.bexists nsha ex.1) ex.2
  match ex.1 with
  | .error _ => (.panic, s1)
  | .ok found =>
    let up : Outcome WriteResult × FwSys W :=
      if !found then
        let p := cl.con.BPUT s1.world buf
        let s2 := s1.call (.bput buf p.1) p.2
        match p.1 with
        | .error _ => (.panic, s2)
        | .ok rsha =>
          if rsha ≠ nsha then (.panic, s2)
          else
            (.ret { wr with UploadedCnt := wr.UploadedCnt + 1,
                            UploadedSize := wr.UploadedSize + buf.length }, s2)
      else
        (.ret { wr with SkippedSize := wr.SkippedSize + buf.length,
                        SkippedCnt := wr.SkippedCnt + 1 }, s1)
    match up with
    | (.panic, s2) => (.panic, s2)
    | (.ret wr1, s2) =>
      (.ret ({ wr1 with Size := wr1.Size + buf.length, BlobsCnt := wr1.BlobsCnt + 1 },
          full ++ buf),
        s2.call (.ladd key (wr1.Size + buf.length) nsha)
          (cl.con.LADD s2.world key (wr1.Size + buf.length) nsha))

/-- The loop of `FileWriter` (lines 42-86) over the bytes still to read, with
the thresholds `lo` for a split and `hi` for a full buffer; `hist` are the
bytes written to the rolling checksum and `buf` is the buffer. After the last
byte the read returns `io.EOF`, the buffer is flushed, and the loop ends. -/
def Client.fileLoop {W : Type} (cl : Client W) (key : String) (lo hi : Nat) :
    Bytes → Bytes → Bytes → WriteResult → Bytes → FwSys W →
      Outcome (WriteResult × Bytes) × FwSys W
  | [], _, buf, wr, full, s => cl.flush key s wr full buf
  | b :: rest, hist, buf, wr, full, s =>
    if (cl.onSplit (hist ++ [b]) = true ∧ (buf ++ [b]).length > lo) ∨ (buf ++ [b]).length ≥ hi
    then
      match cl.flush key s wr full (buf ++ [b]) with
      | (.panic, s1) => (.panic, s1)
      | (.ret (wr1, full1), s1) => Client.fileLoop cl key lo hi rest (hist ++ [b]) [] wr1 full1 s1
    else Client.fileLoop cl key lo hi rest (hist ++ [b]) (buf ++ [b]) wr full s

/-- The method `Client.FileWriter` (lines 20-90): it returns the write result
and the error, or panics. -/
def Client.FileWriter {W : Type} (cl : Client W) (s : FwSys W) (txID key path : String) :
    Outcome (WriteResult × Option Error) × FwSys W :=
  match cl.Open path with
  | .error err => (.ret (WriteResult.zero, some err), s)
  | .ok data =>
    let t := cl.con.TXINIT s.world txID
    let s1 := s.call (.txinit txID t.1) t.2
    match t.1 with
    | some err => (.ret (WriteResult.zero, some err), s1)
    | none =>
      match cl.fileLoop key (64 <<< 10) (1 <<< 20) data [] [] WriteResult.zero [] s1 with
      | (.panic, s2) => (.panic, s2)
      | (.ret (wr, full), s2) => (.ret ({ wr with Hash := cl.fullSum full }, none), s2)

/-- The offsets and digests recorded with `LADD`, in the order of the
commands. -/
def laddsOf : List DbCall → List (Int × String)
  | [] => []
  | .ladd _ index hash :: rest => (index, hash) :: laddsOf rest
  | _ :: rest => laddsOf rest

/-- Modelled from the spec: a connection to a server that holds the blobs by
digest and accepts every command: `BEXISTS` looks the digest up, `BPUT`
stores the data and returns its digest `H`, `LADD` is accepted. -/
def refConn (H : Bytes → String) : Conn (List (String × Bytes)) where
  TXINIT w _ := (none, w)
  BEXISTS w hash := (.ok (List.lookup hash w).isSome, w)
  BPUT w data := (.ok (H data), w ++ [(H data, data)])
  LADD w _ _ _ := w

/-! ## The restore of a directory: `pkg/filetree/reader/dirreader.go`

The blob store of the client, the decoder `node.NewNodeFromBlob`,
`filereader.GetFile` and the file system are collaborators over an arbitrary
world; their calls are recorded in a ghost trace. The recursion of `GetDir`
follows the nodes held by the blob store, which need not be a finite tree:
`GetDir` takes fuel, one unit per level of directories, and returns `none`
when the fuel is used up. A failed type assertion is the outcome `panic`. -/

/-- One ref of a decoded node, a value of type `interface{}` (line 37 ranges
over `cmeta.Refs`, lines 38-39 assert `hash.(string)`): a string, or a value
that is not a string, of which the pair `[index, hash]` stands for all. -/
inductive Ref where
  | str (hash : String)
  | pair (index : Int) (hash : String)
deriving DecidableEq, Repr

/-- Modelled from the spec: the struct `node.RawNode` as `NewNodeFromBlob`
returns it, with the fields `GetDir` reads; `Kind` is the field `Type`, and
`Refs` holds the values decoded from the JSON list `refs`, each one a string
or not. -/
structure node.RawNode where
  Hash : String
  Name : String
  Kind : String
  Size : Int
  Refs : List Ref
deriving DecidableEq, Repr

/-- One call of `GetDir` to a collaborator, with what the call returned. -/
inductive DirCall where
  | mkdir (path : String) (res : Option Error)
  | get (hash : String) (blob : Bytes) (err : Option Error)
  | getFile (hash path : String) (res : Option Error)
deriving DecidableEq

/-- The collaborators of `GetDir`: `os.Mkdir(path, 0700)`, `bs.Get`, which
returns `(blob, err)`, `filereader.GetFile(bs, hash, path)`,
`node.NewNodeFromBlob(hash, blob)`, `filepath.Join`, and the formats `%+v` of
a node and `%s` of the bytes of a blob. -/
structure DirEnv (W : Type) where
  Mkdir : W → String → Option Error × W
  Get : W → String → (Bytes × Option Error) × W
  GetFile : W → String → String → Option Error × W
  NewNodeFromBlob : String → Bytes → Except Error node.RawNode
  Join : String → String → String
  fmtNode : node.RawNode → String
  fmtBytes : Bytes → String

/-- The state `GetDir` runs on: the world of the collaborators and the calls
made so far. -/
structure DirSys (W : Type) where
  world : W
  trace : List DirCall
deriving DecidableEq

/-- Record the call `c`, after which the world is `w`. -/
def DirSys.call {W : Type} (s : DirSys W) (c : DirCall) (w : W) : DirSys W :=
  ⟨w, s.trace ++ [c]⟩

/-- The state after the call `os.Mkdir(path, 0700)` made in the state `s`. -/
def DirEnv.made {W : Type} (env : DirEnv W) (s : DirSys W) (path : String) : DirSys W :=
  s.call (.mkdir path (env.Mkdir s.world path).1) (env.Mkdir s.world path).2

/-- The state after the call `bs.Get(ctx, hash)` made in the state `s`. -/
def DirEnv.fetched {W : Type} (env : DirEnv W) (s : DirSys W) (hash : String) : DirSys W :=
  s.call (.get hash (env.Get s.world hash).1.1 (env.Get s.world hash).1.2)
    (env.Get s.world hash).2

/-- The state after the call `filereader.GetFile(bs, hash, path)` made in the
state `s`. -/
def DirEnv.written {W : Type} (env : DirEnv W) (s : DirSys W) (hash path : String) :
    DirSys W :=
  s.call (.getFile hash path (env.GetFile s.world hash path).1)
    (env.GetFile s.world hash path).2

/-- The loop of `GetDir` (lines 37-54) over the refs still to visit; `rec` is
the recursive call of `GetDir`. The type assertion `hash.(string)` of line 38
is evaluated before `bs.Get` is called and panics at a ref that is not a
string. The error of `bs.Get` (line 38) is assigned again by line 39 and never
tested; `submeta.IsFile()` tests the type `file`. A panic of the recursive
call goes through. -/
def dirLoop {W : Type} (env : DirEnv W)
    (rec : DirSys W → String → String → Option (Outcome (Option Error) × DirSys W))
    (path : String) : List Ref → DirSys W → Option (Outcome (Option Error) × DirSys W)
  | [], s => some (.ret none, s)
  | .pair _ _ :: _, s => some (.panic, s)
  | .str hash :: rest, s =>
    let s1 := env.fetched s hash
    match env.NewNodeFromBlob hash (env.Get s.world hash).1.1 with
    | .error err => some (.ret (some ⟨"failed to fetch meta: " ++ err.msg⟩), s1)
    | .ok submeta =>
      if submeta.Kind = "file" then
        let s2 := env.written s1 submeta.Hash (env.Join path submeta.Name)
        match (env.GetFile s1.world submeta.Hash (env.Join path submeta.Name)).1 with
        | some err =>
          some (.ret (some ⟨"failed to GetFile " ++ env.fmtNode submeta ++ ": " ++ err.msg⟩), s2)
        | none => dirLoop env rec path rest s2
      else
        match rec s1 submeta.Hash (env.Join path submeta.Name) with
        | none => none
        | some (.panic, s2) => some (.panic, s2)
        | some (.ret (some err), s2) =>
          some (.ret (some ⟨"failed to GetDir " ++ env.fmtNode submeta ++ ": " ++ err.msg⟩), s2)
        | some (.ret none, s2) => dirLoop env rec path rest s2

/-- The function `GetDir` (lines 16-61), with fuel for the depth of the
recursion: it returns the error, `none` for `nil`, or panics. -/
def GetDir {W : Type} (env : DirEnv W) :
    Nat → DirSys W → String → String → Option (Outcome (Option Error) × DirSys W)
  | 0, _, _, _ => none
  | fuel + 1, s, hash, path =>
    let s1 := env.made s path
    match (env.Mkdir s.world path).1 with
    | some err => some (.ret (some err), s1)
    | none =>
      let s2 := env.fetched s1 hash
      match (env.Get s1.world hash).1.2 with
      | some err => some (.ret (some err), s2)
      | none =>
        match env.NewNodeFromBlob hash (env.Get s1.world hash).1.1 with
        | .error err =>
          some (.ret (some ⟨"failed to fetch meta " ++ hash ++ " \""
            ++ env.fmtBytes (env.Get s1.world hash).1.1 ++ "\": " ++ err.msg⟩), s2)
        | .ok cmeta =>
          if cmeta.Size > 0 then dirLoop env (GetDir env fuel) path cmeta.Refs s2
          else some (.ret none, s2)

/-- The call did not fail, as far as `GetDir` tests it: `Mkdir` and `GetFile`
returned `nil`, and the bytes `Get` returned decode as a node. -/
def DirCall.ok {W : Type} (env : DirEnv W) : DirCall → Prop
  | .mkdir _ res => res = none
  | .get hash blob _ => ∃ n, env.NewNodeFromBlob hash blob = .ok n
  | .getFile _ _ res => res = none

/-- The calls show that the directory node `hash` was restored to `path`,
down to `depth` levels of directories: the directory was made, the node
fetched and decoded, and, when its size is positive, every ref is a string,
the hash of a child, for which the blob was fetched and decoded, a file child
was handed to `GetFile` under the path of the directory, without error, and a
directory child was restored under that path. -/
def Restored {W : Type} (env : DirEnv W) (tr : List DirCall) : Nat → String → String → Prop
  | 0, _, _ => False
  | depth + 1, hash, path =>
    ∃ js cmeta, DirCall.mkdir path none ∈ tr ∧ DirCall.get hash js none ∈ tr ∧
      env.NewNodeFromBlob hash js = .ok cmeta ∧
      (cmeta.Size > 0 → ∀ ref ∈ cmeta.Refs, ∃ h blob e sub, ref = .str h ∧
        DirCall.get h blob e ∈ tr ∧ env.NewNodeFromBlob h blob = .ok sub ∧
        (sub.Kind = "file" →
          DirCall.getFile sub.Hash (env.Join path sub.Name) none ∈ tr) ∧
        (sub.Kind ≠ "file" → Restored env tr depth sub.Hash (env.Join path sub.Name)))

/-- The blob store holds under `hash`, as `content` gives the blobs, a
directory node that `Get` returns without error, whose refs are strings and
whose children decode, down to `depth` levels of directories. -/
def WellStored {W : Type} (env : DirEnv W) (content : String → Bytes) : Nat → String → Prop
  | 0, _ => False
  | depth + 1, hash =>
    (∀ w, (env.Get w hash).1.2 = none) ∧
    ∃ cmeta, env.NewNodeFromBlob hash (content hash) = .ok cmeta ∧
      (cmeta.Size > 0 → ∀ ref ∈ cmeta.Refs, ∃ h sub, ref = .str h ∧
        env.NewNodeFromBlob h (content h) = .ok sub ∧
        (sub.Kind ≠ "file" → WellStored env content depth sub.Hash))

/-! ## Concrete instances of the writer -/

/-- A digest for the concrete instances: the length of the data in unary,
after a `b`. -/
def toyBlake (data : Bytes) : String := String.mk ('b' :: List.replicate data.length 'a')

/-- An encoding for the concrete instances: the size, the number of refs and
data bindings, and the lengths of name and type. -/
def toyEnc (n : RawNode) : Bytes :=
  [n.Size.toNat, n.Refs.length, n.Data.length, n.Name.length, n.Kind.length]

/-- A hasher without collisions, for the concrete instances: every byte `n`
in unary, as `n` times `a` and one `b`. -/
def injHash (data : Bytes) : String :=
  String.mk (data.flatMap (fun n => List.replicate n 'a' ++ ['b']))

/-- The uploader of the concrete instances: the reference blob store, a
hasher without collisions, and a chunker that cuts after every second byte. -/
def toyUploader (f : Faults) : Uploader Store where
  bs := refBlobStorer f
  hash := injHash
  blake2b := toyBlake
  enc := toyEnc
  chunker := chunkerOf 2 2 (fun _ _ => false)

/-- The uploader `up` over the reference blob store with the faults `f`. -/
def Uploader.onRef (up : Uploader Store) (f : Faults) : Uploader Store :=
  { up with bs := refBlobStorer f }

/-- A stream of five bytes. -/
def readerA : Reader := ⟨[1, 2, 3, 4, 5], none⟩

/-- The chunks of `readerA` for the chunker of `toyUploader`. -/
def chunksA : List Bytes := [[1, 2], [3, 4], [5]]

/-- The node of the stream `readerA` under the name `dir/f.txt`, for
`toyUploader`. -/
def nodeA : RawNode :=
  ⟨"aaaaabaaababaaaaabaaaab", "f.txt", "file", 5,
    [(2, "abaab"), (4, "aaabaaaab"), (5, "aaaaab")], [("blake2b-hash", .str "baaaaa")]⟩

/-- The contents of a file of five bytes. -/
def bytesA : Bytes := [1, 2, 3, 4, 5]

/-- The file system in which `dir/f.txt` holds `bytesA`. -/
def osA : OS := OS.single "dir/f.txt" bytesA

/-- Every `Put` of the packfile store fails, every other step takes effect. -/
def faultPut : Faults := ⟨some ⟨"disk full"⟩, none, none, none⟩

/-- The state of the writer before any call, on the empty store. -/
def UpSys.init : UpSys Store := ⟨Store.empty, []⟩

/-- The file `dir/f.txt` of `osA`, as an input of the writer. -/
def inputA : Input := .file osA "dir/f.txt"

/-- The state after the ingest of `inputA` on the empty store. -/
def stateA : UpSys Store :=
  (((toyUploader Faults.none).onRef Faults.none).ingest UpSys.init inputA).2

/-- A `POST` request of three parts, of which the second has a form name that
is not the `toyHash` of its body. -/
def requestA : Request :=
  ⟨"POST", .ok [.part "a" [5], .part "zz" [1], .part "aa" [1, 2]]⟩

/-- The facade over the reference collaborators, with the hasher `toyHash`,
without replication and without faults. -/
def storeA : BlobStore Store := refStore toyHash false Faults.none

/-- A replication configuration with a key file. -/
def s3A : S3Repl := ⟨"bucket", "eu-west-1", "/etc/blobstash/key"⟩

/-- A file system in which every file holds the three bytes `1, 2, 3`. -/
def readFileA (_ : String) : Except Error Bytes := .ok [1, 2, 3]

/-- A configuration with replication to the bucket of `s3A`. -/
def confA : Config := ⟨some s3A⟩

/-- A blob store whose `Stat` fails. -/
def failStat : BlobStorer Unit where
  Stat w _ := ((false, some ⟨"db down"⟩), w)
  Put w _ _ := (none, w)

/-- A stream of three bytes that ends with a read error. -/
def readerErr : Reader := ⟨[1, 2, 3], some ⟨"read failed"⟩⟩

/-- A database whose enumerator fails with an error that is not `io.EOF`. -/
def errKV : KV Unit Unit where
  Seek _ _ := (some (), false, none)
  SeekLast _ := (some (), none)
  Next e := ((none, none, some ⟨"read failed"⟩), e)
  Prev e := ((none, none, some ⟨"read failed"⟩), e)

/-- The client of the concrete instances: the server `refConn`, a rolling
checksum that never signals a split, and a file system in which every path
holds the bytes `data`. -/
def clientOf (data : Bytes) : Client (List (String × Bytes)) where
  con := refConn injHash
  SHA1 := injHash
  fullSum := toyBlake
  onSplit := fun _ => false
  Open := fun _ => .ok data

/-- The offsets and digests `LADD` records for the chunks `cs` after `acc`
bytes: for every chunk, the number of bytes up to its end and its digest. -/
def laddOffsets (H : Bytes → String) : Int → List Bytes → List (Int × String)
  | _, [] => []
  | acc, c :: cs => (acc + c.length, H c) :: laddOffsets H (acc + c.length) cs

/-- A file of exactly 1 MiB, of zero bytes. -/
def fileMiB : Bytes := List.replicate (1 <<< 20) 0

/-- The file system of the concrete instances of `GetDir`: the directories
made and the files written, each with the hash of its node. -/
structure FS where
  dirs : List String
  files : List (String × String)
deriving DecidableEq, Repr

/-- The collaborators of the concrete instances of `GetDir`: a blob store
that holds the nodes of `table`, the blob of a node being its index in the
table, a decoder that reads the index, and a file system in which no call
fails. -/
def dirEnvOf (table : List (String × node.RawNode)) : DirEnv FS where
  Mkdir w path := (none, { w with dirs := w.dirs ++ [path] })
  Get w hash :=
    match table.findIdx? (fun p => p.1 == hash) with
    | some i => (([i], none), w)
    | none => (([], some ErrBlobNotFound), w)
  GetFile w hash path := (none, { w with files := w.files ++ [(path, hash)] })
  NewNodeFromBlob hash blob :=
    match blob with
    | [i] =>
      match table[i]? with
      | some p => .ok { p.2 with Hash := hash }
      | none => .error ⟨"unknown node"⟩
    | _ => .error ⟨"unexpected end of JSON input"⟩
  Join a b := a ++ "/" ++ b
  fmtNode n := n.Name
  fmtBytes _ := ""

/-- A blob store that holds a directory node of size 0 with one ref, to the
node of a file. -/
def tableZero : List (String × node.RawNode) :=
  [("d", ⟨"", "photos", "dir", 0, [.str "c"]⟩),
   ("c", ⟨"", "a.txt", "file", 3, [.pair 3 "x"]⟩)]

/-- A blob store that holds a directory node of positive size with two refs,
to the node of a file and to the node of a directory that holds the same
file. -/
def tableTree : List (String × node.RawNode) :=
  [("d", ⟨"", "photos", "dir", 2, [.str "c", .str "e"]⟩),
   ("c", ⟨"", "a.txt", "file", 3, [.pair 3 "x"]⟩),
   ("e", ⟨"", "sub", "dir", 1, [.str "c"]⟩)]

/-- A blob store that holds a directory node of positive size whose ref is
the pair `[0, child_hash]`, and the node of the file it names. -/
def tablePair : List (String × node.RawNode) :=
  [("d", ⟨"", "photos", "dir", 1, [.pair 0 "c"]⟩),
   ("c", ⟨"", "a.txt", "file", 3, [.pair 3 "x"]⟩)]

/-- A blob store that holds a directory node with three refs: to the node of
a file, to a blob the store does not hold, and a pair. -/
def tableGap : List (String × node.RawNode) :=
  [("d", ⟨"", "photos", "dir", 3, [.str "c", .str "zz", .pair 0 "c"]⟩),
   ("c", ⟨"", "a.txt", "file", 3, [.pair 3 "x"]⟩)]

/-- A blob store that holds a directory node with two refs: to the node of a
file and a pair. -/
def tableMixed : List (String × node.RawNode) :=
  [("d", ⟨"", "photos", "dir", 2, [.str "c", .pair 0 "c"]⟩),
   ("c", ⟨"", "a.txt", "file", 3, [.pair 3 "x"]⟩)]

/-- A blob store that holds a directory node with a ref to the node of a
directory, one of whose refs is to a blob the store does not hold. -/
def tableDeep : List (String × node.RawNode) :=
  [("d", ⟨"", "photos", "dir", 1, [.str "e"]⟩),
   ("e", ⟨"", "sub", "dir", 1, [.str "zz"]⟩)]

/-- A blob store that holds a directory node with a ref to the node of a
directory, whose ref is a pair. -/
def tableNest : List (String × node.RawNode) :=
  [("d", ⟨"", "photos", "dir", 1, [.str "e"]⟩),
   ("e", ⟨"", "sub", "dir", 1, [.pair 0 "c"]⟩)]

/-- The collaborators of `dirEnvOf` with a decoder that fails. -/
def dirEnvGarbled (table : List (String × node.RawNode)) : DirEnv FS :=
  { dirEnvOf table with NewNodeFromBlob := fun _ _ => .error ⟨"invalid character"⟩ }

/-- The state `GetDir` reaches on the empty file system after it has made
the directory `/out` and fetched the node `d`, the first node of the table. -/
def stateOpen : DirSys FS :=
  ⟨⟨["/out"], []⟩, [.mkdir "/out" none, .get "d" [0] none]⟩

/-- The state of `GetDir` before any call, on the empty file system. -/
def DirSys.init : DirSys FS := ⟨⟨[], []⟩, []⟩

/-- The blobs the blob store of `dirEnvOf` returns: the index of the node,
or no bytes for a hash it does not hold. -/
def contentOf (table : List (String × node.RawNode)) (hash : String) : Bytes :=
  match table.findIdx? (fun p => p.1 == hash) with
  | some i => [i]
  | none => []

/-- The collaborators of `dirEnvOf` with a `GetFile` that fails. -/
def dirEnvFail (table : List (String × node.RawNode)) : DirEnv FS :=
  { dirEnvOf table with GetFile := fun w _ _ => (some ⟨"disk full"⟩, w) }

/-- The collaborators of `dirEnvOf` with a `Mkdir` that fails. -/
def dirEnvDenied (table : List (String × node.RawNode)) : DirEnv FS :=
  { dirEnvOf table with Mkdir := fun w _ => (some ⟨"permission denied"⟩, w) }

/-- The state `GetDir` reaches when it restores the directory `d` of
`tableTree` to `/out`. -/
def stateTree : DirSys FS :=
  ⟨⟨["/out", "/out/sub"], [("/out/a.txt", "c"), ("/out/sub/a.txt", "c")]⟩,
    [.mkdir "/out" none, .get "d" [0] none, .get "c" [1] none, .getFile "c" "/out/a.txt" none,
     .get "e" [2] none, .mkdir "/out/sub" none, .get "e" [2] none, .get "c" [1] none,
     .getFile "c" "/out/sub/a.txt" none]⟩

/-- The state `GetDir` reaches in the directory `d` of `tableGap` or of
`tableMixed` after its first child, the file `c`. -/
def stateFirst : DirSys FS :=
  ⟨⟨["/out"], [("/out/a.txt", "c")]⟩,
    [.mkdir "/out" none, .get "d" [0] none, .get "c" [1] none,
     .getFile "c" "/out/a.txt" none]⟩

/-! ## Properties of the facade -/

/-- C1: a blob whose hash is not the digest of its data is rejected by `Put`
with the error of `blob.Check`; no collaborator is called (no backend
`Exists` or `Put`, no S3 enqueue, no `NewBlob` publication) and the state,
world and trace, is the one `Put` started from. -/
theorem put_rejects_corrupted {W : Type} (bs : BlobStore W) (s : Sys W) (blob : Blob)
    (hbad : blob.Hash ≠ bs.hash blob.Data) :
    blob.Check bs.hash = some ErrCorrupted ∧ bs.Put s blob = (some ErrCorrupted, s) := by
  have hc : blob.Check bs.hash = some ErrCorrupted := by
    simp [Blob.Check, hbad]
  exact ⟨hc, by simp [BlobStore.Put, hc]⟩

/-- Witness of C1: the blob `blobBad` on the empty reference store. -/
theorem put_rejects_corrupted_witness :
    blobBad.Hash ≠ (refStore toyHash true Faults.none).hash blobBad.Data ∧
    blobBad.Check (refStore toyHash true Faults.none).hash = some ErrCorrupted ∧
    (refStore toyHash true Faults.none).Put Sys.init blobBad = (some ErrCorrupted, Sys.init) :=
  ⟨by decide,
    put_rejects_corrupted (refStore toyHash true Faults.none) Sys.init blobBad (by decide)⟩

/-- C2: for a well-formed blob whose hash the backend reports as existing,
`Put` returns `nil`, and the only call it makes is that `Exists`: no backend
`Put`, no S3 enqueue, no `NewBlob` event, and the world is the one the
`Exists` call left. -/
theorem put_existing_no_effect {W : Type} (bs : BlobStore W) (s : Sys W) (blob : Blob)
    (hwf : blob.Check bs.hash = none)
    (hex : (bs.back.Exists s.world blob.Hash).1 = .ok true) :
    (bs.Put s blob).1 = none ∧
    (bs.Put s blob).2.trace = s.trace ++ [.backExists blob.Hash (.ok true)] ∧
    (bs.Put s blob).2.world = (bs.back.Exists s.world blob.Hash).2 := by
  simp [BlobStore.Put, hwf, hex, Sys.call]

/-- Witness of C2: the blob `blobA`, already held by the reference store. -/
theorem put_existing_no_effect_witness :
    blobA.Check (refStore toyHash true Faults.none).hash = none ∧
    ((refStore toyHash true Faults.none).back.Exists sysA.world blobA.Hash).1 = .ok true ∧
    ((refStore toyHash true Faults.none).Put sysA blobA).1 = none ∧
    ((refStore toyHash true Faults.none).Put sysA blobA).2.trace
      = sysA.trace ++ [.backExists blobA.Hash (.ok true)] ∧
    ((refStore toyHash true Faults.none).Put sysA blobA).2.world
      = ((refStore toyHash true Faults.none).back.Exists sysA.world blobA.Hash).2 :=
  ⟨by decide, by decide,
    put_existing_no_effect (refStore toyHash true Faults.none) sysA blobA
      (by decide) (by decide)⟩

/-- The loop of `enumerate` without scan: every blob sent becomes a ref, and
the state is untouched. -/
theorem enumerateLoop_noscan {W : Type} (bs : BlobStore W) (l : List BFBlob) :
    ∀ (refs : List SizedBlobRef) (s : Sys W),
      bs.enumerateLoop false l refs s
        = (.ok (refs ++ l.map (fun b => (⟨b.Hash, b.Size⟩ : SizedBlobRef))), s) := by
  induction l with
  | nil => intro refs s; simp [BlobStore.enumerateLoop]
  | cons b rest ih =>
    intro refs s
    simp [BlobStore.enumerateLoop, ih]

/-- The loop of `enumerate` with scan, from any state: the calls are those of
`k` published blobs, then nothing more (every blob was published), or a
failed `Get`, or a `Get` and a failed publication. -/
theorem enumerateLoop_scan {W : Type} (bs : BlobStore W) (l : List BFBlob) :
    ∀ (refs : List SizedBlobRef) (s : Sys W),
      ∃ (k : Nat) (datas : List Bytes) (rest : List Call),
        k ≤ l.length ∧ datas.length = k ∧
        (bs.enumerateLoop true l refs s).2.trace
          = s.trace ++ ((l.take k).zip datas).flatMap scanCalls ++ rest ∧
        ((k = l.length ∧ rest = [] ∧ ∃ out, (bs.enumerateLoop true l refs s).1 = .ok out) ∨
         (∃ b err, l[k]? = some b ∧ rest = [.backGet b.Hash (.error err)] ∧
            (bs.enumerateLoop true l refs s).1 = .error err) ∨
         (∃ b d err, l[k]? = some b ∧
            rest = [.backGet b.Hash (.ok d), .scanBlobEvent ⟨b.Hash, d⟩ (some err)] ∧
            (bs.enumerateLoop true l refs s).1 = .error err)) := by
  induction l with
  | nil =>
    intro refs s
    exact ⟨0, [], [], by simp, rfl, by simp [BlobStore.enumerateLoop],
      Or.inl ⟨rfl, rfl, refs, by simp [BlobStore.enumerateLoop]⟩⟩
  | cons b tl ih =>
    intro refs s
    cases hg : (bs.back.Get s.world b.Hash).1 with
    | error err =>
      refine ⟨0, [], [.backGet b.Hash (.error err)], by simp, rfl, ?_, Or.inr (Or.inl ?_)⟩
      · simp [BlobStore.enumerateLoop, BlobStore.Get, hg, Sys.call]
      · exact ⟨b, err, by simp, rfl, by simp [BlobStore.enumerateLoop, BlobStore.Get, hg]⟩
    | ok d =>
      cases he : (bs.hub.ScanBlobEvent (bs.back.Get s.world b.Hash).2 ⟨b.Hash, d⟩).1 with
      | some err =>
        refine ⟨0, [], [.backGet b.Hash (.ok d), .scanBlobEvent ⟨b.Hash, d⟩ (some err)],
          by simp, rfl, ?_, Or.inr (Or.inr ?_)⟩
        · simp [BlobStore.enumerateLoop, BlobStore.Get, hg, he, Sys.call]
        · exact ⟨b, d, err, by simp, rfl,
            by simp [BlobStore.enumerateLoop, BlobStore.Get, hg, he, Sys.call]⟩
      | none =>
        obtain ⟨k, datas, rest, hk, hlen, htr, hcase⟩ :=
          ih (refs ++ [⟨b.Hash, b.Size⟩])
            ((((s.call (.backGet b.Hash (.ok d)) (bs.back.Get s.world b.Hash).2)).call
              (.scanBlobEvent ⟨b.Hash, d⟩ none)
              (bs.hub.ScanBlobEvent (bs.back.Get s.world b.Hash).2 ⟨b.Hash, d⟩).2))
        have hstep : bs.enumerateLoop true (b :: tl) refs s
            = bs.enumerateLoop true tl (refs ++ [⟨b.Hash, b.Size⟩])
                ((((s.call (.backGet b.Hash (.ok d)) (bs.back.Get s.world b.Hash).2)).call
                  (.scanBlobEvent ⟨b.Hash, d⟩ none)
                  (bs.hub.ScanBlobEvent (bs.back.Get s.world b.Hash).2 ⟨b.Hash, d⟩).2)) := by
          simp [BlobStore.enumerateLoop, BlobStore.Get, hg, he, Sys.call]
        refine ⟨k + 1, d :: datas, rest, by simpa using hk, by simp [hlen], ?_, ?_⟩
        · rw [hstep, htr]
          simp [Sys.call, scanCalls, List.flatMap_cons]
        · rw [hstep]
          rcases hcase with ⟨h1, h2, h3⟩ | ⟨b', err, h1, h2, h3⟩ | ⟨b', d', err, h1, h2, h3⟩
          · exact Or.inl ⟨by simp [h1], h2, h3⟩
          · exact Or.inr (Or.inl ⟨b', err, by simpa using h1, h2, h3⟩)
          · exact Or.inr (Or.inr ⟨b', d', err, by simpa using h1, h2, h3⟩)

/-- C7: `Stat` and `Get` are thin wrappers: over any collaborators they make
the one backend call (`Exists`, `Get`), return exactly its result and leave
the world as that call left it; over the reference backend, where both read
the same index, `Stat(h)` returns true if and only if `Get(h)` succeeds, and
neither changes the store. -/
theorem stat_get_thin_wrappers :
    (∀ (W : Type) (bs : BlobStore W) (s : Sys W) (h : String),
      bs.Stat s h = ((bs.back.Exists s.world h).1,
        ⟨(bs.back.Exists s.world h).2, s.trace ++ [.backExists h (bs.back.Exists s.world h).1]⟩) ∧
      bs.Get s h = ((bs.back.Get s.world h).1,
        ⟨(bs.back.Get s.world h).2, s.trace ++ [.backGet h (bs.back.Get s.world h).1]⟩)) ∧
    (∀ (H : Bytes → String) (s3on : Bool) (f : Faults) (s : Sys Store) (h : String),
      (((refStore H s3on f).Stat s h).1 = .ok true ↔
        ∃ data, ((refStore H s3on f).Get s h).1 = .ok data) ∧
      ((refStore H s3on f).Stat s h).2.world = s.world ∧
      ((refStore H s3on f).Get s h).2.world = s.world) := by
  refine ⟨fun W bs s h => ⟨rfl, rfl⟩, fun H s3on f s h => ⟨?_, rfl, rfl⟩⟩
  cases hl : s.world.lookup h <;>
    simp [BlobStore.Stat, BlobStore.Get, refStore, refBack, hl]

/-- Counterexample to C8 as stated: the backend enumeration sends one blob,
which `Scan` reads and publishes, and then reports an error; every blob was
published, and `Scan` returns that error, not `nil`. -/
theorem scan_enumerate_error_counterexample :
    (scriptedStore.Scan ⟨(), []⟩).2.trace
      = [.backEnumerate "" "\xff" 0 [⟨"aa", 2⟩] (some ⟨"enumerate failed"⟩),
         .backGet "aa" (.ok [7, 7]), .scanBlobEvent ⟨"aa", [7, 7]⟩ none] ∧
    (scriptedStore.Scan ⟨(), []⟩).1 = some ⟨"enumerate failed"⟩ ∧
    (scriptedStore.Scan ⟨(), []⟩).1 ≠ none := by
  decide

/-- C8, amended: `Scan` calls the backend enumeration with start `""`, end
`"\xff"` and limit 0, and then, for the blobs sent, in order, gets the blob
and publishes one `ScanBlob` event with the blob's hash and the bytes `Get`
returned. When every blob was published it returns what the backend
enumeration returned (`nil`, or its error); otherwise the last call is the
first failed `Get`, or the first failed publication, `Scan` returns that
error, and no later blob is read or published. -/
theorem scan_calls {W : Type} (bs : BlobStore W) (s : Sys W) :
    ∃ (k : Nat) (datas : List Bytes) (rest : List Call),
      k ≤ (bs.back.Enumerate s.world "" "\xff" 0).1.1.length ∧ datas.length = k ∧
      (bs.Scan s).2.trace
        = s.trace ++ [.backEnumerate "" "\xff" 0 (bs.back.Enumerate s.world "" "\xff" 0).1.1
                        (bs.back.Enumerate s.world "" "\xff" 0).1.2]
            ++ (((bs.back.Enumerate s.world "" "\xff" 0).1.1.take k).zip datas).flatMap scanCalls
            ++ rest ∧
      ((k = (bs.back.Enumerate s.world "" "\xff" 0).1.1.length ∧ rest = [] ∧
          (bs.Scan s).1 = (bs.back.Enumerate s.world "" "\xff" 0).1.2) ∨
       (∃ b err, (bs.back.Enumerate s.world "" "\xff" 0).1.1[k]? = some b ∧
          rest = [.backGet b.Hash (.error err)] ∧ (bs.Scan s).1 = some err) ∨
       (∃ b d err, (bs.back.Enumerate s.world "" "\xff" 0).1.1[k]? = some b ∧
          rest = [.backGet b.Hash (.ok d), .scanBlobEvent ⟨b.Hash, d⟩ (some err)] ∧
          (bs.Scan s).1 = some err)) := by
  obtain ⟨k, datas, rest, hk, hlen, htr, hcase⟩ :=
    enumerateLoop_scan bs (bs.back.Enumerate s.world "" "\xff" 0).1.1 []
      (s.call (.backEnumerate "" "\xff" 0 (bs.back.Enumerate s.world "" "\xff" 0).1.1
        (bs.back.Enumerate s.world "" "\xff" 0).1.2) (bs.back.Enumerate s.world "" "\xff" 0).2)
  have htrace : (bs.Scan s).2.trace
      = (bs.enumerateLoop true (bs.back.Enumerate s.world "" "\xff" 0).1.1 []
          (s.call (.backEnumerate "" "\xff" 0 (bs.back.Enumerate s.world "" "\xff" 0).1.1
            (bs.back.Enumerate s.world "" "\xff" 0).1.2)
            (bs.back.Enumerate s.world "" "\xff" 0).2)).2.trace := by
    simp only [BlobStore.Scan, BlobStore.enumerate]
    split
    · rfl
    · split <;> rfl
  refine ⟨k, datas, rest, hk, hlen, ?_, ?_⟩
  · rw [htrace, htr]
    simp [Sys.call]
  · rcases hcase with ⟨h1, h2, out, h3⟩ | ⟨b, err, h1, h2, h3⟩ | ⟨b, d, err, h1, h2, h3⟩
    · refine Or.inl ⟨h1, h2, ?_⟩
      simp only [BlobStore.Scan, BlobStore.enumerate, h3]
      cases (bs.back.Enumerate s.world "" "\xff" 0).1.2 <;> rfl
    · exact Or.inr (Or.inl ⟨b, err, h1, h2, by simp [BlobStore.Scan, BlobStore.enumerate, h3]⟩)
    · exact Or.inr (Or.inr ⟨b, d, err, h1, h2, by simp [BlobStore.Scan, BlobStore.enumerate, h3]⟩)

/-- Counterexample to C9 as stated: the backend enumeration sends the blob
`("aa", 2)` and then reports an error; `Enumerate` returns the error and no
ref for the blob that was sent. -/
theorem enumerate_backend_error_counterexample :
    (scriptedStore.back.Enumerate () "" "\xff" 0).1.1 = [⟨"aa", 2⟩] ∧
    (scriptedStore.Enumerate ⟨(), []⟩ "" "\xff" 0).1 = .error ⟨"enumerate failed"⟩ ∧
    (scriptedStore.Enumerate ⟨(), []⟩ "" "\xff" 0).1 ≠ .ok [⟨"aa", 2⟩] := by
  decide

/-- C9, amended: for every start, end and limit, `Enumerate` makes one call,
the backend enumeration with the same start, end and limit: it publishes no
event and reads no blob body. When the backend enumeration reports no error,
it returns one `(hash, size)` ref per blob sent, in the same order and with
hash and size unchanged, so that the hashes of the refs are those of the
blobs sent, each as often and in the same order; when the backend
enumeration reports an error, it returns that error and no refs. -/
theorem enumerate_refs {W : Type} (bs : BlobStore W) (s : Sys W) (start stop : String)
    (limit : Int) :
    (bs.Enumerate s start stop limit).2
      = s.call (.backEnumerate start stop limit (bs.back.Enumerate s.world start stop limit).1.1
          (bs.back.Enumerate s.world start stop limit).1.2)
          (bs.back.Enumerate s.world start stop limit).2 ∧
    (bs.Enumerate s start stop limit).1
      = (match (bs.back.Enumerate s.world start stop limit).1.2 with
         | none => .ok ((bs.back.Enumerate s.world start stop limit).1.1.map
             (fun b => (⟨b.Hash, b.Size⟩ : SizedBlobRef)))
         | some err => .error err) ∧
    (∀ refs, (bs.Enumerate s start stop limit).1 = .ok refs →
      refs.map (fun r => r.Hash)
        = (bs.back.Enumerate s.world start stop limit).1.1.map (fun b => b.Hash) ∧
      refs.map (fun r => r.Size)
        = (bs.back.Enumerate s.world start stop limit).1.1.map (fun b => b.Size)) := by
  have h1 : (bs.Enumerate s start stop limit).1
      = (match (bs.back.Enumerate s.world start stop limit).1.2 with
         | none => .ok ((bs.back.Enumerate s.world start stop limit).1.1.map
             (fun b => (⟨b.Hash, b.Size⟩ : SizedBlobRef)))
         | some err => .error err) := by
    cases he : (bs.back.Enumerate s.world start stop limit).1.2 <;>
      simp [BlobStore.Enumerate, BlobStore.enumerate, enumerateLoop_noscan, he]
  refine ⟨?_, h1, ?_⟩
  · cases he : (bs.back.Enumerate s.world start stop limit).1.2 <;>
      simp [BlobStore.Enumerate, BlobStore.enumerate, enumerateLoop_noscan, he]
  · intro refs hrefs
    rw [h1] at hrefs
    cases he : (bs.back.Enumerate s.world start stop limit).1.2 with
    | some err => simp [he] at hrefs
    | none =>
      simp only [he, Except.ok.injEq] at hrefs
      subst hrefs
      simp [List.map_map, Function.comp_def]

/-! ## Properties over the reference collaborators -/

/-- A hash the index does not hold is found after its record is appended. -/
theorem lookup_append_absent (h : String) (d : Bytes) :
    ∀ (l : List (String × Bytes)), List.lookup h l = none → List.lookup h (l ++ [(h, d)]) = some d
  | [], _ => by simp [List.lookup]
  | (k, v) :: tl, hl => by
    by_cases hk : h = k
    · subst hk; simp [List.lookup] at hl
    · have hb : (h == k) = false := by simpa using hk
      simp only [List.cons_append, List.lookup, hb] at hl ⊢
      exact lookup_append_absent h d tl hl

/-- What the index maps a hash to is one of the records. -/
theorem lookup_mem (h : String) (d : Bytes) :
    ∀ (l : List (String × Bytes)), List.lookup h l = some d → (h, d) ∈ l
  | [], hl => by simp [List.lookup] at hl
  | (k, v) :: tl, hl => by
    by_cases hk : h = k
    · subst hk
      simp [List.lookup] at hl
      simp [hl]
    · have hb : (h == k) = false := by simpa using hk
      simp only [List.lookup, hb] at hl
      exact List.mem_cons_of_mem _ (lookup_mem h d tl hl)

/-- A hash the index does not hold has no record. -/
theorem lookup_none_count (h : String) :
    ∀ (l : List (String × Bytes)), List.lookup h l = none → l.countP (fun p => p.1 == h) = 0
  | [], _ => rfl
  | (k, v) :: tl, hl => by
    by_cases hk : h = k
    · subst hk; simp [List.lookup] at hl
    · have hb : (h == k) = false := by simpa using hk
      have hb2 : (k == h) = false := by simpa using fun e : k = h => hk e.symm
      simp only [List.lookup, hb] at hl
      simp [List.countP_cons, hb2, lookup_none_count h tl hl]

/-- The reference `Put` of a well-formed blob whose hash the backend holds. -/
theorem refPut_present (H : Bytes → String) (s3on : Bool) (f : Faults) (s : Sys Store)
    (b : Blob) (d : Bytes) (hwf : b.Check H = none) (hl : s.world.lookup b.Hash = some d) :
    refPut H s3on f s b = (none, ⟨s.world, s.trace ++ [.backExists b.Hash (.ok true)]⟩) := by
  simp [refPut, BlobStore.Put, hwf, refStore, refBack, hl, Sys.call]

/-- The reference `Put` of a well-formed blob whose hash the backend does
not hold, when the backend `Put` fails. -/
theorem refPut_absent_fail (H : Bytes → String) (s3on : Bool) (f : Faults) (s : Sys Store)
    (b : Blob) (err : Error) (hwf : b.Check H = none) (hl : s.world.lookup b.Hash = none)
    (hp : f.backPut = some err) :
    refPut H s3on f s b = (some err, ⟨s.world, s.trace ++
      [.backExists b.Hash (.ok false), .backPut b.Hash b.Data (some err)]⟩) := by
  simp [refPut, BlobStore.Put, hwf, refStore, refBack, hl, hp, Sys.call]

/-- The reference `Put` of a well-formed blob whose hash the backend does
not hold, when the backend `Put` succeeds: the notifications follow. -/
theorem refPut_absent_ok (H : Bytes → String) (s3on : Bool) (f : Faults) (s : Sys Store)
    (b : Blob) (hwf : b.Check H = none) (hl : s.world.lookup b.Hash = none)
    (hp : f.backPut = none) :
    refPut H s3on f s b = (refStore H s3on f).putNotify
      ⟨{ s.world with blobs := s.world.blobs ++ [(b.Hash, b.Data)] },
        s.trace ++ [.backExists b.Hash (.ok false), .backPut b.Hash b.Data none]⟩ b := by
  simp [refPut, BlobStore.Put, hwf, refStore, refBack, hl, hp, Sys.call]

/-- A successful reference `Put`: the blob is well-formed, and either the
backend held the hash and nothing but the `Exists` call happened, or it did
not and the record was appended, the hash enqueued when replication is on,
and the `NewBlob` event delivered. -/
theorem refPut_ok (H : Bytes → String) (s3on : Bool) (f : Faults) (s : Sys Store) (b : Blob)
    (h : (refPut H s3on f s b).1 = none) :
    b.Check H = none ∧
    ((∃ d, s.world.lookup b.Hash = some d ∧
        (refPut H s3on f s b).2 = ⟨s.world, s.trace ++ [.backExists b.Hash (.ok true)]⟩) ∨
     (s.world.lookup b.Hash = none ∧
        (refPut H s3on f s b).2 =
          ⟨⟨s.world.blobs ++ [(b.Hash, b.Data)],
            if s3on then s.world.queue ++ [b.Hash] else s.world.queue,
            s.world.newBlobs ++ [b], s.world.scanBlobs⟩,
           s.trace ++ [.backExists b.Hash (.ok false), .backPut b.Hash b.Data none]
             ++ (if s3on then [.s3Put b.Hash none] else []) ++ [.newBlobEvent b none]⟩)) := by
  cases hc : b.Check H with
  | some e => simp [refPut, BlobStore.Put, refStore, hc] at h
  | none =>
    refine ⟨rfl, ?_⟩
    cases hl : s.world.lookup b.Hash with
    | some d => exact Or.inl ⟨d, rfl, by rw [refPut_present H s3on f s b d hc hl]⟩
    | none =>
      refine Or.inr ⟨rfl, ?_⟩
      cases hp : f.backPut with
      | some e => rw [refPut_absent_fail H s3on f s b e hc hl hp] at h; simp at h
      | none =>
        rw [refPut_absent_ok H s3on f s b hc hl hp] at h ⊢
        cases s3on <;> cases hs : f.s3Put <;> cases hn : f.newBlobEvent <;>
          simp [BlobStore.putNotify, refStore, refS3, refHub, hs, hn, Sys.call] at h ⊢

/-- C3: double-put idempotence. When `Put(b)` succeeds, a second `Put(b)`
succeeds too and changes nothing (its only call is the backend `Exists`);
over both calls there is at most one backend `Put` of the hash, exactly one
when the backend did not hold the hash before, which then holds exactly one
record of it, at most one S3 enqueue of the hash and at most one `NewBlob`
event. -/
theorem double_put_idempotent (H : Bytes → String) (s3on : Bool) (f1 f2 : Faults)
    (s : Sys Store) (b : Blob) (h1 : (refPut H s3on f1 s b).1 = none) :
    (refPutTwice H s3on f1 f2 s b).1 = none ∧
    (refPutTwice H s3on f1 f2 s b).2.world = (refPut H s3on f1 s b).2.world ∧
    (refPutTwice H s3on f1 f2 s b).2.trace
      = (refPut H s3on f1 s b).2.trace ++ [.backExists b.Hash (.ok true)] ∧
    ((refPutTwice H s3on f1 f2 s b).2.callsSince s.trace.length).countP
      (Call.isBackPut b.Hash) ≤ 1 ∧
    (s.world.lookup b.Hash = none →
      ((refPutTwice H s3on f1 f2 s b).2.callsSince s.trace.length).countP
        (Call.isBackPut b.Hash) = 1 ∧
      (refPutTwice H s3on f1 f2 s b).2.world.blobs.countP
        (fun p => p.1 == b.Hash) = 1) ∧
    ((refPutTwice H s3on f1 f2 s b).2.callsSince s.trace.length).countP
      (Call.isS3Put b.Hash) ≤ 1 ∧
    ((refPutTwice H s3on f1 f2 s b).2.callsSince s.trace.length).countP
      Call.isNewBlob ≤ 1 := by
  simp only [refPutTwice]
  obtain ⟨hwf, ⟨d, hl, hs1⟩ | ⟨hl, hs1⟩⟩ := refPut_ok H s3on f1 s b h1
  · have h2 := refPut_present H s3on f2 (refPut H s3on f1 s b).2 b d hwf (by rw [hs1]; exact hl)
    rw [h2]
    simp [hs1, hl, Sys.callsSince, Call.isBackPut, Call.isS3Put, Call.isNewBlob]
  · have hl2 : (refPut H s3on f1 s b).2.world.lookup b.Hash = some b.Data := by
      rw [hs1]; exact lookup_append_absent b.Hash b.Data s.world.blobs hl
    have h2 := refPut_present H s3on f2 (refPut H s3on f1 s b).2 b b.Data hwf hl2
    have hcount := lookup_none_count b.Hash s.world.blobs hl
    rw [h2]
    cases s3on <;>
      simp [hs1, hl, Sys.callsSince, Call.isBackPut, Call.isS3Put, Call.isNewBlob, hcount,
        List.countP_cons, List.countP_append]

/-- C4: for a well-formed blob the backend does not hold and whose backend
`Put` succeeds, when the S3 enqueue fails, or else the `NewBlob` publication
fails, `Put` returns exactly that error; the record stays in the backend (a
following `Get` returns the bytes, and no call follows the failed one); when
the enqueue fails, no `NewBlob` event is published. -/
theorem put_notify_failure (H : Bytes → String) (s3on : Bool) (f : Faults) (s : Sys Store)
    (b : Blob) (err : Error) (hwf : b.Check H = none) (hnew : s.world.lookup b.Hash = none)
    (hput : f.backPut = none)
    (hfail : (s3on = true ∧ f.s3Put = some err) ∨
      ((s3on = false ∨ f.s3Put = none) ∧ f.newBlobEvent = some err)) :
    (refPut H s3on f s b).1 = some err ∧
    (refPut H s3on f s b).2.world.blobs = s.world.blobs ++ [(b.Hash, b.Data)] ∧
    (refGet H s3on Faults.none (refPut H s3on f s b).2 b.Hash).1 = .ok b.Data ∧
    (refPut H s3on f s b).2.world.newBlobs = s.world.newBlobs ∧
    ((s3on = true ∧ f.s3Put = some err) →
      (refPut H s3on f s b).2.callsSince s.trace.length
        = [.backExists b.Hash (.ok false), .backPut b.Hash b.Data none,
           .s3Put b.Hash (some err)]) ∧
    (((s3on = false ∨ f.s3Put = none) ∧ f.newBlobEvent = some err) →
      (refPut H s3on f s b).2.callsSince s.trace.length
        = [.backExists b.Hash (.ok false), .backPut b.Hash b.Data none]
            ++ (if s3on then [.s3Put b.Hash none] else [])
            ++ [.newBlobEvent b (some err)]) := by
  have hl2 := lookup_append_absent b.Hash b.Data s.world.blobs hnew
  rw [refPut_absent_ok H s3on f s b hwf hnew hput]
  rcases hfail with ⟨hon, hs3⟩ | ⟨hoff | hs3, hev⟩
  · subst hon
    simp [BlobStore.putNotify, refStore, refS3, refHub, hs3, Sys.call, Sys.callsSince, refGet,
      BlobStore.Get, refBack, Store.lookup, hl2]
  · subst hoff
    simp [BlobStore.putNotify, refStore, refS3, refHub, hev, Sys.call, Sys.callsSince, refGet,
      BlobStore.Get, refBack, Store.lookup, hl2]
  · cases s3on <;>
      simp [BlobStore.putNotify, refStore, refS3, refHub, hev, hs3, Sys.call, Sys.callsSince,
        refGet, BlobStore.Get, refBack, Store.lookup, hl2]

/-- The records after a reference `Put`: those before, or those before and
the record of the well-formed blob put. -/
theorem refPut_blobs (H : Bytes → String) (s3on : Bool) (f : Faults) (s : Sys Store) (b : Blob) :
    (refPut H s3on f s b).2.world.blobs = s.world.blobs ∨
    (b.Check H = none ∧
      (refPut H s3on f s b).2.world.blobs = s.world.blobs ++ [(b.Hash, b.Data)]) := by
  cases hc : b.Check H with
  | some e => left; simp [refPut, BlobStore.Put, refStore, hc]
  | none =>
    cases hl : s.world.lookup b.Hash with
    | some d => left; rw [refPut_present H s3on f s b d hc hl]
    | none =>
      cases hp : f.backPut with
      | some e => left; rw [refPut_absent_fail H s3on f s b e hc hl hp]
      | none =>
        right
        refine ⟨rfl, ?_⟩
        rw [refPut_absent_ok H s3on f s b hc hl hp]
        cases s3on <;> cases hs : f.s3Put <;> cases hn : f.newBlobEvent <;>
          simp [BlobStore.putNotify, refStore, refS3, refHub, hs, hn, Sys.call]

/-- A blob that passes `blob.Check` names the digest of its data. -/
theorem check_none (H : Bytes → String) (b : Blob) (hwf : b.Check H = none) :
    H b.Data = b.Hash := by
  unfold Blob.Check at hwf
  split at hwf
  · rename_i h; exact h.symm
  · simp at hwf

/-- A reference `Put` keeps the records sound. -/
theorem refPut_sound (H : Bytes → String) (s3on : Bool) (f : Faults) (s : Sys Store) (b : Blob)
    (hs : s.world.Sound H) : (refPut H s3on f s b).2.world.Sound H := by
  intro p hp
  rcases refPut_blobs H s3on f s b with h | ⟨hwf, h⟩
  · rw [h] at hp; exact hs p hp
  · rw [h] at hp
    rcases List.mem_append.mp hp with hp | hp
    · exact hs p hp
    · have : p = (b.Hash, b.Data) := by simpa using hp
      subst this
      exact check_none H b hwf

/-- Every state a run of `Put` calls reaches from a sound state is sound. -/
theorem runPuts_sound (H : Bytes → String) (s3on : Bool) (ops : List (Faults × Blob)) :
    ∀ (s : Sys Store), s.world.Sound H → (runPuts H s3on ops s).world.Sound H := by
  induction ops with
  | nil => intro s hs; exact hs
  | cons op rest ih =>
    intro s hs
    obtain ⟨f, b⟩ := op
    exact ih _ (refPut_sound H s3on f s b hs)

/-- The empty store is sound. -/
theorem init_sound (H : Bytes → String) : Sys.init.world.Sound H := by
  intro p hp
  simp [Sys.init, Store.empty] at hp

/-- In a sound store, what the index maps a hash to has that digest. -/
theorem sound_lookup (H : Bytes → String) (w : Store) (hw : w.Sound H) (h : String) (d : Bytes)
    (hl : w.lookup h = some d) : H d = h :=
  hw (h, d) (lookup_mem h d w.blobs hl)

/-- Counterexample to C5 as stated: with replication enabled, a first `Put`
of the blob `blobA` stores the record and fails at the S3 enqueue; a second
`Put` of the same blob, in the state so reached, returns `nil`, and yet the
queue and the delivered `NewBlob` events are empty: the hash was never
enqueued and no event was ever delivered. -/
theorem put_success_not_enqueued_counterexample :
    (refPut toyHash true faultS3 Sys.init blobA).1 = some ⟨"s3 down"⟩ ∧
    (refPut toyHash true Faults.none (runPuts toyHash true [(faultS3, blobA)] Sys.init)
      blobA).1 = none ∧
    (refPut toyHash true Faults.none (runPuts toyHash true [(faultS3, blobA)] Sys.init)
      blobA).2.world = ⟨[("a", [5])], [], [], []⟩ ∧
    (refPut toyHash true Faults.none (runPuts toyHash true [(faultS3, blobA)] Sys.init)
      blobA).2.trace
      = [.backExists "a" (.ok false), .backPut "a" [5] none, .s3Put "a" (some ⟨"s3 down"⟩),
         .backExists "a" (.ok true)] := by
  decide

/-- C5, amended: in every state reached by a sequence of `Put` calls, some of
which may fail at any step, whenever a `Put` of `b` returns success the
backend holds, under `b.Hash`, bytes whose digest is `b.Hash`; and when the
backend did not hold `b.Hash` before that call, the bytes are `b.Data`, the
call enqueued `b.Hash` for S3 replication (when replication is enabled) and
delivered a `NewBlob` event for `b` to the subscribers. -/
theorem put_success_guarantee (H : Bytes → String) (s3on : Bool) (ops : List (Faults × Blob))
    (f : Faults) (b : Blob)
    (hok : (refPut H s3on f (runPuts H s3on ops Sys.init) b).1 = none) :
    Option.map H ((refPut H s3on f (runPuts H s3on ops Sys.init) b).2.world.lookup b.Hash)
      = some b.Hash ∧
    ((runPuts H s3on ops Sys.init).world.lookup b.Hash = none →
      (refPut H s3on f (runPuts H s3on ops Sys.init) b).2.world.lookup b.Hash = some b.Data ∧
      (s3on = true →
        (refPut H s3on f (runPuts H s3on ops Sys.init) b).2.world.queue
          = (runPuts H s3on ops Sys.init).world.queue ++ [b.Hash]) ∧
      (refPut H s3on f (runPuts H s3on ops Sys.init) b).2.world.newBlobs
        = (runPuts H s3on ops Sys.init).world.newBlobs ++ [b] ∧
      (refPut H s3on f (runPuts H s3on ops Sys.init) b).2.callsSince
          (runPuts H s3on ops Sys.init).trace.length
        = [.backExists b.Hash (.ok false), .backPut b.Hash b.Data none]
            ++ (if s3on then [.s3Put b.Hash none] else []) ++ [.newBlobEvent b none]) := by
  have hsound := runPuts_sound H s3on ops Sys.init (init_sound H)
  obtain ⟨hwf, ⟨d, hl, hs1⟩ | ⟨hl, hs1⟩⟩ := refPut_ok H s3on f _ b hok
  · refine ⟨?_, fun habs => ?_⟩
    · rw [hs1]
      simp only [hl, Option.map_some']
      exact congrArg some (sound_lookup H _ hsound b.Hash d hl)
    · rw [hl] at habs; simp at habs
  · have hl2 := lookup_append_absent b.Hash b.Data _ hl
    refine ⟨?_, fun _ => ?_⟩
    · rw [hs1]
      simp only [Store.lookup, hl2, Option.map_some']
      exact congrArg some (check_none H b hwf)
    · rw [hs1]
      refine ⟨hl2, ?_, rfl, ?_⟩
      · intro hon; simp [hon]
      · simp [Sys.callsSince]

/-- C6: `Put`/`Get` round trip. In every state reached by a sequence of
`Put` calls, after a `Put` of `b` that returns `nil`, `Get(b.Hash)` succeeds
and returns bytes whose digest is `b.Hash`. -/
theorem put_get_roundtrip (H : Bytes → String) (s3on : Bool) (ops : List (Faults × Blob))
    (f g : Faults) (b : Blob)
    (hok : (refPut H s3on f (runPuts H s3on ops Sys.init) b).1 = none) :
    Except.map H (refGet H s3on g (refPut H s3on f (runPuts H s3on ops Sys.init) b).2 b.Hash).1
      = .ok b.Hash := by
  have hsound := runPuts_sound H s3on ops Sys.init (init_sound H)
  obtain ⟨hwf, ⟨d, hl, hs1⟩ | ⟨hl, hs1⟩⟩ := refPut_ok H s3on f _ b hok
  · rw [hs1]
    simp [refGet, BlobStore.Get, refStore, refBack, hl, Except.map,
      sound_lookup H _ hsound b.Hash d hl]
  · have hl2 := lookup_append_absent b.Hash b.Data _ hl
    rw [hs1]
    simp [refGet, BlobStore.Get, refStore, refBack, Store.lookup, hl2, Except.map,
      check_none H b hwf]

/-- Witness of C3: two `Put` calls of `blobA` on the empty reference store. -/
theorem double_put_idempotent_witness :
    (refPut toyHash true Faults.none Sys.init blobA).1 = none ∧
    (refPutTwice toyHash true Faults.none Faults.none Sys.init blobA).1 = none ∧
    (refPutTwice toyHash true Faults.none Faults.none Sys.init blobA).2.world = (refPut toyHash true Faults.none Sys.init blobA).2.world ∧
    (refPutTwice toyHash true Faults.none Faults.none Sys.init blobA).2.trace
      = (refPut toyHash true Faults.none Sys.init blobA).2.trace ++ [.backExists blobA.Hash (.ok true)] ∧
    ((refPutTwice toyHash true Faults.none Faults.none Sys.init blobA).2.callsSince Sys.init.trace.length).countP
      (Call.isBackPut blobA.Hash) ≤ 1 ∧
    (Sys.init.world.lookup blobA.Hash = none →
      ((refPutTwice toyHash true Faults.none Faults.none Sys.init blobA).2.callsSince Sys.init.trace.length).countP
        (Call.isBackPut blobA.Hash) = 1 ∧
      (refPutTwice toyHash true Faults.none Faults.none Sys.init blobA).2.world.blobs.countP
        (fun p => p.1 == blobA.Hash) = 1) ∧
    ((refPutTwice toyHash true Faults.none Faults.none Sys.init blobA).2.callsSince Sys.init.trace.length).countP
      (Call.isS3Put blobA.Hash) ≤ 1 ∧
    ((refPutTwice toyHash true Faults.none Faults.none Sys.init blobA).2.callsSince Sys.init.trace.length).countP
      Call.isNewBlob ≤ 1 :=
  ⟨by decide,
    double_put_idempotent toyHash true Faults.none Faults.none Sys.init blobA (by decide)⟩

/-- Witness of C4: the enqueue of `blobA` fails on the empty reference store. -/
theorem put_notify_failure_witness :
    blobA.Check toyHash = none ∧
    Sys.init.world.lookup blobA.Hash = none ∧
    faultS3.backPut = none ∧
    ((true = true ∧ faultS3.s3Put = some (⟨"s3 down"⟩ : Error)) ∨
      ((true = false ∨ faultS3.s3Put = none) ∧ faultS3.newBlobEvent = some (⟨"s3 down"⟩ : Error))) ∧
    (refPut toyHash true faultS3 Sys.init blobA).1 = some (⟨"s3 down"⟩ : Error) ∧
    (refPut toyHash true faultS3 Sys.init blobA).2.world.blobs = Sys.init.world.blobs ++ [(blobA.Hash, blobA.Data)] ∧
    (refGet toyHash true Faults.none (refPut toyHash true faultS3 Sys.init blobA).2 blobA.Hash).1 = .ok blobA.Data ∧
    (refPut toyHash true faultS3 Sys.init blobA).2.world.newBlobs = Sys.init.world.newBlobs ∧
    ((true = true ∧ faultS3.s3Put = some (⟨"s3 down"⟩ : Error)) →
      (refPut toyHash true faultS3 Sys.init blobA).2.callsSince Sys.init.trace.length
        = [.backExists blobA.Hash (.ok false), .backPut blobA.Hash blobA.Data none,
           .s3Put blobA.Hash (some (⟨"s3 down"⟩ : Error))]) ∧
    (((true = false ∨ faultS3.s3Put = none) ∧ faultS3.newBlobEvent = some (⟨"s3 down"⟩ : Error)) →
      (refPut toyHash true faultS3 Sys.init blobA).2.callsSince Sys.init.trace.length
        = [.backExists blobA.Hash (.ok false), .backPut blobA.Hash blobA.Data none]
            ++ (if true then [.s3Put blobA.Hash none] else [])
            ++ [.newBlobEvent blobA (some (⟨"s3 down"⟩ : Error))]) :=
  ⟨by decide, by decide, by decide, by decide,
    put_notify_failure toyHash true faultS3 Sys.init blobA ⟨"s3 down"⟩ (by decide) (by decide)
      (by decide) (by decide)⟩

/-- Witness of C5: `blobB` is put after the `Put` of `blobA` failed at the
enqueue. -/
theorem put_success_guarantee_witness :
    (refPut toyHash true Faults.none (runPuts toyHash true [(faultS3, blobA)] Sys.init) blobB).1 = none ∧
    Option.map toyHash ((refPut toyHash true Faults.none (runPuts toyHash true [(faultS3, blobA)] Sys.init) blobB).2.world.lookup blobB.Hash)
      = some blobB.Hash ∧
    ((runPuts toyHash true [(faultS3, blobA)] Sys.init).world.lookup blobB.Hash = none →
      (refPut toyHash true Faults.none (runPuts toyHash true [(faultS3, blobA)] Sys.init) blobB).2.world.lookup blobB.Hash = some blobB.Data ∧
      (true = true →
        (refPut toyHash true Faults.none (runPuts toyHash true [(faultS3, blobA)] Sys.init) blobB).2.world.queue
          = (runPuts toyHash true [(faultS3, blobA)] Sys.init).world.queue ++ [blobB.Hash]) ∧
      (refPut toyHash true Faults.none (runPuts toyHash true [(faultS3, blobA)] Sys.init) blobB).2.world.newBlobs
        = (runPuts toyHash true [(faultS3, blobA)] Sys.init).world.newBlobs ++ [blobB] ∧
      (refPut toyHash true Faults.none (runPuts toyHash true [(faultS3, blobA)] Sys.init) blobB).2.callsSince
          (runPuts toyHash true [(faultS3, blobA)] Sys.init).trace.length
        = [.backExists blobB.Hash (.ok false), .backPut blobB.Hash blobB.Data none]
            ++ (if true then [.s3Put blobB.Hash none] else []) ++ [.newBlobEvent blobB none]) :=
  ⟨by decide,
    put_success_guarantee toyHash true [(faultS3, blobA)] Faults.none blobB (by decide)⟩

/-- Witness of C6: `blobA` is put again after its first `Put` failed at the
enqueue, and read back. -/
theorem put_get_roundtrip_witness :
    (refPut toyHash true Faults.none (runPuts toyHash true [(faultS3, blobA)] Sys.init) blobA).1 = none ∧
    Except.map toyHash (refGet toyHash true Faults.none (refPut toyHash true Faults.none (runPuts toyHash true [(faultS3, blobA)] Sys.init) blobA).2 blobA.Hash).1
      = .ok blobA.Hash :=
  ⟨by decide,
    put_get_roundtrip toyHash true [(faultS3, blobA)] Faults.none Faults.none blobA (by decide)⟩


/-! ## Properties of the range iterator -/

/-- The order of `bytes.Compare` is transitive, in its three mixed forms. -/
theorem Compare_trans (a : Bytes) :
    ∀ (b c : Bytes),
      (Compare a b ≤ 0 → Compare b c ≤ 0 → Compare a c ≤ 0) ∧
      (Compare a b < 0 → Compare b c ≤ 0 → Compare a c < 0) ∧
      (Compare a b ≤ 0 → Compare b c < 0 → Compare a c < 0) := by
  induction a with
  | nil =>
    intro b c
    cases b <;> cases c <;> simp [Compare]
  | cons x xs ih =>
    intro b c
    cases b with
    | nil => cases c <;> simp [Compare]
    | cons y ys =>
      cases c with
      | nil => simp [Compare]
      | cons z zs =>
        have h := ih ys zs
        simp only [Compare]
        split_ifs <;> omega

/-- Swapping the arguments of `bytes.Compare` negates the result. -/
theorem Compare_swap (a : Bytes) : ∀ (b : Bytes), Compare b a = - Compare a b := by
  induction a with
  | nil => intro b; cases b <;> simp [Compare]
  | cons x xs ih =>
    intro b
    cases b with
    | nil => simp [Compare]
    | cons y ys =>
      simp only [Compare]
      split_ifs <;> first | omega | simp | exact ih ys

/-- The pair an enumerator is positioned on, when its position is the
length of a prefix of the pairs. -/
theorem cur_append (pre l : List (Bytes × Bytes)) :
    Enumerator.cur ⟨pre ++ l, (pre.length : Int)⟩ = l.head? := by
  have h : (pre ++ l)[pre.length]? = l[0]? := by
    rw [List.getElem?_append_right (Nat.le_refl _)]
    simp
  cases l <;> simp_all [Enumerator.cur]

/-- A forward range whose enumerator has passed the last pair returns
`io.EOF` at every call. -/
theorem calls_exhausted (items : List (Bytes × Bytes)) (n : Nat) :
    ∀ (r : Range DB Enumerator), r.Reverse = false →
      r.enum = some ⟨items, (items.length : Int)⟩ →
      Range.calls refKV n r = yieldsThenEOF n [] := by
  induction n with
  | zero => intro r _ _; rfl
  | succ n ih =>
    intro r hrev henum
    have hcur : Enumerator.cur ⟨items, (items.length : Int)⟩ = none := by
      simpa using cur_append items []
    have hnext : r.Next refKV = some ((none, none, some EOF), r) := by
      cases r
      simp_all [Range.Next, Range.next, refKV, Enumerator.Next, Range.shouldContinue]
    simp only [Range.calls, hnext, yieldsThenEOF]
    exact congrArg (fun t => atEnd :: t) (ih r hrev henum)

/-- A forward range whose enumerator is positioned on the first pair of the
ascending suffix `l` yields the pairs of `l` whose key is at most `Max`, and
then `io.EOF`. -/
theorem calls_forward (max : Bytes) (l : List (Bytes × Bytes)) :
    ∀ (pre : List (Bytes × Bytes)) (n : Nat) (r : Range DB Enumerator),
      r.Reverse = false → r.Max = max →
      r.enum = some ⟨pre ++ l, (pre.length : Int)⟩ →
      l.Pairwise (fun a b => Compare a.1 b.1 < 0) →
      Range.calls refKV n r
        = yieldsThenEOF n (l.filter (fun p => decide (Compare p.1 max ≤ 0))) := by
  induction l with
  | nil =>
    intro pre n r hrev _ henum _
    simpa using calls_exhausted (pre ++ []) n r hrev (by simpa using henum)
  | cons p tl ih =>
    intro pre n r hrev hmax henum hsorted
    cases n with
    | zero => rfl
    | succ n =>
      have hcur : Enumerator.cur ⟨pre ++ p :: tl, (pre.length : Int)⟩ = some p := by
        simpa using cur_append pre (p :: tl)
      obtain ⟨hhead, htail⟩ := List.pairwise_cons.mp hsorted
      have hrec := ih (pre ++ [p]) n
        { r with enum := some ⟨pre ++ p :: tl, (pre.length : Int) + 1⟩ } hrev hmax
        (by simp) htail
      by_cases hp : Compare p.1 max ≤ 0
      · have hnext : r.Next refKV = some ((some p.1, some p.2, none),
            { r with enum := some ⟨pre ++ p :: tl, (pre.length : Int) + 1⟩ }) := by
          cases r
          simp_all [Range.Next, Range.next, refKV, Enumerator.Next, Range.shouldContinue]
        simp only [Range.calls, hnext, List.filter_cons, hp, decide_True, if_true,
          yieldsThenEOF]
        exact congrArg (fun t => yielded p :: t) hrec
      · have hnext : r.Next refKV = some ((none, none, some EOF),
            { r with enum := some ⟨pre ++ p :: tl, (pre.length : Int) + 1⟩ }) := by
          cases r
          simp_all [Range.Next, Range.next, refKV, Enumerator.Next, Range.shouldContinue]
        have hnone : tl.filter (fun q => decide (Compare q.1 max ≤ 0)) = [] := by
          rw [List.filter_eq_nil_iff]
          intro q hq hle
          have hle2 : Compare q.1 max ≤ 0 := by simpa using hle
          exact hp (le_of_lt ((Compare_trans p.1 q.1 max).2.1 (hhead q hq) hle2))
        rw [hnone] at hrec
        simp only [Range.calls, hnext, List.filter_cons, hp, decide_False, hnone,
          yieldsThenEOF]
        exact congrArg (fun t => atEnd :: t) hrec

/-- In an ascending list, the pairs from the first key not below `min` on
whose key is at most `max` are the pairs whose key is in `[min, max]`. -/
theorem filter_dropWhile (min max : Bytes) :
    ∀ (items : List (Bytes × Bytes)), items.Pairwise (fun a b => Compare a.1 b.1 < 0) →
      (items.dropWhile (fun p => decide (Compare p.1 min < 0))).filter
          (fun p => decide (Compare p.1 max ≤ 0))
        = items.filter (fun p => decide (Compare min p.1 ≤ 0) && decide (Compare p.1 max ≤ 0)) := by
  intro items
  induction items with
  | nil => intro _; rfl
  | cons p tl ih =>
    intro hsorted
    obtain ⟨hhead, htail⟩ := List.pairwise_cons.mp hsorted
    have hswap := Compare_swap p.1 min
    by_cases hlt : Compare p.1 min < 0
    · have hnot : ¬ Compare min p.1 ≤ 0 := by omega
      simp only [List.dropWhile_cons, hlt, decide_True, if_true, List.filter_cons, hnot,
        decide_False, Bool.false_and]
      simpa using ih htail
    · have hmin : Compare min p.1 ≤ 0 := by omega
      simp only [List.dropWhile_cons, hlt, decide_False]
      apply List.filter_congr
      intro q hq
      have hq2 : Compare min q.1 ≤ 0 := by
        rcases List.mem_cons.mp hq with rfl | hq
        · exact hmin
        · exact le_of_lt ((Compare_trans min p.1 q.1).2.2 hmin (hhead q hq))
      simp [hq2]

/-- Setting a pair leaves only that pair and pairs that were there. -/
theorem mem_setPair (k v : Bytes) (q : Bytes × Bytes) :
    ∀ (l : List (Bytes × Bytes)), q ∈ setPair k v l → q = (k, v) ∨ q ∈ l := by
  intro l
  induction l with
  | nil => intro h; simpa [setPair] using h
  | cons p tl ih =>
    intro h
    simp only [setPair] at h
    split_ifs at h
    · rcases List.mem_cons.mp h with h | h
      · exact Or.inl h
      · exact Or.inr h
    · rcases List.mem_cons.mp h with h | h
      · exact Or.inl h
      · exact Or.inr (List.mem_cons_of_mem _ h)
    · rcases List.mem_cons.mp h with h | h
      · exact Or.inr (h ▸ List.mem_cons_self _ _)
      · rcases ih h with h | h
        · exact Or.inl h
        · exact Or.inr (List.mem_cons_of_mem _ h)

/-- Setting a pair keeps the keys strictly ascending. -/
theorem setPair_sorted (k v : Bytes) :
    ∀ (l : List (Bytes × Bytes)), l.Pairwise (fun a b => Compare a.1 b.1 < 0) →
      (setPair k v l).Pairwise (fun a b => Compare a.1 b.1 < 0) := by
  intro l
  induction l with
  | nil => intro _; simp [setPair]
  | cons p tl ih =>
    intro hsorted
    obtain ⟨hhead, htail⟩ := List.pairwise_cons.mp hsorted
    simp only [setPair]
    split_ifs with h1 h2
    · refine List.pairwise_cons.mpr ⟨?_, hsorted⟩
      intro q hq
      rcases List.mem_cons.mp hq with rfl | hq
      · exact h1
      · exact (Compare_trans k p.1 q.1).2.1 h1 (le_of_lt (hhead q hq))
    · refine List.pairwise_cons.mpr ⟨?_, htail⟩
      intro q hq
      exact (Compare_trans k p.1 q.1).2.2 (le_of_eq h2) (hhead q hq)
    · refine List.pairwise_cons.mpr ⟨?_, ih htail⟩
      intro q hq
      rcases mem_setPair k v q tl hq with rfl | hq
      · have := Compare_swap k p.1
        show Compare p.1 k < 0
        omega
      · exact hhead q hq

/-- Every database a sequence of `Set` calls builds has strictly ascending
keys. -/
theorem ofSets_sorted (sets : List (Bytes × Bytes)) : (DB.ofSets sets).Sorted := by
  have key : ∀ (l : List (Bytes × Bytes)) (db : DB), db.Sorted →
      (l.foldl (fun db kv => (RangeDB.Set db kv.1 kv.2).2) db).Sorted := by
    intro l
    induction l with
    | nil => intro db h; exact h
    | cons kv tl ih =>
      intro db h
      exact ih _ (setPair_sorted kv.1 kv.2 db.items h)
  exact key sets ⟨[]⟩ List.Pairwise.nil

/-- C10: for every database content (pairs with strictly ascending keys) and
every `min` and `max`, the successive calls of `Next` on the forward range
`Range(min, max, false)` return the pairs of the database with
`min ≤ k ≤ max`, each once and in ascending key order, and then
`(nil, nil, io.EOF)` at every further call; no call panics. -/
theorem range_forward (db : DB) (min max : Bytes) (n : Nat) (hs : db.Sorted) :
    Range.calls refKV n (RangeDB.Range db min max false)
      = yieldsThenEOF n (db.inRange min max) := by
  have hitems : db.items.takeWhile (fun p => decide (Compare p.1 min < 0))
      ++ db.items.dropWhile (fun p => decide (Compare p.1 min < 0)) = db.items :=
    List.takeWhile_append_dropWhile _ _
  have hfwd := calls_forward max (db.items.dropWhile (fun p => decide (Compare p.1 min < 0)))
    (db.items.takeWhile (fun p => decide (Compare p.1 min < 0))) n
    { Reverse := false, Min := min, Max := max, db := db,
      enum := some ⟨db.items,
        ((db.items.takeWhile (fun p => decide (Compare p.1 min < 0))).length : Int)⟩ }
    rfl rfl (by rw [hitems]) (List.Pairwise.sublist (List.dropWhile_sublist _) hs)
  rw [filter_dropWhile min max db.items hs] at hfwd
  cases n with
  | zero => rfl
  | succ n =>
    rw [DB.inRange, ← hfwd]
    simp [Range.calls, Range.Next, Range.next, Range.first, RangeDB.Range, refKV, DB.Seek]

/-- Witness of C10: the range `[[2], [3]]` of a database of four pairs. -/
theorem range_forward_witness :
    db4.Sorted ∧
    Range.calls refKV 5 (RangeDB.Range db4 [2] [3] false) = yieldsThenEOF 5 (db4.inRange [2] [3]) :=
  ⟨by decide, range_forward db4 [2] [3] 5 (by decide)⟩

/-! ## Properties of the tree writer -/

/-- One turn of the loop of `writeReader` on a result of `Next` that is not
`io.EOF`: a failed `Stat` panics; a blob found is not put and the loop goes
on; a failed `Put` panics; after a `Put` the loop goes on. -/
theorem writeLoop_cons {W : Type} (up : Uploader W) (chunk : Chunk) (err : Option Error)
    (rest : List (Chunk × Option Error)) (size : Nat) (s : UpSys W) (m : RawNode)
    (hEOF : err ≠ some EOF) :
    (∃ e, (up.bs.Stat s.world (up.hash chunk.Data)).1.2 = some e ∧
      up.writeLoop ((chunk, err) :: rest) size s m
        = (.panic, up.statted s (up.hash chunk.Data))) ∨
    ((up.bs.Stat s.world (up.hash chunk.Data)).1.2 = none ∧
      (up.bs.Stat s.world (up.hash chunk.Data)).1.1 = true ∧
      up.writeLoop ((chunk, err) :: rest) size s m
        = up.writeLoop rest (uint (size + chunk.Length)) (up.statted s (up.hash chunk.Data))
            (m.AddIndexedRef (intOfUint (uint (size + chunk.Length))) (up.hash chunk.Data))) ∨
    ((up.bs.Stat s.world (up.hash chunk.Data)).1.2 = none ∧
      (up.bs.Stat s.world (up.hash chunk.Data)).1.1 = false ∧
      ∃ e, (up.bs.Put (up.statted s (up.hash chunk.Data)).world (up.hash chunk.Data)
          chunk.Data).1 = some e ∧
      up.writeLoop ((chunk, err) :: rest) size s m
        = (.panic, up.stored s (up.hash chunk.Data) chunk.Data)) ∨
    ((up.bs.Stat s.world (up.hash chunk.Data)).1.2 = none ∧
      (up.bs.Stat s.world (up.hash chunk.Data)).1.1 = false ∧
      (up.bs.Put (up.statted s (up.hash chunk.Data)).world (up.hash chunk.Data)
          chunk.Data).1 = none ∧
      up.writeLoop ((chunk, err) :: rest) size s m
        = up.writeLoop rest (uint (size + chunk.Length))
            (up.stored s (up.hash chunk.Data) chunk.Data)
            (m.AddIndexedRef (intOfUint (uint (size + chunk.Length))) (up.hash chunk.Data))) := by
  cases hst : (up.bs.Stat s.world (up.hash chunk.Data)).1.2 with
  | some e =>
    exact Or.inl ⟨e, rfl, by simp [Uploader.writeLoop, hEOF, hst, Uploader.statted]⟩
  | none =>
    cases hf : (up.bs.Stat s.world (up.hash chunk.Data)).1.1 with
    | true =>
      exact Or.inr (Or.inl ⟨rfl, rfl,
        by simp [Uploader.writeLoop, hEOF, hst, hf, Uploader.statted]⟩)
    | false =>
      cases hp : (up.bs.Put (up.statted s (up.hash chunk.Data)).world (up.hash chunk.Data)
          chunk.Data).1 with
      | some e =>
        refine Or.inr (Or.inr (Or.inl ⟨rfl, rfl, e, rfl, ?_⟩))
        simp only [Uploader.statted, UpSys.call] at hp
        simp [Uploader.writeLoop, hEOF, hst, hf, hp, Uploader.statted, Uploader.stored,
          UpSys.call]
      | none =>
        refine Or.inr (Or.inr (Or.inr ⟨rfl, rfl, rfl, ?_⟩))
        simp only [Uploader.statted, UpSys.call] at hp
        simp [Uploader.writeLoop, hEOF, hst, hf, hp, Uploader.statted, Uploader.stored,
          UpSys.call]

/-- When the loop of `writeReader` returns, it returns no error, and the
size and the node that the results of `Next` determine. -/
theorem writeLoop_ret {W : Type} (up : Uploader W) (rs : List (Chunk × Option Error)) :
    ∀ (size : Nat) (s : UpSys W) (m : RawNode) (x : Option Error × Nat × RawNode)
      (s1 : UpSys W),
      up.writeLoop rs size s m = (.ret x, s1) → x = (none, loopRet up.hash rs size m) := by
  induction rs with
  | nil =>
    intro size s m x s1 h
    simp only [Uploader.writeLoop, Prod.mk.injEq, Outcome.ret.injEq] at h
    simp [loopRet, ← h.1]
  | cons r rest ih =>
    intro size s m x s1 h
    obtain ⟨chunk, err⟩ := r
    by_cases hEOF : err = some EOF
    · simp only [Uploader.writeLoop, hEOF, if_true, Prod.mk.injEq, Outcome.ret.injEq] at h
      simp [loopRet, hEOF, ← h.1]
    · simp only [loopRet, hEOF, if_false]
      rcases writeLoop_cons up chunk err rest size s m hEOF with
        ⟨e, _, hw⟩ | ⟨_, _, hw⟩ | ⟨_, _, e, _, hw⟩ | ⟨_, _, _, hw⟩
      · rw [hw] at h; simp at h
      · rw [hw] at h; exact ih _ _ _ _ _ h
      · rw [hw] at h; simp at h
      · rw [hw] at h; exact ih _ _ _ _ _ h

/-- The conversions of the size leave a number below `2 ^ 63` as it is. -/
theorem intOfUint_uint (n : Nat) (h : n < 2 ^ 63) : intOfUint (uint n) = (n : Int) := by
  have h2 : uint n = n := Nat.mod_eq_of_lt (by omega)
  rw [h2]
  unfold intOfUint
  rw [if_pos h]

/-- The size and the node the loop computes for a stream that the chunker
splits into the chunks `cs`, of fewer than `2 ^ 63` bytes in all: the number
of bytes, and one ref per chunk. -/
theorem loopRet_chunks (H : Bytes → String) (cs : List Bytes) :
    ∀ (size : Nat) (m : RawNode), size + (cs.map List.length).sum < 2 ^ 63 →
      loopRet H (chunkResults cs) size m
        = (size + (cs.map List.length).sum, { m with Refs := m.Refs ++ refsFrom H size cs }) := by
  induction cs with
  | nil => intro size m _; simp [loopRet, chunkResults, refsFrom]
  | cons c cs ih =>
    intro size m hlen
    simp only [List.map_cons, List.sum_cons] at hlen
    have h1 : uint (size + c.length) = size + c.length :=
      Nat.mod_eq_of_lt (by omega)
    have h2 : intOfUint (size + c.length) = ((size + c.length : Nat) : Int) := by
      have := intOfUint_uint (size + c.length) (by omega)
      rwa [h1] at this
    have hrec := ih (size + c.length)
      (m.AddIndexedRef ((size + c.length : Nat) : Int) (H c)) (by omega)
    simp only [chunkResults] at hrec
    simp only [chunkResults, List.map_cons, loopRet, h1, h2, List.sum_cons, refsFrom, hrec]
    simp [RawNode.AddIndexedRef, Nat.add_assoc]

/-- There is one ref per chunk. -/
theorem refsFrom_length (H : Bytes → String) (cs : List Bytes) :
    ∀ (acc : Nat), (refsFrom H acc cs).length = cs.length := by
  induction cs with
  | nil => intro acc; rfl
  | cons c cs ih => intro acc; simp [refsFrom, ih]

/-- The hashes of the refs are the digests of the chunks, in order. -/
theorem refsFrom_hashes (H : Bytes → String) (cs : List Bytes) :
    ∀ (acc : Nat), (refsFrom H acc cs).map Prod.snd = cs.map H := by
  induction cs with
  | nil => intro acc; rfl
  | cons c cs ih => intro acc; simp [refsFrom, ih]

/-- The ref of the chunk of index `i` holds the number of bytes up to the end
of that chunk and the digest of the chunk. -/
theorem refsFrom_getElem (H : Bytes → String) (cs : List Bytes) :
    ∀ (acc i : Nat), (refsFrom H acc cs)[i]?
      = (cs[i]?).map (fun c =>
          (((acc + ((cs.take (i + 1)).map List.length).sum : Nat) : Int), H c)) := by
  induction cs with
  | nil => intro acc i; simp [refsFrom]
  | cons c cs ih =>
    intro acc i
    cases i with
    | zero => simp [refsFrom]
    | succ i => simp [refsFrom, ih, Nat.add_assoc]

/-- Every offset is above the number of bytes before the first chunk, when
no chunk is empty. -/
theorem refsFrom_gt (H : Bytes → String) (cs : List Bytes) :
    ∀ (acc : Nat), (∀ c ∈ cs, c ≠ []) → ∀ r ∈ refsFrom H acc cs, (acc : Int) < r.1 := by
  induction cs with
  | nil => intro acc _ r hr; simp [refsFrom] at hr
  | cons c cs ih =>
    intro acc hne r hr
    have hc : 0 < c.length := List.length_pos.mpr (hne c (List.mem_cons_self _ _))
    simp only [refsFrom, List.mem_cons] at hr
    rcases hr with rfl | hr
    · simp only [Nat.cast_add]; omega
    · have := ih (acc + c.length) (fun d hd => hne d (List.mem_cons_of_mem _ hd)) r hr
      simp only [Nat.cast_add] at this; omega

/-- The offsets are strictly ascending, when no chunk is empty. -/
theorem refsFrom_ascending (H : Bytes → String) (cs : List Bytes) :
    ∀ (acc : Nat), (∀ c ∈ cs, c ≠ []) →
      ((refsFrom H acc cs).map Prod.fst).Pairwise (fun a b => a < b) := by
  induction cs with
  | nil => intro acc _; simp [refsFrom]
  | cons c cs ih =>
    intro acc hne
    simp only [refsFrom, List.map_cons, List.pairwise_cons, List.mem_map]
    refine ⟨?_, ih _ (fun d hd => hne d (List.mem_cons_of_mem _ hd))⟩
    rintro b ⟨r, hr, rfl⟩
    exact refsFrom_gt H cs (acc + c.length) (fun d hd => hne d (List.mem_cons_of_mem _ hd)) r hr

/-- The offset of the last ref is the number of bytes of all the chunks. -/
theorem refsFrom_getLast (H : Bytes → String) (cs : List Bytes) :
    ∀ (acc : Nat), cs ≠ [] →
      ((refsFrom H acc cs).getLast?).map Prod.fst
        = some (((acc + (cs.map List.length).sum : Nat) : Int)) := by
  induction cs with
  | nil => intro acc h; exact absurd rfl h
  | cons c cs ih =>
    intro acc _
    cases cs with
    | nil => simp [refsFrom]
    | cons d ds =>
      have := ih (acc + c.length) (by simp)
      simp only [refsFrom, List.getLast?_cons_cons] at this ⊢
      rw [this]
      simp [Nat.add_assoc]

/-- A binding that was set is found. -/
theorem lookup_setKey (k : String) (v : Value) :
    ∀ (l : List (String × Value)), List.lookup k (setKey k v l) = some v := by
  intro l
  induction l with
  | nil => simp [setKey, List.lookup]
  | cons p tl ih =>
    by_cases hp : p.1 = k
    · simp [setKey, hp, List.lookup]
    · have hb : (k == p.1) = false := by simpa using fun e : k = p.1 => hp e.symm
      obtain ⟨a, b⟩ := p
      simp only [setKey, hp, if_false, List.lookup] at hb ⊢
      simp only [hb]
      exact ih

/-- What `writeReader` returns, when it does, for a stream that the chunker
splits into the chunks `cs`, of fewer than `2 ^ 63` bytes in all. -/
theorem writeReader_chunks {W : Type} (up : Uploader W) (s : UpSys W) (f : Reader) (m : RawNode)
    (cs : List Bytes) (hch : up.chunker pol f = chunkResults cs)
    (hlen : (cs.map List.length).sum < 2 ^ 63)
    (hret : (up.writeReader s f m).1 ≠ .panic) :
    (up.writeReader s f m).1
      = .ret (none,
          ({ m with Refs := m.Refs ++ refsFrom up.hash 0 cs,
                    Size := ((cs.map List.length).sum : Nat) }).AddData
            "blake2b-hash" (.str (up.blake2b f.data))) := by
  unfold Uploader.writeReader at hret ⊢
  rw [hch] at hret ⊢
  cases hw : up.writeLoop (chunkResults cs) 0 s m with
  | mk o s1 =>
    cases o with
    | panic => rw [hw] at hret; simp at hret
    | ret x =>
      have hx := writeLoop_ret up _ 0 s m x s1 hw
      rw [loopRet_chunks up.hash cs 0 m (by omega)] at hx
      subst hx
      have hi : intOfUint (cs.map List.length).sum = (((cs.map List.length).sum : Nat) : Int) := by
        unfold intOfUint
        rw [if_pos hlen]
      simp only [Nat.zero_add, hi]

/-- The four ways `PutMeta` ends: a failed `Stat`; a node found, which is not
put; a failed `Put`; a node put. -/
theorem putMeta_cases {W : Type} (up : Uploader W) (s : UpSys W) (m : RawNode) :
    (∃ e, (up.bs.Stat s.world (m.Encode up.hash up.enc).1).1.2 = some e ∧
      up.PutMeta s m
        = ((some ⟨"failed to stat blob " ++ (m.Encode up.hash up.enc).1 ++ ": " ++ e.msg⟩, m),
           up.statted s (m.Encode up.hash up.enc).1)) ∨
    ((up.bs.Stat s.world (m.Encode up.hash up.enc).1).1.2 = none ∧
      (up.bs.Stat s.world (m.Encode up.hash up.enc).1).1.1 = true ∧
      up.PutMeta s m
        = ((none, { m with Hash := (m.Encode up.hash up.enc).1 }),
           up.statted s (m.Encode up.hash up.enc).1)) ∨
    ((up.bs.Stat s.world (m.Encode up.hash up.enc).1).1.2 = none ∧
      (up.bs.Stat s.world (m.Encode up.hash up.enc).1).1.1 = false ∧
      ∃ e, (up.bs.Put (up.statted s (m.Encode up.hash up.enc).1).world
          (m.Encode up.hash up.enc).1 (m.Encode up.hash up.enc).2).1 = some e ∧
      up.PutMeta s m
        = ((some ⟨"failed to put blob " ++ (m.Encode up.hash up.enc).1 ++ ": " ++ e.msg⟩, m),
           up.stored s (m.Encode up.hash up.enc).1 (m.Encode up.hash up.enc).2)) ∨
    ((up.bs.Stat s.world (m.Encode up.hash up.enc).1).1.2 = none ∧
      (up.bs.Stat s.world (m.Encode up.hash up.enc).1).1.1 = false ∧
      (up.bs.Put (up.statted s (m.Encode up.hash up.enc).1).world
          (m.Encode up.hash up.enc).1 (m.Encode up.hash up.enc).2).1 = none ∧
      up.PutMeta s m
        = ((none, { m with Hash := (m.Encode up.hash up.enc).1 }),
           up.stored s (m.Encode up.hash up.enc).1 (m.Encode up.hash up.enc).2)) := by
  cases hst : (up.bs.Stat s.world (m.Encode up.hash up.enc).1).1.2 with
  | some e =>
    exact Or.inl ⟨e, rfl, by simp [Uploader.PutMeta, hst, Uploader.statted]⟩
  | none =>
    cases hf : (up.bs.Stat s.world (m.Encode up.hash up.enc).1).1.1 with
    | true =>
      exact Or.inr (Or.inl ⟨rfl, rfl, by simp [Uploader.PutMeta, hst, hf, Uploader.statted]⟩)
    | false =>
      cases hp : (up.bs.Put (up.statted s (m.Encode up.hash up.enc).1).world
          (m.Encode up.hash up.enc).1 (m.Encode up.hash up.enc).2).1 with
      | some e =>
        refine Or.inr (Or.inr (Or.inl ⟨rfl, rfl, e, rfl, ?_⟩))
        simp only [Uploader.statted, UpSys.call] at hp
        simp [Uploader.PutMeta, hst, hf, hp, Uploader.statted, Uploader.stored, UpSys.call]
      | none =>
        refine Or.inr (Or.inr (Or.inr ⟨rfl, rfl, rfl, ?_⟩))
        simp only [Uploader.statted, UpSys.call] at hp
        simp [Uploader.PutMeta, hst, hf, hp, Uploader.statted, Uploader.stored, UpSys.call]

/-- The node `putNode` returns is the node it was given, with the hash of
its encoding. -/
theorem putNode_node {W : Type} (up : Uploader W) (s : UpSys W) (m n : RawNode)
    (h : nodeOf (up.putNode s m) = some n) :
    n = { m with Hash := (m.Encode up.hash up.enc).1 } := by
  unfold Uploader.putNode nodeOf at h
  rcases putMeta_cases up s m with ⟨e, _, hw⟩ | ⟨_, _, hw⟩ | ⟨_, _, e, _, hw⟩ | ⟨_, _, _, hw⟩ <;>
    simp [hw] at h <;> exact h.symm

/-- The node `writeAndPut` returns is the node `writeReader` returned, with
the hash of its encoding. -/
theorem writeAndPut_node {W : Type} (up : Uploader W) (s : UpSys W) (f : Reader)
    (m n : RawNode) (h : nodeOf (up.writeAndPut s f m) = some n) :
    ∃ m1, (up.writeReader s f m).1 = .ret (none, m1) ∧
      n = { m1 with Hash := (m1.Encode up.hash up.enc).1 } := by
  unfold Uploader.writeAndPut at h
  cases hw : up.writeReader s f m with
  | mk o s1 =>
    rw [hw] at h
    cases o with
    | panic => simp [nodeOf] at h
    | ret x =>
      obtain ⟨e, m1⟩ := x
      cases e with
      | some e => simp [nodeOf] at h
      | none => exact ⟨m1, rfl, putNode_node up s1 m1 n h⟩

/-- Setting data bindings changes the data of the node only. -/
theorem foldl_addData (kvs : List (String × Value)) :
    ∀ (m : RawNode),
      (kvs.foldl (fun m kv => m.AddData kv.1 kv.2) m).Refs = m.Refs ∧
      (kvs.foldl (fun m kv => m.AddData kv.1 kv.2) m).Name = m.Name ∧
      (kvs.foldl (fun m kv => m.AddData kv.1 kv.2) m).Kind = m.Kind := by
  induction kvs with
  | nil => intro m; exact ⟨rfl, rfl, rfl⟩
  | cons kv tl ih => intro m; simpa [RawNode.AddData] using ih (m.AddData kv.1 kv.2)

/-- The node `PutReader` starts from has no refs, the base name and the type
`file`. -/
theorem startNode_fields (name : String) (data : Option (List (String × Value))) :
    (startNode name data).Refs = [] ∧ (startNode name data).Name = filepathBase name ∧
    (startNode name data).Kind = "file" := by
  cases data with
  | none => exact ⟨rfl, rfl, rfl⟩
  | some kvs =>
    simpa [startNode, RawNode.zero] using
      foldl_addData kvs { RawNode.zero with Name := filepathBase name, Kind := "file" }

/-- The facts about a node `writeAndPut` returns from a node without refs,
for a stream that the chunker splits into the chunks `cs`: the size is the
length of the stream, the refs are those of the chunks, and the data holds
the digest of the stream. -/
theorem writeAndPut_facts {W : Type} (up : Uploader W) (s : UpSys W) (f : Reader)
    (m n : RawNode) (cs : List Bytes) (hch : up.chunker pol f = chunkResults cs)
    (hcat : cs.flatten = f.data) (hlen : f.data.length < 2 ^ 63) (hrefs : m.Refs = [])
    (hnode : nodeOf (up.writeAndPut s f m) = some n) :
    n.Size = f.data.length ∧ n.Refs = refsFrom up.hash 0 cs ∧
    List.lookup "blake2b-hash" n.Data = some (.str (up.blake2b f.data)) ∧
    n.Name = m.Name ∧ n.Kind = m.Kind := by
  obtain ⟨m1, hw, hn⟩ := writeAndPut_node up s f m n hnode
  have hsum : (cs.map List.length).sum = f.data.length := by
    rw [← hcat, List.length_flatten]
  have hw2 := writeReader_chunks up s f m cs hch (by rw [hsum]; exact hlen)
    (by rw [hw]; simp)
  rw [hw] at hw2
  simp only [Outcome.ret.injEq, Prod.mk.injEq, true_and] at hw2
  subst hw2
  subst hn
  simp [RawNode.AddData, hrefs, hsum, lookup_setKey]

/-- C12: for a stream that the chunker splits into the chunks `c_1..c_n` (of
fewer than `2 ^ 63` bytes in all), `writeReader`, when it returns, has added
exactly `n` refs to the node, in order, where the ref of index `i` has the
offset `len(c_1) + ... + len(c_i)` and the digest of `c_i`; as no chunk of
the chunker is empty, the offsets are strictly ascending. -/
theorem writeReader_refs {W : Type} (up : Uploader W) (s : UpSys W) (f : Reader) (m : RawNode)
    (cs : List Bytes) (hch : up.chunker pol f = chunkResults cs)
    (hlen : (cs.map List.length).sum < 2 ^ 63)
    (hret : (up.writeReader s f m).1 ≠ .panic) :
    (up.writeReader s f m).1
      = .ret (none,
          ({ m with Refs := m.Refs ++ refsFrom up.hash 0 cs,
                    Size := ((cs.map List.length).sum : Nat) }).AddData
            "blake2b-hash" (.str (up.blake2b f.data))) ∧
    (refsFrom up.hash 0 cs).length = cs.length ∧
    (∀ i, (refsFrom up.hash 0 cs)[i]?
      = (cs[i]?).map (fun c =>
          (((((cs.take (i + 1)).map List.length).sum : Nat) : Int), up.hash c))) ∧
    ((∀ c ∈ cs, c ≠ []) →
      ((refsFrom up.hash 0 cs).map Prod.fst).Pairwise (fun a b => a < b)) := by
  refine ⟨writeReader_chunks up s f m cs hch hlen hret, refsFrom_length up.hash cs 0, ?_,
    refsFrom_ascending up.hash cs 0⟩
  intro i
  simpa using refsFrom_getElem up.hash cs 0 i

/-- Witness of C12: the stream `readerA` of five bytes, cut after every
second byte. -/
theorem writeReader_refs_witness :
    (toyUploader Faults.none).chunker pol readerA = chunkResults chunksA ∧
    (chunksA.map List.length).sum < 2 ^ 63 ∧
    ((toyUploader Faults.none).writeReader UpSys.init readerA RawNode.zero).1 ≠ .panic ∧
    ((toyUploader Faults.none).writeReader UpSys.init readerA RawNode.zero).1
      = .ret (none,
          ({ RawNode.zero with
              Refs := RawNode.zero.Refs ++ refsFrom (toyUploader Faults.none).hash 0 chunksA,
              Size := ((chunksA.map List.length).sum : Nat) }).AddData
            "blake2b-hash" (.str ((toyUploader Faults.none).blake2b readerA.data))) ∧
    (refsFrom (toyUploader Faults.none).hash 0 chunksA).length = chunksA.length ∧
    (∀ i, (refsFrom (toyUploader Faults.none).hash 0 chunksA)[i]?
      = (chunksA[i]?).map (fun c =>
          (((((chunksA.take (i + 1)).map List.length).sum : Nat) : Int), (toyUploader Faults.none).hash c))) ∧
    ((∀ c ∈ chunksA, c ≠ []) →
      ((refsFrom (toyUploader Faults.none).hash 0 chunksA).map Prod.fst).Pairwise (fun a b => a < b)) :=
  ⟨by decide, by decide, by decide,
    writeReader_refs (toyUploader Faults.none) UpSys.init readerA RawNode.zero chunksA
      (by decide) (by decide) (by decide)⟩

/-- C13: for a byte stream `s` (of fewer than `2 ^ 63` bytes) that the
chunker splits into chunks whose concatenation is `s`, the node `PutReader`
returns has `Size` equal to `len(s)`, its last ref offset (when `s` is not
empty) equal to `Size`, and `data["blake2b-hash"]` equal to the hexadecimal
BLAKE2b-256 digest of `s`, which is the digest of the chunks concatenated in
the order of the refs. -/
theorem putReader_size_hash {W : Type} (up : Uploader W) (s : UpSys W) (name : String)
    (f : Reader) (data : Option (List (String × Value))) (cs : List Bytes) (n : RawNode)
    (hch : up.chunker pol f = chunkResults cs) (hcat : cs.flatten = f.data)
    (hlen : f.data.length < 2 ^ 63)
    (hnode : nodeOf (up.PutReader s name f data) = some n) :
    n.Size = f.data.length ∧
    (f.data ≠ [] → (n.Refs.getLast?).map Prod.fst = some n.Size) ∧
    List.lookup "blake2b-hash" n.Data = some (.str (up.blake2b f.data)) ∧
    n.Refs.map Prod.snd = cs.map up.hash ∧
    up.blake2b cs.flatten = up.blake2b f.data := by
  obtain ⟨hsize, hrefs, hdata, -, -⟩ :=
    writeAndPut_facts up s f (startNode name data) n cs hch hcat hlen
      (startNode_fields name data).1 hnode
  refine ⟨hsize, ?_, hdata, ?_, by rw [hcat]⟩
  · intro hne
    have hcs : cs ≠ [] := by
      intro h
      rw [h] at hcat
      exact hne hcat.symm
    have hsum : (cs.map List.length).sum = f.data.length := by
      rw [← hcat, List.length_flatten]
    rw [hrefs, refsFrom_getLast up.hash cs 0 hcs, hsize, Nat.zero_add, hsum]
  · rw [hrefs, refsFrom_hashes]

/-- Witness of C13: the stream `readerA` put under the name `dir/f.txt`. -/
theorem putReader_size_hash_witness :
    (toyUploader Faults.none).chunker pol readerA = chunkResults chunksA ∧
    chunksA.flatten = readerA.data ∧
    readerA.data.length < 2 ^ 63 ∧
    nodeOf ((toyUploader Faults.none).PutReader UpSys.init "dir/f.txt" readerA none) = some nodeA ∧
    nodeA.Size = readerA.data.length ∧
    (readerA.data ≠ [] → (nodeA.Refs.getLast?).map Prod.fst = some nodeA.Size) ∧
    List.lookup "blake2b-hash" nodeA.Data = some (.str ((toyUploader Faults.none).blake2b readerA.data)) ∧
    nodeA.Refs.map Prod.snd = chunksA.map (toyUploader Faults.none).hash ∧
    (toyUploader Faults.none).blake2b chunksA.flatten = (toyUploader Faults.none).blake2b readerA.data :=
  ⟨by decide, by decide, by decide, by decide,
    putReader_size_hash (toyUploader Faults.none) UpSys.init "dir/f.txt" readerA none chunksA nodeA
      (by decide) (by decide) (by decide) (by decide)⟩

/-- The file part of a path is its base name, when the path does not end in a
slash. -/
theorem base_eq_split (path : String) (h : (filepathSplit path).2 ≠ "") :
    filepathBase path = (filepathSplit path).2 := by
  unfold filepathSplit at h ⊢
  unfold filepathBase
  have hne : path.toList.reverse.takeWhile (fun c => c != '/') ≠ [] := by
    intro h0
    apply h
    show String.mk (List.takeWhile (fun c => c != '/') path.toList.reverse).reverse = ""
    rw [h0]
    rfl
  cases hl : path.toList.reverse with
  | nil => rw [hl] at hne; simp at hne
  | cons c tl =>
    rw [hl] at hne
    have hc : (c != '/') = true := by
      by_contra hc
      simp only [List.takeWhile_cons, hc] at hne
      exact hne rfl
    have hc2 : (c == '/') = false := by simpa using hc
    have hpath : path.toList ≠ [] := by
      intro h0
      rw [h0] at hl
      simp at hl
    simp only [hpath, if_false, List.dropWhile_cons, hc2, Bool.false_eq_true]
    rw [if_neg hne]

/-- One turn of the loop of `writeReader` after a failed `Stat`. -/
theorem writeLoop_statErr {W : Type} (up : Uploader W) (chunk : Chunk) (err : Option Error)
    (rest : List (Chunk × Option Error)) (size : Nat) (s : UpSys W) (m : RawNode) (e : Error)
    (hEOF : err ≠ some EOF)
    (hst : (up.bs.Stat s.world (up.hash chunk.Data)).1.2 = some e) :
    up.writeLoop ((chunk, err) :: rest) size s m
      = (.panic, up.statted s (up.hash chunk.Data)) := by
  simp [Uploader.writeLoop, hEOF, hst, Uploader.statted]

/-- One turn of the loop of `writeReader` for a blob the store holds. -/
theorem writeLoop_found {W : Type} (up : Uploader W) (chunk : Chunk) (err : Option Error)
    (rest : List (Chunk × Option Error)) (size : Nat) (s : UpSys W) (m : RawNode)
    (hEOF : err ≠ some EOF)
    (hst : (up.bs.Stat s.world (up.hash chunk.Data)).1.2 = none)
    (hf : (up.bs.Stat s.world (up.hash chunk.Data)).1.1 = true) :
    up.writeLoop ((chunk, err) :: rest) size s m
      = up.writeLoop rest (uint (size + chunk.Length)) (up.statted s (up.hash chunk.Data))
          (m.AddIndexedRef (intOfUint (uint (size + chunk.Length))) (up.hash chunk.Data)) := by
  simp [Uploader.writeLoop, hEOF, hst, hf, Uploader.statted]

/-- One turn of the loop of `writeReader` after a failed `Put`. -/
theorem writeLoop_putErr {W : Type} (up : Uploader W) (chunk : Chunk) (err : Option Error)
    (rest : List (Chunk × Option Error)) (size : Nat) (s : UpSys W) (m : RawNode) (e : Error)
    (hEOF : err ≠ some EOF)
    (hst : (up.bs.Stat s.world (up.hash chunk.Data)).1.2 = none)
    (hf : (up.bs.Stat s.world (up.hash chunk.Data)).1.1 = false)
    (hp : (up.bs.Put (up.statted s (up.hash chunk.Data)).world (up.hash chunk.Data)
      chunk.Data).1 = some e) :
    up.writeLoop ((chunk, err) :: rest) size s m
      = (.panic, up.stored s (up.hash chunk.Data) chunk.Data) := by
  simp only [Uploader.statted, UpSys.call] at hp
  simp [Uploader.writeLoop, hEOF, hst, hf, hp, Uploader.statted, Uploader.stored, UpSys.call]

/-- One turn of the loop of `writeReader` for a blob the store does not hold
and takes. -/
theorem writeLoop_put {W : Type} (up : Uploader W) (chunk : Chunk) (err : Option Error)
    (rest : List (Chunk × Option Error)) (size : Nat) (s : UpSys W) (m : RawNode)
    (hEOF : err ≠ some EOF)
    (hst : (up.bs.Stat s.world (up.hash chunk.Data)).1.2 = none)
    (hf : (up.bs.Stat s.world (up.hash chunk.Data)).1.1 = false)
    (hp : (up.bs.Put (up.statted s (up.hash chunk.Data)).world (up.hash chunk.Data)
      chunk.Data).1 = none) :
    up.writeLoop ((chunk, err) :: rest) size s m
      = up.writeLoop rest (uint (size + chunk.Length))
          (up.stored s (up.hash chunk.Data) chunk.Data)
          (m.AddIndexedRef (intOfUint (uint (size + chunk.Length))) (up.hash chunk.Data)) := by
  simp only [Uploader.statted, UpSys.call] at hp
  simp [Uploader.writeLoop, hEOF, hst, hf, hp, Uploader.statted, Uploader.stored, UpSys.call]

/-- The loop of `writeReader` does not read the size of the node: from a node
of another size it ends the same way, in the same state, with the same node
but for the size. -/
theorem writeLoop_setSize {W : Type} (up : Uploader W) (k : Int)
    (rs : List (Chunk × Option Error)) :
    ∀ (size : Nat) (s : UpSys W) (m : RawNode),
      up.writeLoop rs size s { m with Size := k }
        = (match (up.writeLoop rs size s m).1 with
           | .panic => .panic
           | .ret (e, sz, m1) => .ret (e, sz, { m1 with Size := k }),
           (up.writeLoop rs size s m).2) := by
  induction rs with
  | nil => intro size s m; simp [Uploader.writeLoop]
  | cons r rest ih =>
    intro size s m
    obtain ⟨chunk, err⟩ := r
    by_cases hEOF : err = some EOF
    · simp [Uploader.writeLoop, hEOF]
    · cases hst : (up.bs.Stat s.world (up.hash chunk.Data)).1.2 with
      | some e =>
        rw [writeLoop_statErr up chunk err rest size s _ e hEOF hst,
          writeLoop_statErr up chunk err rest size s _ e hEOF hst]
      | none =>
        cases hf : (up.bs.Stat s.world (up.hash chunk.Data)).1.1 with
        | true =>
          rw [writeLoop_found up chunk err rest size s _ hEOF hst hf,
            writeLoop_found up chunk err rest size s _ hEOF hst hf]
          exact ih _ _ (m.AddIndexedRef (intOfUint (uint (size + chunk.Length)))
            (up.hash chunk.Data))
        | false =>
          cases hp : (up.bs.Put (up.statted s (up.hash chunk.Data)).world
              (up.hash chunk.Data) chunk.Data).1 with
          | some e =>
            rw [writeLoop_putErr up chunk err rest size s _ e hEOF hst hf hp,
              writeLoop_putErr up chunk err rest size s _ e hEOF hst hf hp]
          | none =>
            rw [writeLoop_put up chunk err rest size s _ hEOF hst hf hp,
              writeLoop_put up chunk err rest size s _ hEOF hst hf hp]
            exact ih _ _ (m.AddIndexedRef (intOfUint (uint (size + chunk.Length)))
              (up.hash chunk.Data))

/-- The method `writeReader` overwrites the size of the node: from a node of
another size it returns the same. -/
theorem writeReader_setSize {W : Type} (up : Uploader W) (s : UpSys W) (f : Reader)
    (m : RawNode) (k : Int) :
    up.writeReader s f { m with Size := k } = up.writeReader s f m := by
  unfold Uploader.writeReader
  rw [writeLoop_setSize up k]
  cases hw : up.writeLoop (up.chunker pol f) 0 s m with
  | mk o s1 =>
    cases o with
    | panic => rfl
    | ret x =>
      have hx := writeLoop_ret up _ 0 s m x s1 hw
      subst hx
      rfl

/-- The loop of `writeReader` changes the refs of the node only. -/
theorem loopRet_fields (H : Bytes → String) (rs : List (Chunk × Option Error)) :
    ∀ (size : Nat) (m : RawNode),
      (loopRet H rs size m).2.Name = m.Name ∧ (loopRet H rs size m).2.Kind = m.Kind ∧
      (loopRet H rs size m).2.Data = m.Data ∧ (loopRet H rs size m).2.Hash = m.Hash := by
  induction rs with
  | nil => intro size m; exact ⟨rfl, rfl, rfl, rfl⟩
  | cons r rest ih =>
    intro size m
    obtain ⟨chunk, err⟩ := r
    by_cases hEOF : err = some EOF
    · simp [loopRet, hEOF]
    · simp only [loopRet, hEOF, if_false]
      exact ih _ _

/-- The node `writeReader` returns has the name and the type of the node it
was given. -/
theorem writeReader_fields {W : Type} (up : Uploader W) (s : UpSys W) (f : Reader)
    (m m1 : RawNode) (e : Option Error) (h : (up.writeReader s f m).1 = .ret (e, m1)) :
    m1.Name = m.Name ∧ m1.Kind = m.Kind := by
  unfold Uploader.writeReader at h
  cases hw : up.writeLoop (up.chunker pol f) 0 s m with
  | mk o s1 =>
    rw [hw] at h
    cases o with
    | panic => simp at h
    | ret x =>
      have hx := writeLoop_ret up _ 0 s m x s1 hw
      subst hx
      simp only [Outcome.ret.injEq, Prod.mk.injEq] at h
      obtain ⟨_, hm⟩ := h
      subst hm
      have := loopRet_fields up.hash (up.chunker pol f) 0 m
      exact ⟨by simpa [RawNode.AddData] using this.1, by simpa [RawNode.AddData] using this.2.1⟩

/-- The node of `PutFile` for an empty file. -/
theorem putFile_empty {W : Type} (up : Uploader W) (os : OS) (s : UpSys W) (path : String)
    (hstat : os.Stat path = .info 0) :
    up.PutFile os s path
      = up.putNode s { RawNode.zero with Name := (filepathSplit path).2, Kind := "file" } := by
  simp [Uploader.PutFile, hstat, RawNode.zero]

/-- For a file that is not empty, `PutFile` does what `PutReader` does for
the path and the contents of the file, with no data. -/
theorem putFile_nonempty {W : Type} (up : Uploader W) (os : OS) (s : UpSys W) (path : String)
    (c : Bytes) (hstat : os.Stat path = .info c.length) (hopen : os.Open path = .ok ⟨c, none⟩)
    (hname : (filepathSplit path).2 ≠ "") (hc : c ≠ []) :
    up.PutFile os s path = up.PutReader s path ⟨c, none⟩ none := by
  have hpos : ((c.length : Nat) : Int) > 0 := by
    have := List.length_pos.mpr hc
    omega
  have hm : ({ RawNode.zero with
      Name := (filepathSplit path).2, Size := (c.length : Int), Kind := "file" } : RawNode)
      = { ({ RawNode.zero with Name := filepathBase path, Kind := "file" } : RawNode) with
          Size := (c.length : Int) } := by
    rw [base_eq_split path hname]
  simp only [Uploader.PutFile, hstat, hpos, if_true, hopen, Uploader.PutReader, startNode,
    Uploader.writeAndPut]
  rw [hm, writeReader_setSize]

/-- Counterexample to C14 as stated: for the empty file `dir/f.txt`, the node
`PutFile` returns has no `data["blake2b-hash"]`, and it is not the node that
`PutReader` builds for the same name and the empty stream, which holds the
digest of the empty stream. -/
theorem putFile_empty_counterexample :
    nodeOf ((toyUploader Faults.none).PutFile (OS.single "dir/f.txt" []) UpSys.init "dir/f.txt")
      = some ⟨"bbbaaaaabaaaab", "f.txt", "file", 0, [], []⟩ ∧
    List.lookup "blake2b-hash"
      (⟨"bbbaaaaabaaaab", "f.txt", "file", 0, [], []⟩ : RawNode).Data = none ∧
    nodeOf ((toyUploader Faults.none).PutReader UpSys.init "dir/f.txt" ⟨[], none⟩ none)
      = some ⟨"bbabaaaaabaaaab", "f.txt", "file", 0, [], [("blake2b-hash", .str "b")]⟩ ∧
    nodeOf ((toyUploader Faults.none).PutFile (OS.single "dir/f.txt" []) UpSys.init "dir/f.txt")
      ≠ nodeOf ((toyUploader Faults.none).PutReader UpSys.init "dir/f.txt" ⟨[], none⟩ none) := by
  decide

/-- C14, amended: for every existing regular file, the node `PutFile`
returns has the type `file` and the base name of the file as its name. For a
file that is not empty, `PutFile` does what `PutReader` does for the same
name and bytes with no extra data, so that the node is the same: `Size` is
the length of the file and `data["blake2b-hash"]` the hexadecimal BLAKE2b-256
digest of its contents. For an empty file, the file is not read: the node
has `Size` 0, no refs and no data. -/
theorem putFile_node {W : Type} (up : Uploader W) (os : OS) (s : UpSys W) (path : String)
    (c : Bytes) (hstat : os.Stat path = .info c.length) (hopen : os.Open path = .ok ⟨c, none⟩)
    (hname : (filepathSplit path).2 ≠ "") :
    (c ≠ [] → up.PutFile os s path = up.PutReader s path ⟨c, none⟩ none) ∧
    (∀ n, nodeOf (up.PutFile os s path) = some n →
      n.Kind = "file" ∧ n.Name = (filepathSplit path).2 ∧ n.Name = filepathBase path ∧
      (c = [] → n.Size = 0 ∧ n.Refs = [] ∧ n.Data = []) ∧
      (c ≠ [] → c.length < 2 ^ 63 →
        ∀ cs, up.chunker pol ⟨c, none⟩ = chunkResults cs → cs.flatten = c →
          n.Size = c.length ∧
          List.lookup "blake2b-hash" n.Data = some (.str (up.blake2b c)))) := by
  refine ⟨putFile_nonempty up os s path c hstat hopen hname, ?_⟩
  intro n hn
  by_cases hc : c = []
  · subst hc
    rw [putFile_empty up os s path hstat] at hn
    have := putNode_node up s _ n hn
    subst this
    exact ⟨rfl, rfl, (base_eq_split path hname).symm, fun _ => ⟨rfl, rfl, rfl⟩,
      fun h => absurd rfl h⟩
  · rw [putFile_nonempty up os s path c hstat hopen hname hc] at hn
    obtain ⟨m1, hw, hn1⟩ := writeAndPut_node up s ⟨c, none⟩ (startNode path none) n hn
    have hf := writeReader_fields up s ⟨c, none⟩ (startNode path none) m1 none hw
    obtain ⟨-, hname2, hkind2⟩ := startNode_fields path none
    have hN : n.Name = filepathBase path := by rw [hn1]; exact hf.1.trans hname2
    refine ⟨by rw [hn1]; exact hf.2.trans hkind2, hN.trans (base_eq_split path hname), hN,
      fun h => absurd h hc, ?_⟩
    intro _ hlen cs hch hcat
    have := writeAndPut_facts up s ⟨c, none⟩ (startNode path none) n cs hch hcat hlen
      (startNode_fields path none).1 hn
    exact ⟨this.1, this.2.2.1⟩

/-- Witness of C14: the file `dir/f.txt` of five bytes. -/
theorem putFile_node_witness :
    osA.Stat "dir/f.txt" = .info bytesA.length ∧
    osA.Open "dir/f.txt" = .ok ⟨bytesA, none⟩ ∧
    (filepathSplit "dir/f.txt").2 ≠ "" ∧
    (bytesA ≠ [] → (toyUploader Faults.none).PutFile osA UpSys.init "dir/f.txt" = (toyUploader Faults.none).PutReader UpSys.init "dir/f.txt" ⟨bytesA, none⟩ none) ∧
    (∀ n, nodeOf ((toyUploader Faults.none).PutFile osA UpSys.init "dir/f.txt") = some n →
      n.Kind = "file" ∧ n.Name = (filepathSplit "dir/f.txt").2 ∧ n.Name = filepathBase "dir/f.txt" ∧
      (bytesA = [] → n.Size = 0 ∧ n.Refs = [] ∧ n.Data = []) ∧
      (bytesA ≠ [] → bytesA.length < 2 ^ 63 →
        ∀ cs, (toyUploader Faults.none).chunker pol ⟨bytesA, none⟩ = chunkResults cs → cs.flatten = bytesA →
          n.Size = bytesA.length ∧
          List.lookup "blake2b-hash" n.Data = some (.str ((toyUploader Faults.none).blake2b bytesA)))) :=
  ⟨by decide, by decide, by decide,
    putFile_node (toyUploader Faults.none) osA UpSys.init "dir/f.txt" bytesA
      (by decide) (by decide) (by decide)⟩

/-! ## The calls of the tree writer -/

/-- Guarded calls followed by guarded calls are guarded. -/
theorem Guarded.append {a b : List UpCall} (ha : Guarded a) (hb : Guarded b) :
    Guarded (a ++ b) := by
  induction ha with
  | nil => exact hb
  | stat h found err rest _ ih => exact Guarded.stat h found err _ ih
  | statPut h d err rest _ ih => exact Guarded.statPut h d err _ ih

/-- No call adds nothing. -/
theorem Adds.refl {W : Type} (H : Bytes → String) (ds : List Bytes) (s : UpSys W) :
    Adds H ds s s :=
  ⟨[], by simp, Guarded.nil, by simp, by simp⟩

/-- The calls of two runs, one after the other. -/
theorem Adds.trans {W : Type} {H : Bytes → String} {ds : List Bytes} {s t u : UpSys W}
    (h1 : Adds H ds s t) (h2 : Adds H ds t u) : Adds H ds s u := by
  obtain ⟨n1, hc1, hg1, hh1, hd1⟩ := h1
  obtain ⟨n2, hc2, hg2, hh2, hd2⟩ := h2
  refine ⟨n1 ++ n2, by rw [hc2, hc1, List.append_assoc], hg1.append hg2, ?_, ?_⟩
  · intro c hc
    rcases List.mem_append.mp hc with h | h
    · exact hh1 c h
    · exact hh2 c h
  · intro h d e hc
    rcases List.mem_append.mp hc with h1 | h1
    · exact hd1 h d e h1
    · exact hd2 h d e h1

/-- The calls may put data of a larger list. -/
theorem Adds.mono {W : Type} {H : Bytes → String} {ds ds2 : List Bytes} {s t : UpSys W}
    (h : Adds H ds s t) (hsub : ∀ d ∈ ds, d ∈ ds2) : Adds H ds2 s t := by
  obtain ⟨n1, hc1, hg1, hh1, hd1⟩ := h
  exact ⟨n1, hc1, hg1, hh1, fun h d e hc => hsub d (hd1 h d e hc)⟩

/-- A `Stat` call alone. -/
theorem adds_statted {W : Type} (up : Uploader W) (ds : List Bytes) (s : UpSys W) (h : String) :
    Adds up.hash ds s (up.statted s h) :=
  ⟨[.stat h (up.bs.Stat s.world h).1.1 (up.bs.Stat s.world h).1.2], rfl,
    Guarded.stat _ _ _ _ Guarded.nil, by simp [UpCall.hashed], by simp⟩

/-- A `Stat` that reported the blob absent, and the `Put` of the data under
its digest. -/
theorem adds_stored {W : Type} (up : Uploader W) (ds : List Bytes) (s : UpSys W) (d : Bytes)
    (hd : d ∈ ds) (hst : (up.bs.Stat s.world (up.hash d)).1.2 = none)
    (hf : (up.bs.Stat s.world (up.hash d)).1.1 = false) :
    Adds up.hash ds s (up.stored s (up.hash d) d) := by
  refine ⟨[.stat (up.hash d) false none,
    .put (up.hash d) d (up.bs.Put (up.statted s (up.hash d)).world (up.hash d) d).1], ?_,
    Guarded.statPut _ _ _ _ Guarded.nil, ?_, ?_⟩
  · simp [Uploader.stored, Uploader.statted, UpSys.call, hst, hf]
  · intro c hc
    simp only [List.mem_cons, List.mem_singleton, List.not_mem_nil, or_false] at hc
    rcases hc with rfl | rfl <;> simp [UpCall.hashed]
  · intro h d2 e hc
    simp only [List.mem_cons, List.mem_singleton, List.not_mem_nil, or_false] at hc
    rcases hc with hc | hc
    · cases hc
    · cases hc; exact hd

/-- The calls of the loop of `writeReader`, however it ends: every `Put` is
guarded by a `Stat`, names the digest of its data, and puts the data of a
chunk. -/
theorem writeLoop_adds {W : Type} (up : Uploader W) (rs : List (Chunk × Option Error)) :
    ∀ (size : Nat) (s : UpSys W) (m : RawNode),
      Adds up.hash (chunkData rs) s (up.writeLoop rs size s m).2 := by
  induction rs with
  | nil => intro size s m; exact Adds.refl _ _ _
  | cons r rest ih =>
    intro size s m
    obtain ⟨chunk, err⟩ := r
    have hsub : ∀ d ∈ chunkData rest, d ∈ chunkData ((chunk, err) :: rest) :=
      fun d hd => List.mem_cons_of_mem _ hd
    have hmem : chunk.Data ∈ chunkData ((chunk, err) :: rest) := List.mem_cons_self _ _
    by_cases hEOF : err = some EOF
    · simp only [Uploader.writeLoop, hEOF, if_true]
      exact Adds.refl _ _ _
    · cases hst : (up.bs.Stat s.world (up.hash chunk.Data)).1.2 with
      | some e =>
        rw [writeLoop_statErr up chunk err rest size s _ e hEOF hst]
        exact adds_statted up _ s _
      | none =>
        cases hf : (up.bs.Stat s.world (up.hash chunk.Data)).1.1 with
        | true =>
          rw [writeLoop_found up chunk err rest size s _ hEOF hst hf]
          exact (adds_statted up _ s _).trans ((ih _ _ _).mono hsub)
        | false =>
          cases hp : (up.bs.Put (up.statted s (up.hash chunk.Data)).world
              (up.hash chunk.Data) chunk.Data).1 with
          | some e =>
            rw [writeLoop_putErr up chunk err rest size s _ e hEOF hst hf hp]
            exact adds_stored up _ s _ hmem hst hf
          | none =>
            rw [writeLoop_put up chunk err rest size s _ hEOF hst hf hp]
            exact (adds_stored up _ s _ hmem hst hf).trans ((ih _ _ _).mono hsub)

/-- The calls of `PutMeta`, however it ends: the `Put` is guarded by a `Stat`
and puts the encoding of the node under its digest. -/
theorem putMeta_adds {W : Type} (up : Uploader W) (s : UpSys W) (m : RawNode) :
    Adds up.hash [(m.Encode up.hash up.enc).2] s (up.PutMeta s m).2 := by
  have hmem : (m.Encode up.hash up.enc).2 ∈ [(m.Encode up.hash up.enc).2] :=
    List.mem_singleton.mpr rfl
  rcases putMeta_cases up s m with ⟨e, _, hw⟩ | ⟨_, _, hw⟩ | ⟨hst, hf, e, _, hw⟩ |
    ⟨hst, hf, _, hw⟩
  · rw [hw]; exact adds_statted up _ s _
  · rw [hw]; exact adds_statted up _ s _
  · rw [hw]; exact adds_stored up _ s _ hmem hst hf
  · rw [hw]; exact adds_stored up _ s _ hmem hst hf

/-- The calls added, read off the state reached. -/
theorem Adds.since {W : Type} {H : Bytes → String} {ds : List Bytes} {s t : UpSys W}
    (h : Adds H ds s t) :
    Guarded (t.callsSince s.calls.length) ∧ (∀ c ∈ t.callsSince s.calls.length, c.hashed H) ∧
    ∀ h d e, UpCall.put h d e ∈ t.callsSince s.calls.length → d ∈ ds := by
  obtain ⟨new, hc, hg, hh, hd⟩ := h
  have : t.callsSince s.calls.length = new := by
    simp [UpSys.callsSince, hc]
  rw [this]
  exact ⟨hg, hh, hd⟩

/-- The state `writeReader` leaves is the state its loop leaves. -/
theorem writeReader_state {W : Type} (up : Uploader W) (s : UpSys W) (f : Reader) (m : RawNode) :
    (up.writeReader s f m).2 = (up.writeLoop (up.chunker pol f) 0 s m).2 := by
  unfold Uploader.writeReader
  cases hw : up.writeLoop (up.chunker pol f) 0 s m with
  | mk o s1 =>
    cases o with
    | panic => rfl
    | ret x =>
      obtain ⟨e, sz, m1⟩ := x
      cases e <;> rfl

/-- The calls of `writeReader`, however it ends. -/
theorem writeReader_adds {W : Type} (up : Uploader W) (s : UpSys W) (f : Reader) (m : RawNode) :
    Adds up.hash (chunkData (up.chunker pol f)) s (up.writeReader s f m).2 := by
  rw [writeReader_state]
  exact writeLoop_adds up _ 0 s m

/-- The state `putNode` leaves is the state `PutMeta` leaves. -/
theorem putNode_state {W : Type} (up : Uploader W) (s : UpSys W) (m : RawNode) :
    (up.putNode s m).2 = (up.PutMeta s m).2 := by
  unfold Uploader.putNode
  cases (up.PutMeta s m).1.1 <;> rfl

/-- The calls of `writeAndPut`, however it ends. -/
theorem writeAndPut_adds {W : Type} (up : Uploader W) (s : UpSys W) (f : Reader) (m : RawNode) :
    ∃ ds, Adds up.hash ds s (up.writeAndPut s f m).2 := by
  have h1 := writeReader_adds up s f m
  unfold Uploader.writeAndPut
  cases hw : up.writeReader s f m with
  | mk o s1 =>
    rw [hw] at h1
    cases o with
    | panic => exact ⟨_, h1⟩
    | ret x =>
      obtain ⟨e, m1⟩ := x
      cases e with
      | some e => exact ⟨_, h1⟩
      | none =>
        refine ⟨chunkData (up.chunker pol f) ++ [(m1.Encode up.hash up.enc).2], ?_⟩
        have h2 := putMeta_adds up s1 m1
        rw [← putNode_state] at h2
        exact (h1.mono (fun d hd => List.mem_append_left _ hd)).trans
          (h2.mono (fun d hd => List.mem_append_right _ hd))

/-- The calls of `PutFile`, however it ends. -/
theorem putFile_adds {W : Type} (up : Uploader W) (os : OS) (s : UpSys W) (path : String) :
    ∃ ds, Adds up.hash ds s (up.PutFile os s path).2 := by
  unfold Uploader.PutFile
  cases os.Stat path with
  | notExist err => exact ⟨[], Adds.refl _ _ _⟩
  | failed err => exact ⟨[], Adds.refl _ _ _⟩
  | info size =>
    simp only
    split_ifs
    · cases os.Open path with
      | error err => exact ⟨[], Adds.refl _ _ _⟩
      | ok f => exact writeAndPut_adds up s f _
    · rw [putNode_state]
      exact ⟨_, putMeta_adds up s _⟩

/-! ## The tree writer over the reference blob store -/

/-- A hash the index holds is found after a record is appended. -/
theorem lookup_append_some (h : String) (d : Bytes) (x : List (String × Bytes)) :
    ∀ (l : List (String × Bytes)), List.lookup h l = some d → List.lookup h (l ++ x) = some d
  | [], hl => by simp [List.lookup] at hl
  | (k, v) :: tl, hl => by
    by_cases hk : h = k
    · subst hk
      simp only [List.lookup, beq_self_eq_true, List.cons_append] at hl ⊢
      exact hl
    · have hb : (h == k) = false := by simpa using hk
      simp only [List.cons_append, List.lookup, hb] at hl ⊢
      exact lookup_append_some h d x tl hl

/-- Every store holds what it holds. -/
theorem Store.Below.same (w : Store) : w.Below w := fun _ _ h => h

/-- Holding is transitive. -/
theorem Store.Below.chain {a b c : Store} (h1 : a.Below b) (h2 : b.Below c) : a.Below c :=
  fun h d hl => h2 h d (h1 h d hl)

/-- The reference `Put` keeps what the store holds. -/
theorem refPut_below (f : Faults) (w : Store) (h : String) (d : Bytes) :
    w.Below ((refBlobStorer f).Put w h d).2 := by
  unfold refBlobStorer refBack
  simp only
  cases f.backPut with
  | some e => exact Store.Below.same w
  | none =>
    simp only
    split_ifs
    · exact Store.Below.same w
    · intro k v hk
      exact lookup_append_some k v _ w.blobs hk

/-- After a reference `Put` that succeeded, the store holds the hash. -/
theorem refPut_holds (f : Faults) (w : Store) (h : String) (d : Bytes)
    (hok : ((refBlobStorer f).Put w h d).1 = none) :
    (((refBlobStorer f).Put w h d).2.lookup h).isSome = true := by
  unfold refBlobStorer refBack at hok ⊢
  simp only at hok ⊢
  cases hf : f.backPut with
  | some e => simp [hf] at hok
  | none =>
    simp only
    cases hl : w.lookup h with
    | some v => simp [hl]
    | none =>
      simp only [Option.isSome_none, Bool.false_eq_true, if_false]
      have := lookup_append_absent h d w.blobs hl
      simp [Store.lookup, this]

/-- The loop of `writeReader` over the reference store keeps what the store
holds. -/
theorem writeLoop_below (up : Uploader Store) (f : Faults) (rs : List (Chunk × Option Error)) :
    ∀ (size : Nat) (s : UpSys Store) (m : RawNode),
      s.world.Below ((up.onRef f).writeLoop rs size s m).2.world := by
  induction rs with
  | nil => intro size s m; exact Store.Below.same _
  | cons r rest ih =>
    intro size s m
    obtain ⟨chunk, err⟩ := r
    by_cases hEOF : err = some EOF
    · simp only [Uploader.writeLoop, hEOF, if_true]
      exact Store.Below.same _
    · have hst : ((up.onRef f).bs.Stat s.world ((up.onRef f).hash chunk.Data)).1.2 = none := rfl
      cases hf : ((up.onRef f).bs.Stat s.world ((up.onRef f).hash chunk.Data)).1.1 with
      | true =>
        rw [writeLoop_found (up.onRef f) chunk err rest size s _ hEOF hst hf]
        exact ih _ ((up.onRef f).statted s ((up.onRef f).hash chunk.Data)) _
      | false =>
        have hput : s.world.Below
            ((up.onRef f).stored s ((up.onRef f).hash chunk.Data) chunk.Data).world :=
          refPut_below f s.world _ _
        cases hp : ((up.onRef f).bs.Put ((up.onRef f).statted s
            ((up.onRef f).hash chunk.Data)).world ((up.onRef f).hash chunk.Data)
            chunk.Data).1 with
        | some e =>
          rw [writeLoop_putErr (up.onRef f) chunk err rest size s _ e hEOF hst hf hp]
          exact hput
        | none =>
          rw [writeLoop_put (up.onRef f) chunk err rest size s _ hEOF hst hf hp]
          exact hput.chain (ih _ _ _)

/-- After the loop of `writeReader` returned, the reference store holds the
digest of every chunk the loop worked on. -/
theorem writeLoop_holds (up : Uploader Store) (f : Faults) (rs : List (Chunk × Option Error)) :
    ∀ (size : Nat) (s : UpSys Store) (m : RawNode) (x : Option Error × Nat × RawNode)
      (s1 : UpSys Store), (up.onRef f).writeLoop rs size s m = (.ret x, s1) →
      ∀ r ∈ processed rs, (s1.world.lookup (up.hash r.1.Data)).isSome = true := by
  induction rs with
  | nil => intro size s m x s1 _ r hr; simp [processed] at hr
  | cons r0 rest ih =>
    intro size s m x s1 hw r hr
    obtain ⟨chunk, err⟩ := r0
    by_cases hEOF : err = some EOF
    · simp [processed, hEOF] at hr
    · have hproc : processed ((chunk, err) :: rest) = (chunk, err) :: processed rest := by
        simp [processed, hEOF]
      rw [hproc] at hr
      have hst : ((up.onRef f).bs.Stat s.world ((up.onRef f).hash chunk.Data)).1.2 = none := rfl
      have hmono : ∀ (t : UpSys Store) (size2 : Nat) (m2 : RawNode),
          (t.world.lookup (up.hash chunk.Data)).isSome = true →
          (up.onRef f).writeLoop rest size2 t m2 = (.ret x, s1) →
          (s1.world.lookup (up.hash chunk.Data)).isSome = true := by
        intro t size2 m2 ht hw2
        have hb := writeLoop_below up f rest size2 t m2
        rw [hw2] at hb
        cases hl : t.world.lookup (up.hash chunk.Data) with
        | none => rw [hl] at ht; simp at ht
        | some v => rw [hb _ v hl]; rfl
      cases hf : ((up.onRef f).bs.Stat s.world ((up.onRef f).hash chunk.Data)).1.1 with
      | true =>
        rw [writeLoop_found (up.onRef f) chunk err rest size s _ hEOF hst hf] at hw
        rcases List.mem_cons.mp hr with rfl | hr
        · exact hmono ((up.onRef f).statted s ((up.onRef f).hash chunk.Data)) _ _ hf hw
        · exact ih _ _ _ _ _ hw r hr
      | false =>
        cases hp : ((up.onRef f).bs.Put ((up.onRef f).statted s
            ((up.onRef f).hash chunk.Data)).world ((up.onRef f).hash chunk.Data)
            chunk.Data).1 with
        | some e =>
          rw [writeLoop_putErr (up.onRef f) chunk err rest size s _ e hEOF hst hf hp] at hw
          simp at hw
        | none =>
          rw [writeLoop_put (up.onRef f) chunk err rest size s _ hEOF hst hf hp] at hw
          rcases List.mem_cons.mp hr with rfl | hr
          · exact hmono _ _ _ (refPut_holds f s.world _ _ hp) hw
          · exact ih _ _ _ _ _ hw r hr

/-- The loop of `writeReader` over a reference store that holds the digest of
every chunk it works on: it returns, its calls are `Stat` calls that find the
blob, and the store is unchanged. -/
theorem writeLoop_again (up : Uploader Store) (f : Faults) (rs : List (Chunk × Option Error)) :
    ∀ (size : Nat) (s : UpSys Store) (m : RawNode),
      (∀ r ∈ processed rs, (s.world.lookup (up.hash r.1.Data)).isSome = true) →
      (up.onRef f).writeLoop rs size s m
        = (.ret (none, loopRet up.hash rs size m),
           ⟨s.world, s.calls ++ foundCalls up.hash rs⟩) := by
  induction rs with
  | nil => intro size s m _; simp [Uploader.writeLoop, loopRet, foundCalls, processed]
  | cons r0 rest ih =>
    intro size s m hall
    obtain ⟨chunk, err⟩ := r0
    by_cases hEOF : err = some EOF
    · simp [Uploader.writeLoop, loopRet, foundCalls, processed, hEOF]
    · have hproc : processed ((chunk, err) :: rest) = (chunk, err) :: processed rest := by
        simp [processed, hEOF]
      rw [hproc] at hall
      have hst : ((up.onRef f).bs.Stat s.world ((up.onRef f).hash chunk.Data)).1.2 = none := rfl
      have hf : ((up.onRef f).bs.Stat s.world ((up.onRef f).hash chunk.Data)).1.1 = true :=
        hall (chunk, err) (List.mem_cons_self _ _)
      have hf2 : (s.world.lookup (up.hash chunk.Data)).isSome = true := hf
      rw [writeLoop_found (up.onRef f) chunk err rest size s _ hEOF hst hf]
      refine (ih _ ((up.onRef f).statted s ((up.onRef f).hash chunk.Data)) _
        (fun r hr => hall r (List.mem_cons_of_mem _ hr))).trans ?_
      simp [loopRet, hEOF, foundCalls, hproc, Uploader.statted, UpSys.call, Uploader.onRef,
        refBlobStorer, hf2]

/-- When `writeReader` returns, it returns no error, and the node that the
results of `Next`, the hasher and the bytes of the stream determine. -/
theorem writeReader_ret {W : Type} (up : Uploader W) (s s1 : UpSys W) (f : Reader)
    (m : RawNode) (x : Option Error × RawNode) (h : up.writeReader s f m = (.ret x, s1)) :
    x = (none, readerNode up.hash up.blake2b (up.chunker pol f) f.data m) := by
  unfold Uploader.writeReader at h
  cases hw : up.writeLoop (up.chunker pol f) 0 s m with
  | mk o s2 =>
    rw [hw] at h
    cases o with
    | panic => simp at h
    | ret y =>
      have hy := writeLoop_ret up _ 0 s m y s2 hw
      subst hy
      simp only [Prod.mk.injEq, Outcome.ret.injEq] at h
      rw [← h.1]
      rfl

/-- After `writeReader` returned, the reference store holds the digest of
every chunk of the stream. -/
theorem writeReader_holds (up : Uploader Store) (f : Faults) (s s1 : UpSys Store) (r : Reader)
    (m : RawNode) (x : Option Error × RawNode)
    (h : (up.onRef f).writeReader s r m = (.ret x, s1)) :
    ∀ c ∈ processed (up.chunker pol r), (s1.world.lookup (up.hash c.1.Data)).isSome = true := by
  unfold Uploader.writeReader at h
  cases hw : (up.onRef f).writeLoop ((up.onRef f).chunker pol r) 0 s m with
  | mk o s2 =>
    rw [hw] at h
    cases o with
    | panic => simp at h
    | ret y =>
      have hh := writeLoop_holds up f _ 0 s m y s2 hw
      have hy := writeLoop_ret (up.onRef f) _ 0 s m y s2 hw
      subst hy
      simp only [Prod.mk.injEq] at h
      rw [← h.2]
      exact hh

/-- Over a reference store that holds the digest of every chunk of the
stream, `writeReader` returns the node of the stream, its calls are `Stat`
calls that find the blob, and the store is unchanged. -/
theorem writeReader_again (up : Uploader Store) (f : Faults) (t : UpSys Store) (r : Reader)
    (m : RawNode)
    (hall : ∀ c ∈ processed (up.chunker pol r),
      (t.world.lookup (up.hash c.1.Data)).isSome = true) :
    (up.onRef f).writeReader t r m
      = (.ret (none, readerNode up.hash up.blake2b (up.chunker pol r) r.data m),
         ⟨t.world, t.calls ++ foundCalls up.hash (up.chunker pol r)⟩) := by
  unfold Uploader.writeReader
  rw [show (up.onRef f).chunker = up.chunker from rfl,
    writeLoop_again up f (up.chunker pol r) 0 t m hall]
  rfl

/-- The statements of `PutMeta` over the reference store keep what the store
holds. -/
theorem putMeta_below (up : Uploader Store) (f : Faults) (s : UpSys Store) (m : RawNode) :
    s.world.Below ((up.onRef f).PutMeta s m).2.world := by
  rcases putMeta_cases (up.onRef f) s m with ⟨e, _, hw⟩ | ⟨_, _, hw⟩ | ⟨_, _, e, _, hw⟩ |
    ⟨_, _, _, hw⟩
  · rw [hw]; exact Store.Below.same _
  · rw [hw]; exact Store.Below.same _
  · rw [hw]; exact refPut_below f s.world _ _
  · rw [hw]; exact refPut_below f s.world _ _

/-- After `PutMeta` returned no error, the reference store holds the hash of
the node. -/
theorem putMeta_holds (up : Uploader Store) (f : Faults) (s : UpSys Store) (m : RawNode)
    (hok : ((up.onRef f).PutMeta s m).1.1 = none) :
    (((up.onRef f).PutMeta s m).2.world.lookup (m.Encode up.hash up.enc).1).isSome = true := by
  rcases putMeta_cases (up.onRef f) s m with ⟨e, _, hw⟩ | ⟨_, hf, hw⟩ | ⟨_, _, e, _, hw⟩ |
    ⟨_, _, hp, hw⟩
  · rw [hw] at hok; simp at hok
  · rw [hw]; exact hf
  · rw [hw] at hok; simp at hok
  · rw [hw]; exact refPut_holds f s.world _ _ hp

/-- Over a reference store that holds the hash of the node, `PutMeta` makes
one `Stat` call, which finds the blob, and the store is unchanged. -/
theorem putMeta_again (up : Uploader Store) (f : Faults) (t : UpSys Store) (m : RawNode)
    (hh : (t.world.lookup (m.Encode up.hash up.enc).1).isSome = true) :
    (up.onRef f).PutMeta t m
      = ((none, { m with Hash := (m.Encode up.hash up.enc).1 }),
         ⟨t.world, t.calls ++ [.stat (m.Encode up.hash up.enc).1 true none]⟩) := by
  simp [Uploader.PutMeta, Uploader.onRef, refBlobStorer, UpSys.call, hh]

/-- A store above a store that holds the hash holds the hash. -/
theorem Store.Below.holds {w w2 : Store} (hb : w.Below w2) (h : String)
    (hs : (w.lookup h).isSome = true) : (w2.lookup h).isSome = true := by
  cases hl : w.lookup h with
  | none => rw [hl] at hs; simp at hs
  | some v => rw [hb h v hl]; rfl

/-- When `putNode` returned a node, `PutMeta` returned no error. -/
theorem putNode_ok {W : Type} (up : Uploader W) (s : UpSys W) (m n : RawNode)
    (h : nodeOf (up.putNode s m) = some n) : (up.PutMeta s m).1.1 = none := by
  cases he : (up.PutMeta s m).1.1 with
  | none => rfl
  | some e => simp [Uploader.putNode, nodeOf, he] at h

/-- After `putNode` returned a node over the reference store, `putNode` of
the same node over a store that holds what that store held returns the same
node after one `Stat` call, which finds the blob, and leaves the store
unchanged. -/
theorem putNode_again (up : Uploader Store) (f1 f2 : Faults) (s t : UpSys Store)
    (m n : RawNode) (h : nodeOf ((up.onRef f1).putNode s m) = some n)
    (hb : ((up.onRef f1).putNode s m).2.world.Below t.world) :
    (up.onRef f2).putNode t m
      = (.ret (.ok n), ⟨t.world, t.calls ++ [.stat n.Hash true none]⟩) := by
  have hn := putNode_node (up.onRef f1) s m n h
  have hok := putNode_ok (up.onRef f1) s m n h
  rw [putNode_state] at hb
  have hh := hb.holds _ (putMeta_holds up f1 s m hok)
  have hp := putMeta_again up f2 t m hh
  subst hn
  simp only [Uploader.putNode, hp]
  rfl

/-- After `writeAndPut` returned a node over the reference store, the same
call over a store that holds what that store held returns the same node; its
calls are `Stat` calls that find the blob, for the chunks and for the node,
and the store is unchanged. -/
theorem writeAndPut_again (up : Uploader Store) (f1 f2 : Faults) (s t : UpSys Store)
    (r : Reader) (m n : RawNode) (h : nodeOf ((up.onRef f1).writeAndPut s r m) = some n)
    (hb : ((up.onRef f1).writeAndPut s r m).2.world.Below t.world) :
    (up.onRef f2).writeAndPut t r m
      = (.ret (.ok n),
         ⟨t.world, t.calls ++ foundCalls up.hash (up.chunker pol r)
           ++ [.stat n.Hash true none]⟩) := by
  unfold Uploader.writeAndPut at h hb
  cases hw : (up.onRef f1).writeReader s r m with
  | mk o s1 =>
    rw [hw] at h hb
    cases o with
    | panic => simp [nodeOf] at h
    | ret x =>
      obtain ⟨e, m1⟩ := x
      cases e with
      | some e => simp [nodeOf] at h
      | none =>
        simp only at h hb
        have hx := writeReader_ret (up.onRef f1) s s1 r m _ hw
        have hm1 : m1 = readerNode up.hash up.blake2b (up.chunker pol r) r.data m :=
          (Prod.mk.inj hx).2
        have hold := writeReader_holds up f1 s s1 r m _ hw
        have hb1 : s1.world.Below t.world := by
          have := putMeta_below up f1 s1 m1
          rw [← putNode_state] at this
          exact this.chain hb
        have hag := writeReader_again up f2 t r m
          (fun c hc => hb1.holds _ (hold c hc))
        unfold Uploader.writeAndPut
        rw [hag, ← hm1]
        simp only
        have hp := putNode_again up f1 f2 s1
          ⟨t.world, t.calls ++ foundCalls up.hash (up.chunker pol r)⟩ m1 n h hb
        rw [hp]

/-- The calls of a run that finds every chunk are `Stat` calls that found the
blob. -/
theorem foundCalls_stat (H : Bytes → String) (rs : List (Chunk × Option Error)) :
    ∀ c ∈ foundCalls H rs, ∃ h, c = UpCall.stat h true none := by
  intro c hc
  simp only [foundCalls, List.mem_map] at hc
  obtain ⟨r, _, rfl⟩ := hc
  exact ⟨_, rfl⟩

/-- After an ingest returned a node over the reference store, the ingest of
the same input over a store that holds what that store held returns the same
node, leaves the store unchanged, and its calls are `Stat` calls that found
the blob. -/
theorem ingest_again (up : Uploader Store) (f1 f2 : Faults) (s t : UpSys Store) (i : Input)
    (n : RawNode) (h : nodeOf ((up.onRef f1).ingest s i) = some n)
    (hb : ((up.onRef f1).ingest s i).2.world.Below t.world) :
    ∃ new, (up.onRef f2).ingest t i = (.ret (.ok n), ⟨t.world, t.calls ++ new⟩) ∧
      ∀ c ∈ new, ∃ h, c = UpCall.stat h true none := by
  have hwp : ∀ (r : Reader) (m : RawNode),
      nodeOf ((up.onRef f1).writeAndPut s r m) = some n →
      ((up.onRef f1).writeAndPut s r m).2.world.Below t.world →
      ∃ new, (up.onRef f2).writeAndPut t r m = (.ret (.ok n), ⟨t.world, t.calls ++ new⟩) ∧
        ∀ c ∈ new, ∃ h, c = UpCall.stat h true none := by
    intro r m h1 hb1
    refine ⟨foundCalls up.hash (up.chunker pol r) ++ [.stat n.Hash true none], ?_, ?_⟩
    · rw [writeAndPut_again up f1 f2 s t r m n h1 hb1, List.append_assoc]
    · intro c hc
      rcases List.mem_append.mp hc with hc | hc
      · exact foundCalls_stat _ _ c hc
      · exact ⟨_, List.mem_singleton.mp hc⟩
  cases i with
  | reader name r data => exact hwp r _ h hb
  | file os path =>
    simp only [Uploader.ingest, Uploader.PutFile] at h hb ⊢
    cases hs : os.Stat path with
    | notExist err => rw [hs] at h; simp [nodeOf] at h
    | failed err => rw [hs] at h; simp [nodeOf] at h
    | info size =>
      rw [hs] at h hb
      simp only at h hb ⊢
      by_cases hsz : size > 0
      · rw [if_pos hsz] at h hb ⊢
        cases ho : os.Open path with
        | error err => rw [ho] at h; simp [nodeOf] at h
        | ok r =>
          rw [ho] at h hb
          exact hwp r _ h hb
      · rw [if_neg hsz] at h hb ⊢
        exact ⟨[.stat n.Hash true none], putNode_again up f1 f2 s t _ n h hb,
          fun c hc => ⟨_, List.mem_singleton.mp hc⟩⟩

/-- C15: deduplication. Over the reference blob store, after `PutReader` or
`PutFile` returned a node for an input, a second ingest of the same input,
from any later state in which the store still holds what it held, returns the
same node, leaves the store unchanged, and every call it makes to the blob
store is a `Stat` that finds the blob: it calls `Put` neither for a chunk nor
for the node, whatever `Put` would have returned. In general, over any blob
store and however the call ends, the calls of `PutReader`, `PutFile` and
`PutMeta` are guarded: a `Put` follows at once a `Stat` of the same hash that
reported the blob absent. -/
theorem ingest_dedup {W : Type} (upW : Uploader W) (sW : UpSys W) (mW : RawNode)
    (up : Uploader Store) (f1 f2 : Faults) (s t : UpSys Store) (i : Input) (n : RawNode) :
    (nodeOf ((up.onRef f1).ingest s i) = some n →
      ((up.onRef f1).ingest s i).2.world.Below t.world →
      ((up.onRef f2).ingest t i).1 = .ret (.ok n) ∧
      ((up.onRef f2).ingest t i).2.world = t.world ∧
      (∀ c ∈ ((up.onRef f2).ingest t i).2.callsSince t.calls.length,
        ∃ h, c = UpCall.stat h true none) ∧
      ∀ c ∈ ((up.onRef f2).ingest t i).2.callsSince t.calls.length, c.isPut = false) ∧
    Guarded ((upW.ingest sW i).2.callsSince sW.calls.length) ∧
    Guarded ((upW.PutMeta sW mW).2.callsSince sW.calls.length) := by
  refine ⟨?_, ?_, (putMeta_adds upW sW mW).since.1⟩
  · intro h hb
    obtain ⟨new, hrun, hnew⟩ := ingest_again up f1 f2 s t i n h hb
    rw [hrun]
    have hsince : (⟨t.world, t.calls ++ new⟩ : UpSys Store).callsSince t.calls.length = new := by
      simp [UpSys.callsSince]
    rw [hsince]
    refine ⟨rfl, rfl, hnew, ?_⟩
    intro c hc
    obtain ⟨h, rfl⟩ := hnew c hc
    rfl
  · cases i with
    | reader name r data =>
      obtain ⟨ds, hadds⟩ := writeAndPut_adds upW sW r (startNode name data)
      exact hadds.since.1
    | file os path =>
      obtain ⟨ds, hadds⟩ := putFile_adds upW os sW path
      exact hadds.since.1

/-- C15 at a concrete input: the file `dir/f.txt` of five bytes is ingested
on the empty store, and then again over a store on which every `Put` fails. -/
theorem ingest_dedup_witness :
    nodeOf (((toyUploader Faults.none).onRef Faults.none).ingest UpSys.init inputA)
      = some nodeA ∧
    (((toyUploader Faults.none).onRef Faults.none).ingest UpSys.init inputA).2.world.Below
      stateA.world ∧
    ((((toyUploader Faults.none).onRef faultPut).ingest stateA inputA).1 = .ret (.ok nodeA) ∧
      (((toyUploader Faults.none).onRef faultPut).ingest stateA inputA).2.world
        = stateA.world ∧
      (∀ c ∈ (((toyUploader Faults.none).onRef faultPut).ingest stateA inputA).2.callsSince
          stateA.calls.length,
        ∃ h, c = UpCall.stat h true none) ∧
      ∀ c ∈ (((toyUploader Faults.none).onRef faultPut).ingest stateA inputA).2.callsSince
          stateA.calls.length, c.isPut = false) ∧
    Guarded (((toyUploader faultPut).ingest UpSys.init inputA).2.callsSince
      UpSys.init.calls.length) ∧
    Guarded (((toyUploader faultPut).PutMeta UpSys.init nodeA).2.callsSince
      UpSys.init.calls.length) :=
  ⟨by decide, Store.Below.same _,
    (ingest_dedup (toyUploader faultPut) UpSys.init nodeA (toyUploader Faults.none)
      Faults.none faultPut UpSys.init stateA inputA nodeA).1 (by decide) (Store.Below.same _),
    (ingest_dedup (toyUploader faultPut) UpSys.init nodeA (toyUploader Faults.none)
      Faults.none faultPut UpSys.init stateA inputA nodeA).2⟩

/-! ## The node the tree writer stores -/

/-- The hash of a node `putNode` returns is the hash of its encoding. -/
theorem putNode_hash {W : Type} (up : Uploader W) (s : UpSys W) (m n : RawNode)
    (h : nodeOf (up.putNode s m) = some n) :
    n.Hash = (n.Encode up.hash up.enc).1 ∧ n.Encode up.hash up.enc = m.Encode up.hash up.enc := by
  rw [putNode_node up s m n h]
  exact ⟨rfl, rfl⟩

/-- An ingest that returns a node ends with `putNode`, in the state it
started from or in a state `writeReader` returned. -/
theorem ingest_putNode {W : Type} (up : Uploader W) (s : UpSys W) (i : Input) (n : RawNode)
    (h : nodeOf (up.ingest s i) = some n) :
    ∃ s1 m1, up.ingest s i = up.putNode s1 m1 ∧
      (s1 = s ∨ ∃ r m, up.writeReader s r m = (.ret (none, m1), s1)) := by
  have hwp : ∀ (r : Reader) (m : RawNode), nodeOf (up.writeAndPut s r m) = some n →
      ∃ s1 m1, up.writeAndPut s r m = up.putNode s1 m1 ∧
        (s1 = s ∨ ∃ r m, up.writeReader s r m = (.ret (none, m1), s1)) := by
    intro r m h1
    unfold Uploader.writeAndPut at h1 ⊢
    cases hw : up.writeReader s r m with
    | mk o s1 =>
      rw [hw] at h1
      cases o with
      | panic => simp [nodeOf] at h1
      | ret x =>
        obtain ⟨e, m1⟩ := x
        cases e with
        | some e => simp [nodeOf] at h1
        | none => exact ⟨s1, m1, rfl, Or.inr ⟨r, m, hw⟩⟩
  cases i with
  | reader name r data => exact hwp r _ h
  | file os path =>
    simp only [Uploader.ingest, Uploader.PutFile] at h ⊢
    cases hs : os.Stat path with
    | notExist err => rw [hs] at h; simp [nodeOf] at h
    | failed err => rw [hs] at h; simp [nodeOf] at h
    | info size =>
      rw [hs] at h
      simp only at h ⊢
      by_cases hsz : size > 0
      · rw [if_pos hsz] at h ⊢
        cases ho : os.Open path with
        | error err => rw [ho] at h; simp [nodeOf] at h
        | ok r =>
          rw [ho] at h
          exact hwp r _ h
      · rw [if_neg hsz] at h ⊢
        exact ⟨s, _, rfl, Or.inl rfl⟩

/-- A reference `Put` of data under its digest keeps the records sound. -/
theorem refBlobStorer_sound (H : Bytes → String) (f : Faults) (w : Store) (d : Bytes)
    (hs : w.Sound H) : ((refBlobStorer f).Put w (H d) d).2.Sound H := by
  unfold refBlobStorer refBack
  simp only
  cases f.backPut with
  | some e => exact hs
  | none =>
    simp only
    split_ifs
    · exact hs
    · intro p hp
      rcases List.mem_append.mp hp with hp | hp
      · exact hs p hp
      · have : p = (H d, d) := by simpa using hp
        subst this
        rfl

/-- The loop of `writeReader` over the reference store keeps the records
sound. -/
theorem writeLoop_sound (up : Uploader Store) (f : Faults) (rs : List (Chunk × Option Error)) :
    ∀ (size : Nat) (s : UpSys Store) (m : RawNode), s.world.Sound up.hash →
      ((up.onRef f).writeLoop rs size s m).2.world.Sound up.hash := by
  induction rs with
  | nil => intro size s m hs; exact hs
  | cons r rest ih =>
    intro size s m hs
    obtain ⟨chunk, err⟩ := r
    by_cases hEOF : err = some EOF
    · simp only [Uploader.writeLoop, hEOF, if_true]
      exact hs
    · have hst : ((up.onRef f).bs.Stat s.world ((up.onRef f).hash chunk.Data)).1.2 = none := rfl
      cases hf : ((up.onRef f).bs.Stat s.world ((up.onRef f).hash chunk.Data)).1.1 with
      | true =>
        rw [writeLoop_found (up.onRef f) chunk err rest size s _ hEOF hst hf]
        exact ih _ ((up.onRef f).statted s ((up.onRef f).hash chunk.Data)) _ hs
      | false =>
        have hput : ((up.onRef f).stored s ((up.onRef f).hash chunk.Data)
            chunk.Data).world.Sound up.hash :=
          refBlobStorer_sound up.hash f s.world chunk.Data hs
        cases hp : ((up.onRef f).bs.Put ((up.onRef f).statted s
            ((up.onRef f).hash chunk.Data)).world ((up.onRef f).hash chunk.Data)
            chunk.Data).1 with
        | some e =>
          rw [writeLoop_putErr (up.onRef f) chunk err rest size s _ e hEOF hst hf hp]
          exact hput
        | none =>
          rw [writeLoop_put (up.onRef f) chunk err rest size s _ hEOF hst hf hp]
          exact ih _ _ _ hput

/-- The statements of `PutMeta` over the reference store keep the records
sound. -/
theorem putMeta_sound (up : Uploader Store) (f : Faults) (s : UpSys Store) (m : RawNode)
    (hs : s.world.Sound up.hash) : ((up.onRef f).PutMeta s m).2.world.Sound up.hash := by
  rcases putMeta_cases (up.onRef f) s m with ⟨e, _, hw⟩ | ⟨_, _, hw⟩ | ⟨_, _, e, _, hw⟩ |
    ⟨_, _, _, hw⟩
  · rw [hw]; exact hs
  · rw [hw]; exact hs
  · rw [hw]; exact refBlobStorer_sound up.hash f s.world _ hs
  · rw [hw]; exact refBlobStorer_sound up.hash f s.world _ hs

/-- After `PutMeta` returned no error over a sound reference store, the store
holds the encoding of the node under its hash, if no other data has that
digest. -/
theorem putMeta_stored (up : Uploader Store) (f : Faults) (s : UpSys Store) (m : RawNode)
    (hok : ((up.onRef f).PutMeta s m).1.1 = none) (hs : s.world.Sound up.hash)
    (hcol : ∀ d, up.hash d = (m.Encode up.hash up.enc).1 → d = (m.Encode up.hash up.enc).2) :
    ((up.onRef f).PutMeta s m).2.world.lookup (m.Encode up.hash up.enc).1
      = some (m.Encode up.hash up.enc).2 := by
  have hh := putMeta_holds up f s m hok
  cases hl : ((up.onRef f).PutMeta s m).2.world.lookup (m.Encode up.hash up.enc).1 with
  | none => rw [hl] at hh; simp at hh
  | some d =>
    rw [hcol d (sound_lookup up.hash _ (putMeta_sound up f s m hs) _ d hl)]

/-- After an ingest returned a node over a sound reference store, the store
holds the encoding of the node under its hash, if no other data has that
digest. -/
theorem ingest_stored (up : Uploader Store) (f : Faults) (s : UpSys Store) (i : Input)
    (n : RawNode) (h : nodeOf ((up.onRef f).ingest s i) = some n) (hs : s.world.Sound up.hash)
    (hcol : ∀ d, up.hash d = n.Hash → d = (n.Encode up.hash up.enc).2) :
    ((up.onRef f).ingest s i).2.world.lookup n.Hash = some (n.Encode up.hash up.enc).2 := by
  obtain ⟨s1, m1, hrun, hfrom⟩ := ingest_putNode (up.onRef f) s i n h
  rw [hrun] at h ⊢
  have hs1 : s1.world.Sound up.hash := by
    rcases hfrom with rfl | ⟨r, m, hw⟩
    · exact hs
    · have := writeLoop_sound up f ((up.onRef f).chunker pol r) 0 s m hs
      rw [← writeReader_state, hw] at this
      exact this
  obtain ⟨hhash, henc⟩ := putNode_hash (up.onRef f) s1 m1 n h
  have henc2 : n.Encode up.hash up.enc = m1.Encode up.hash up.enc := henc
  have hhash2 : n.Hash = (m1.Encode up.hash up.enc).1 := by rw [← henc2]; exact hhash
  rw [putNode_state, hhash2, henc2]
  rw [hhash2, henc2] at hcol
  exact putMeta_stored up f s1 m1 (putNode_ok (up.onRef f) s1 m1 n h) hs1 hcol

/-- The unary code of a number, before a `b`, determines the number and what
follows. -/
theorem unary_inj : ∀ (a b : Nat) (x y : List Char),
    List.replicate a 'a' ++ 'b' :: x = List.replicate b 'a' ++ 'b' :: y → a = b ∧ x = y
  | 0, 0, x, y, h => by simpa using h
  | 0, b + 1, x, y, h => by simp [List.replicate_succ] at h
  | a + 1, 0, x, y, h => by simp [List.replicate_succ] at h
  | a + 1, b + 1, x, y, h => by
    simp only [List.replicate_succ, List.cons_append, List.cons.injEq, true_and] at h
    have := unary_inj a b x y h
    exact ⟨by omega, this.2⟩

/-- The hasher of the concrete instances has no collisions. -/
theorem injHash_injective : Function.Injective injHash := by
  intro x y h
  have h2 : x.flatMap (fun n => List.replicate n 'a' ++ ['b'])
      = y.flatMap (fun n => List.replicate n 'a' ++ ['b']) := congrArg String.data h
  clear h
  induction x generalizing y with
  | nil =>
    cases y with
    | nil => rfl
    | cons b tl => simp [List.flatMap_cons] at h2
  | cons a tl ih =>
    cases y with
    | nil => simp [List.flatMap_cons] at h2
    | cons b tl2 =>
      simp only [List.flatMap_cons, List.append_assoc, List.singleton_append] at h2
      obtain ⟨hab, htl⟩ := unary_inj a b _ _ h2
      rw [hab, ih htl]

/-- When `PutMeta` returns no error, the node is the node it was given with
the hash of its encoding. -/
theorem putMeta_node {W : Type} (up : Uploader W) (s : UpSys W) (m : RawNode)
    (hok : (up.PutMeta s m).1.1 = none) :
    (up.PutMeta s m).1.2 = { m with Hash := (m.Encode up.hash up.enc).1 } := by
  rcases putMeta_cases up s m with ⟨e, _, hw⟩ | ⟨_, _, hw⟩ | ⟨_, _, e, _, hw⟩ | ⟨_, _, _, hw⟩
  · rw [hw] at hok; simp at hok
  · rw [hw]
  · rw [hw] at hok; simp at hok
  · rw [hw]

/-- C16: the node of a successful `PutFile`, `PutReader` or `PutMeta`. Over
any blob store, the node `PutFile` or `PutReader` returns has as `Hash` the
hash of its encoding, and when `PutMeta` returns no error the node is the
given node with as `Hash` the hash of its encoding. Over the reference blob
store with sound records, after the call the store holds under that hash the
encoding of the node, provided no other data has that digest. Over any blob
store and however the call ends, every `Put` the writer issues names the
digest of the data it puts. -/
theorem node_hash_stored {W : Type} (upW : Uploader W) (sW : UpSys W) (up : Uploader Store)
    (f : Faults) (s : UpSys Store) (i : Input) (m n : RawNode) :
    (nodeOf (upW.ingest sW i) = some n → n.Hash = (n.Encode upW.hash upW.enc).1) ∧
    ((upW.PutMeta sW m).1.1 = none →
      (upW.PutMeta sW m).1.2 = { m with Hash := (m.Encode upW.hash upW.enc).1 } ∧
      (upW.PutMeta sW m).1.2.Hash = ((upW.PutMeta sW m).1.2.Encode upW.hash upW.enc).1) ∧
    (nodeOf ((up.onRef f).ingest s i) = some n → s.world.Sound up.hash →
      (∀ d, up.hash d = n.Hash → d = (n.Encode up.hash up.enc).2) →
      ((up.onRef f).ingest s i).2.world.lookup n.Hash = some (n.Encode up.hash up.enc).2) ∧
    (((up.onRef f).PutMeta s m).1.1 = none → s.world.Sound up.hash →
      (∀ d, up.hash d = (m.Encode up.hash up.enc).1 → d = (m.Encode up.hash up.enc).2) →
      ((up.onRef f).PutMeta s m).2.world.lookup ((up.onRef f).PutMeta s m).1.2.Hash
        = some (((up.onRef f).PutMeta s m).1.2.Encode up.hash up.enc).2) ∧
    (∀ h d e, UpCall.put h d e ∈ (upW.ingest sW i).2.callsSince sW.calls.length →
      h = upW.hash d) ∧
    (∀ h d e, UpCall.put h d e ∈ (upW.PutMeta sW m).2.callsSince sW.calls.length →
      h = upW.hash d) := by
  refine ⟨?_, ?_, ?_, ?_, ?_, ?_⟩
  · intro h
    obtain ⟨s1, m1, hrun, _⟩ := ingest_putNode upW sW i n h
    rw [hrun] at h
    exact (putNode_hash upW s1 m1 n h).1
  · intro hok
    refine ⟨putMeta_node upW sW m hok, ?_⟩
    rw [putMeta_node upW sW m hok]
    rfl
  · exact ingest_stored up f s i n
  · intro hok hs hcol
    rw [putMeta_node (up.onRef f) s m hok]
    exact putMeta_stored up f s m hok hs hcol
  · intro h d e hc
    have hall : ∀ c ∈ (upW.ingest sW i).2.callsSince sW.calls.length, c.hashed upW.hash := by
      cases i with
      | reader name r data =>
        obtain ⟨ds, hadds⟩ := writeAndPut_adds upW sW r (startNode name data)
        exact hadds.since.2.1
      | file os path =>
        obtain ⟨ds, hadds⟩ := putFile_adds upW os sW path
        exact hadds.since.2.1
    exact hall _ hc
  · intro h d e hc
    exact (putMeta_adds upW sW m).since.2.1 _ hc

/-- C16 at a concrete input: the file `dir/f.txt` of five bytes is ingested on
the empty store, and `PutMeta` is called on the node of the file. -/
theorem node_hash_stored_witness :
    nodeOf ((toyUploader Faults.none).ingest UpSys.init inputA) = some nodeA ∧
    ((toyUploader Faults.none).PutMeta UpSys.init nodeA).1.1 = none ∧
    UpSys.init.world.Sound injHash ∧
    (∀ d, injHash d = nodeA.Hash → d = (nodeA.Encode injHash toyEnc).2) ∧
    nodeA.Hash = (nodeA.Encode injHash toyEnc).1 ∧
    (((toyUploader Faults.none).PutMeta UpSys.init nodeA).1.2
        = { nodeA with Hash := (nodeA.Encode injHash toyEnc).1 } ∧
      ((toyUploader Faults.none).PutMeta UpSys.init nodeA).1.2.Hash
        = (((toyUploader Faults.none).PutMeta UpSys.init nodeA).1.2.Encode injHash toyEnc).1) ∧
    (((toyUploader Faults.none).onRef Faults.none).ingest UpSys.init inputA).2.world.lookup
        nodeA.Hash = some (nodeA.Encode injHash toyEnc).2 ∧
    (((toyUploader Faults.none).onRef Faults.none).PutMeta UpSys.init nodeA).2.world.lookup
        (((toyUploader Faults.none).onRef Faults.none).PutMeta UpSys.init nodeA).1.2.Hash
      = some ((((toyUploader Faults.none).onRef Faults.none).PutMeta UpSys.init
          nodeA).1.2.Encode injHash toyEnc).2 :=
  ⟨by decide, by decide, by simp [Store.Sound, UpSys.init, Store.empty],
    fun d hd => injHash_injective (hd.trans (by decide)),
    (node_hash_stored (toyUploader Faults.none) UpSys.init (toyUploader Faults.none)
      Faults.none UpSys.init inputA nodeA nodeA).1 (by decide),
    (node_hash_stored (toyUploader Faults.none) UpSys.init (toyUploader Faults.none)
      Faults.none UpSys.init inputA nodeA nodeA).2.1 (by decide),
    (node_hash_stored (toyUploader Faults.none) UpSys.init (toyUploader Faults.none)
      Faults.none UpSys.init inputA nodeA nodeA).2.2.1 (by decide)
      (by simp [Store.Sound, UpSys.init, Store.empty])
      (fun d hd => injHash_injective (hd.trans (by decide))),
    (node_hash_stored (toyUploader Faults.none) UpSys.init (toyUploader Faults.none)
      Faults.none UpSys.init inputA nodeA nodeA).2.2.2.1 (by decide)
      (by simp [Store.Sound, UpSys.init, Store.empty])
      (fun d hd => injHash_injective (hd.trans (by decide)))⟩

/-! ## Determinism of the tree writer -/

/-- Over the reference store on which no `Put` fails, the loop of
`writeReader` returns. -/
theorem writeLoop_total (up : Uploader Store) (rs : List (Chunk × Option Error)) :
    ∀ (size : Nat) (s : UpSys Store) (m : RawNode),
      ((up.onRef Faults.none).writeLoop rs size s m).1
        = .ret (none, loopRet up.hash rs size m) := by
  induction rs with
  | nil => intro size s m; rfl
  | cons r rest ih =>
    intro size s m
    obtain ⟨chunk, err⟩ := r
    by_cases hEOF : err = some EOF
    · simp [Uploader.writeLoop, loopRet, hEOF]
    · have hst : ((up.onRef Faults.none).bs.Stat s.world
          ((up.onRef Faults.none).hash chunk.Data)).1.2 = none := rfl
      have hl : loopRet up.hash ((chunk, err) :: rest) size m
          = loopRet up.hash rest (uint (size + chunk.Length))
              (m.AddIndexedRef (intOfUint (uint (size + chunk.Length)))
                (up.hash chunk.Data)) := by
        simp [loopRet, hEOF]
      rw [hl]
      cases hf : ((up.onRef Faults.none).bs.Stat s.world
          ((up.onRef Faults.none).hash chunk.Data)).1.1 with
      | true =>
        rw [writeLoop_found (up.onRef Faults.none) chunk err rest size s _ hEOF hst hf]
        exact ih _ ((up.onRef Faults.none).statted s ((up.onRef Faults.none).hash chunk.Data)) _
      | false =>
        have hp : ((up.onRef Faults.none).bs.Put ((up.onRef Faults.none).statted s
            ((up.onRef Faults.none).hash chunk.Data)).world
            ((up.onRef Faults.none).hash chunk.Data) chunk.Data).1 = none := rfl
        rw [writeLoop_put (up.onRef Faults.none) chunk err rest size s _ hEOF hst hf hp]
        exact ih _ ((up.onRef Faults.none).stored s ((up.onRef Faults.none).hash chunk.Data)
          chunk.Data) _

/-- Over the reference store on which no `Put` fails, `writeReader` returns
the node of the stream. -/
theorem writeReader_total (up : Uploader Store) (s : UpSys Store) (f : Reader) (m : RawNode) :
    ((up.onRef Faults.none).writeReader s f m).1
      = .ret (none, readerNode up.hash up.blake2b (up.chunker pol f) f.data m) := by
  have h := writeLoop_total up (up.chunker pol f) 0 s m
  unfold Uploader.writeReader
  cases hw : (up.onRef Faults.none).writeLoop ((up.onRef Faults.none).chunker pol f) 0 s m with
  | mk o s1 =>
    have h2 : o = .ret (none, loopRet up.hash (up.chunker pol f) 0 m) := by
      have := congrArg Prod.fst hw
      exact this.symm.trans h
    subst h2
    rfl

/-- What `writeReader` returns, when it does not panic. -/
theorem writeReader_result {W : Type} (up : Uploader W) (s : UpSys W) (f : Reader) (m : RawNode)
    (h : (up.writeReader s f m).1 ≠ .panic) :
    (up.writeReader s f m).1
      = .ret (none, readerNode up.hash up.blake2b (up.chunker pol f) f.data m) := by
  cases hw : up.writeReader s f m with
  | mk o s1 =>
    cases o with
    | panic => rw [hw] at h; exact absurd rfl h
    | ret x => rw [writeReader_ret up s s1 f m x hw]

/-- C17: determinism of `writeReader`. Two runs over the same stream, from
the same node, with the same hasher, digest and chunker, over two blob stores
of any kind and in any state, return the same result whenever both return: no
error, and the node that the results of the chunker, the hasher and the bytes
of the stream determine, with its refs (offsets and chunk hashes), its size
and its `blake2b-hash`. Over the reference store on which no `Put` fails both
runs do return, whatever the two stores held before. -/
theorem writeReader_deterministic {W1 W2 : Type} (bs1 : BlobStorer W1) (bs2 : BlobStorer W2)
    (H B : Bytes → String) (enc : RawNode → Bytes)
    (ch : Nat → Reader → List (Chunk × Option Error)) (s1 : UpSys W1) (s2 : UpSys W2)
    (s t : UpSys Store) (f : Reader) (m : RawNode) :
    (((Uploader.mk bs1 H B enc ch).writeReader s1 f m).1 ≠ .panic →
      ((Uploader.mk bs2 H B enc ch).writeReader s2 f m).1 ≠ .panic →
      ((Uploader.mk bs1 H B enc ch).writeReader s1 f m).1
        = ((Uploader.mk bs2 H B enc ch).writeReader s2 f m).1 ∧
      ((Uploader.mk bs1 H B enc ch).writeReader s1 f m).1
        = .ret (none, readerNode H B (ch pol f) f.data m)) ∧
    ((Uploader.mk (refBlobStorer Faults.none) H B enc ch).writeReader s f m).1
      = .ret (none, readerNode H B (ch pol f) f.data m) ∧
    ((Uploader.mk (refBlobStorer Faults.none) H B enc ch).writeReader t f m).1
      = .ret (none, readerNode H B (ch pol f) f.data m) ∧
    (readerNode H B (ch pol f) f.data m).Refs = (loopRet H (ch pol f) 0 m).2.Refs ∧
    (readerNode H B (ch pol f) f.data m).Size = intOfUint (loopRet H (ch pol f) 0 m).1 ∧
    List.lookup "blake2b-hash" (readerNode H B (ch pol f) f.data m).Data
      = some (.str (B f.data)) := by
  refine ⟨?_, ?_, ?_, rfl, rfl, ?_⟩
  · intro h1 h2
    rw [writeReader_result _ s1 f m h1, writeReader_result _ s2 f m h2]
    exact ⟨rfl, rfl⟩
  · exact writeReader_total (Uploader.mk (refBlobStorer Faults.none) H B enc ch) s f m
  · exact writeReader_total (Uploader.mk (refBlobStorer Faults.none) H B enc ch) t f m
  · simp only [readerNode, RawNode.AddData]
    exact lookup_setKey "blake2b-hash" _ _

/-- C17 at a concrete input: the stream `readerA` is written on the empty
store, and on the store that holds its chunks and on which every `Put`
fails. -/
theorem writeReader_deterministic_witness :
    ((Uploader.mk (refBlobStorer Faults.none) injHash toyBlake toyEnc
      (chunkerOf 2 2 (fun _ _ => false))).writeReader UpSys.init readerA RawNode.zero).1
        ≠ .panic ∧
    ((Uploader.mk (refBlobStorer faultPut) injHash toyBlake toyEnc
      (chunkerOf 2 2 (fun _ _ => false))).writeReader stateA readerA RawNode.zero).1
        ≠ .panic ∧
    ((Uploader.mk (refBlobStorer Faults.none) injHash toyBlake toyEnc
      (chunkerOf 2 2 (fun _ _ => false))).writeReader UpSys.init readerA RawNode.zero).1
      = ((Uploader.mk (refBlobStorer faultPut) injHash toyBlake toyEnc
          (chunkerOf 2 2 (fun _ _ => false))).writeReader stateA readerA RawNode.zero).1 ∧
    ((Uploader.mk (refBlobStorer Faults.none) injHash toyBlake toyEnc
      (chunkerOf 2 2 (fun _ _ => false))).writeReader UpSys.init readerA RawNode.zero).1
      = .ret (none, readerNode injHash toyBlake (chunkerOf 2 2 (fun _ _ => false) pol readerA)
          readerA.data RawNode.zero) :=
  ⟨by decide, by decide,
    (writeReader_deterministic (refBlobStorer Faults.none) (refBlobStorer faultPut) injHash
      toyBlake toyEnc (chunkerOf 2 2 (fun _ _ => false)) UpSys.init stateA UpSys.init stateA
      readerA RawNode.zero).1 (by decide) (by decide)⟩

/-! ## The sizes of the chunks -/

/-- An element of a list without its last element is the head or an element
of the tail without its last element. -/
theorem mem_dropLast_cons {α : Type} (a x : α) (l : List α) (h : x ∈ (a :: l).dropLast) :
    x = a ∨ x ∈ l.dropLast := by
  cases l with
  | nil => simp at h
  | cons b tl =>
    rw [List.dropLast_cons₂] at h
    exact List.mem_cons.mp h

/-- The chunks of the chunker with hard minimum `min` and hard maximum `max`:
every chunk is at most `max` long and its `Length` is the length of its data,
and every result but the last is a chunk at least `min` long, without
error. -/
theorem chunkLoop_bounds (min max : Nat) (cut : Bytes → Bool) (fin : Option Error)
    (hmin : 0 < min) (hmm : min ≤ max) :
    ∀ (rest cur : Bytes), cur.length < max →
      (∀ r ∈ chunkLoop min max cut fin cur rest,
        r.1.Data.length ≤ max ∧ r.1.Length = r.1.Data.length) ∧
      (∀ r ∈ (chunkLoop min max cut fin cur rest).dropLast,
        min ≤ r.1.Data.length ∧ r.2 = none) := by
  intro rest
  induction rest with
  | nil =>
    intro cur hcur
    cases fin with
    | none =>
      by_cases hc : cur = []
      · simp [chunkLoop, hc]
      · simp only [chunkLoop, hc, if_false, List.mem_singleton, List.dropLast_single,
          List.not_mem_nil, false_implies, implies_true, and_true]
        intro r hr
        subst hr
        exact ⟨Nat.le_of_lt hcur, rfl⟩
    | some e =>
      simp only [chunkLoop, List.mem_singleton, List.dropLast_single, List.not_mem_nil,
        false_implies, implies_true, and_true]
      intro r hr
      subst hr
      exact ⟨Nat.zero_le _, rfl⟩
  | cons b rest ih =>
    intro cur hcur
    by_cases hcond : min ≤ cur.length + 1 ∧
        (cut (window (cur ++ [b])) = true ∨ max ≤ cur.length + 1)
    · have hrun : chunkLoop min max cut fin cur (b :: rest)
          = (⟨cur.length + 1, cur ++ [b]⟩, none) :: chunkLoop min max cut fin [] rest := by
        simp only [chunkLoop]
        rw [if_pos hcond]
      rw [hrun]
      have h0 := ih [] (by simpa using Nat.lt_of_lt_of_le hmin hmm)
      constructor
      · intro r hr
        rcases List.mem_cons.mp hr with rfl | hr
        · simp only [List.length_append, List.length_singleton, and_true]
          omega
        · exact h0.1 r hr
      · intro r hr
        rcases mem_dropLast_cons _ _ _ hr with rfl | hr
        · simp only [List.length_append, List.length_singleton, and_true]
          exact hcond.1
        · exact h0.2 r hr
    · have hrun : chunkLoop min max cut fin cur (b :: rest)
          = chunkLoop min max cut fin (cur ++ [b]) rest := by
        simp only [chunkLoop]
        rw [if_neg hcond]
      rw [hrun]
      apply ih
      simp only [List.length_append, List.length_singleton]
      by_contra hge
      apply hcond
      constructor <;> [omega; (right; omega)]

/-- The chunks of a stream that ends without a read error, one after the
other, are the bytes of the stream. -/
theorem chunkLoop_flatten (min max : Nat) (cut : Bytes → Bool) :
    ∀ (rest cur : Bytes),
      (chunkData (chunkLoop min max cut none cur rest)).flatten = cur ++ rest := by
  intro rest
  induction rest with
  | nil =>
    intro cur
    by_cases hc : cur = []
    · simp [chunkLoop, chunkData, hc]
    · simp [chunkLoop, chunkData, hc]
  | cons b rest ih =>
    intro cur
    by_cases hcond : min ≤ cur.length + 1 ∧
        (cut (window (cur ++ [b])) = true ∨ max ≤ cur.length + 1)
    · have hrun : chunkLoop min max cut none cur (b :: rest)
          = (⟨cur.length + 1, cur ++ [b]⟩, none) :: chunkLoop min max cut none [] rest := by
        simp only [chunkLoop]
        rw [if_pos hcond]
      rw [hrun]
      have h0 := ih []
      simp only [chunkData, List.map_cons, List.flatten_cons] at h0 ⊢
      rw [h0]
      simp
    · have hrun : chunkLoop min max cut none cur (b :: rest)
          = chunkLoop min max cut none (cur ++ [b]) rest := by
        simp only [chunkLoop]
        rw [if_neg hcond]
      rw [hrun, ih]
      simp

/-- C18: the sizes of the chunks, for the chunker as the spec describes it
(hard minimum 512 KiB, hard maximum 8 MiB, any rolling hash `cut`), over any
blob store and for every stream. The writer hands the polynomial
`0x3c657535c4d6f5` to the chunker; every `Put` of `writeReader`, however the
call ends, puts the data of a chunk of the stream, of at most 8 MiB; every
chunk is at most 8 MiB long, and every chunk but the last is at least 512 KiB
long; the chunks of a stream that ends without a read error make up the
stream. -/
theorem chunk_bounds {W : Type} (bs : BlobStorer W) (H B : Bytes → String)
    (enc : RawNode → Bytes) (cut : Nat → Bytes → Bool) (s : UpSys W) (f : Reader)
    (m : RawNode) :
    pol = 0x3c657535c4d6f5 ∧
    (∀ h d e, UpCall.put h d e ∈
        ((Uploader.mk bs H B enc (specChunker cut)).writeReader s f m).2.callsSince
          s.calls.length →
      (∃ r ∈ specChunker cut pol f, d = r.1.Data) ∧ d.length ≤ 8 * 1024 * 1024) ∧
    (∀ r ∈ specChunker cut pol f,
      r.1.Data.length ≤ 8 * 1024 * 1024 ∧ r.1.Length = r.1.Data.length) ∧
    (∀ r ∈ (specChunker cut pol f).dropLast, 512 * 1024 ≤ r.1.Data.length ∧ r.2 = none) ∧
    (f.err = none → (chunkData (specChunker cut pol f)).flatten = f.data) := by
  have hb := chunkLoop_bounds MinSize MaxSize (cut pol) f.err (by decide) (by decide) f.data []
    (by decide)
  refine ⟨rfl, ?_, hb.1, hb.2, ?_⟩
  · intro h d e hc
    have hd := (writeReader_adds (Uploader.mk bs H B enc (specChunker cut)) s f m).since.2.2
      h d e hc
    obtain ⟨r, hr, hrd⟩ := List.mem_map.mp hd
    exact ⟨⟨r, hr, hrd.symm⟩, by rw [← hrd]; exact (hb.1 r hr).1⟩
  · intro hf
    have := chunkLoop_flatten MinSize MaxSize (cut pol) f.data []
    simpa [specChunker, chunkerOf, hf] using this

/-! ## Properties of the upload handler -/

/-- The blobs the loop of the handler hands to `Put`: each is a part of the
request, and its hash is the digest of its data. -/
theorem uploadLoop_puts {W : Type} (bs : BlobStore W) (parts : List PartRead) :
    ∀ (h : Handling W), ∃ new, (bs.uploadLoop parts h).puts = h.puts ++ new ∧
      ∀ b ∈ new, b.Hash = bs.hash b.Data ∧ PartRead.part b.Hash b.Data ∈ parts := by
  induction parts with
  | nil => intro h; exact ⟨[], by simp [BlobStore.uploadLoop], by simp⟩
  | cons p rest ih =>
    intro h
    cases p with
    | failed err => exact ⟨[], by simp [BlobStore.uploadLoop], by simp⟩
    | part name body =>
      by_cases hbad : name ≠ bs.hash body
      · exact ⟨[], by simp [BlobStore.uploadLoop, hbad], by simp⟩
      · have heq : name = bs.hash body := not_not.mp hbad
        simp only [BlobStore.uploadLoop, hbad, if_false]
        obtain ⟨new, hnew, hall⟩ := ih
          { sys := (bs.Put h.sys ⟨name, body⟩).2,
            replies :=
              match (bs.Put h.sys ⟨name, body⟩).1 with
              | some err => h.replies ++ [.jsonError StatusInternalServerError err.msg]
              | none => h.replies,
            puts := h.puts ++ [⟨name, body⟩] }
        refine ⟨⟨name, body⟩ :: new, by rw [hnew]; simp, ?_⟩
        intro b hb
        rcases List.mem_cons.mp hb with rfl | hb
        · exact ⟨heq, List.mem_cons_self _ _⟩
        · exact ⟨(hall b hb).1, List.mem_cons_of_mem _ (hall b hb).2⟩

/-- The loop of the handler at the first part whose form name is not the
digest of its body: it replies with the error and ends in the state reached
after the parts before it. -/
theorem uploadLoop_bad {W : Type} (bs : BlobStore W) (name : String) (body : Bytes)
    (post : List PartRead) (hbad : name ≠ bs.hash body) (pre : List PartRead) :
    ∀ (h : Handling W), (∀ p ∈ pre, p.wellFormed bs.hash = true) →
      bs.uploadLoop (pre ++ .part name body :: post) h
        = { bs.uploadLoop pre h with
            replies := (bs.uploadLoop pre h).replies ++
              [.jsonError 500
                ("blob corrupted, hash does not match, expected " ++ bs.hash body)] } := by
  induction pre with
  | nil =>
    intro h _
    simp [BlobStore.uploadLoop, hbad, StatusInternalServerError]
  | cons p rest ih =>
    intro h hpre
    have hp := hpre p (List.mem_cons_self _ _)
    have hrest : ∀ q ∈ rest, q.wellFormed bs.hash = true :=
      fun q hq => hpre q (List.mem_cons_of_mem _ hq)
    cases p with
    | failed err => simp [PartRead.wellFormed] at hp
    | part n b =>
      have heq : n = bs.hash b := by simpa [PartRead.wellFormed] using hp
      simp only [List.cons_append, BlobStore.uploadLoop, heq, ne_eq, not_true_eq_false,
        if_false]
      exact ih _ hrest

/-- C19: the upload handler and a part whose form name is not the digest of
its body. For every request, every blob the handler hands to `BlobStore.Put`
is a part of the request whose form name is the digest of its body. For a
`POST` request whose parts are `pre`, all with a form name that is the digest
of the body, then a part `(name, body)` with another form name, then `post`:
the handler replies what it replies to the parts `pre` and then the JSON
error of status 500 that names the digest; the state of the blob store and
the blobs handed to `Put` are those after the parts `pre`, whatever `post`
is: no later part is processed, and what the parts before stored is kept. -/
theorem upload_bad_hash {W : Type} (bs : BlobStore W) (s : Sys W) (r : Request)
    (pre post : List PartRead) (name : String) (body : Bytes)
    (hpre : ∀ p ∈ pre, p.wellFormed bs.hash = true) (hbad : name ≠ bs.hash body) :
    (∀ b ∈ (bs.uploadHandler r s).puts,
      b.Hash = bs.hash b.Data ∧ ∃ parts, r.parts = .ok parts ∧ .part b.Hash b.Data ∈ parts) ∧
    (bs.uploadHandler ⟨"POST", .ok (pre ++ .part name body :: post)⟩ s).replies
      = (bs.uploadHandler ⟨"POST", .ok pre⟩ s).replies ++
          [.jsonError 500 ("blob corrupted, hash does not match, expected " ++ bs.hash body)] ∧
    (bs.uploadHandler ⟨"POST", .ok (pre ++ .part name body :: post)⟩ s).sys
      = (bs.uploadHandler ⟨"POST", .ok pre⟩ s).sys ∧
    (bs.uploadHandler ⟨"POST", .ok (pre ++ .part name body :: post)⟩ s).puts
      = (bs.uploadHandler ⟨"POST", .ok pre⟩ s).puts ∧
    Blob.mk name body ∉
      (bs.uploadHandler ⟨"POST", .ok (pre ++ .part name body :: post)⟩ s).puts := by
  have hputs : ∀ (r : Request), ∀ b ∈ (bs.uploadHandler r s).puts,
      b.Hash = bs.hash b.Data ∧ ∃ parts, r.parts = .ok parts ∧ .part b.Hash b.Data ∈ parts := by
    intro r b hb
    unfold BlobStore.uploadHandler at hb
    split_ifs at hb
    · simp at hb
    · cases hparts : r.parts with
      | error err => rw [hparts] at hb; simp at hb
      | ok parts =>
        rw [hparts] at hb
        obtain ⟨new, hnew, hall⟩ := uploadLoop_puts bs parts ⟨s, [], []⟩
        simp only at hb
        rw [hnew, List.nil_append] at hb
        exact ⟨(hall b hb).1, parts, rfl, (hall b hb).2⟩
    · simp at hb
  have hrun : bs.uploadHandler ⟨"POST", .ok (pre ++ .part name body :: post)⟩ s
      = { bs.uploadHandler ⟨"POST", .ok pre⟩ s with
          replies := (bs.uploadHandler ⟨"POST", .ok pre⟩ s).replies ++
            [.jsonError 500
              ("blob corrupted, hash does not match, expected " ++ bs.hash body)] } := by
    have h1 : ∀ parts, bs.uploadHandler ⟨"POST", .ok parts⟩ s
        = bs.uploadLoop parts ⟨s, [], []⟩ := by
      intro parts
      simp [BlobStore.uploadHandler]
    rw [h1, h1]
    exact uploadLoop_bad bs name body post hbad pre _ hpre
  refine ⟨hputs r, by rw [hrun], by rw [hrun], by rw [hrun], ?_⟩
  intro hmem
  exact hbad (hputs _ _ hmem).1

/-- C19 at a concrete input: a `POST` request of three parts, of which the
second has the form name `zz`, which is not the digest of its body. -/
theorem upload_bad_hash_witness :
    (∀ p ∈ [PartRead.part "a" [5]], p.wellFormed storeA.hash = true) ∧
    "zz" ≠ storeA.hash [1] ∧
    (∀ b ∈ (storeA.uploadHandler requestA Sys.init).puts,
      b.Hash = storeA.hash b.Data ∧
        ∃ parts, requestA.parts = .ok parts ∧ .part b.Hash b.Data ∈ parts) ∧
    (storeA.uploadHandler
        ⟨"POST", .ok ([.part "a" [5]] ++ .part "zz" [1] :: [.part "aa" [1, 2]])⟩
        Sys.init).replies
      = (storeA.uploadHandler ⟨"POST", .ok [.part "a" [5]]⟩ Sys.init).replies ++
          [.jsonError 500
            ("blob corrupted, hash does not match, expected " ++ storeA.hash [1])] ∧
    (storeA.uploadHandler
        ⟨"POST", .ok ([.part "a" [5]] ++ .part "zz" [1] :: [.part "aa" [1, 2]])⟩
        Sys.init).sys
      = (storeA.uploadHandler ⟨"POST", .ok [.part "a" [5]]⟩ Sys.init).sys ∧
    (storeA.uploadHandler
        ⟨"POST", .ok ([.part "a" [5]] ++ .part "zz" [1] :: [.part "aa" [1, 2]])⟩
        Sys.init).puts
      = (storeA.uploadHandler ⟨"POST", .ok [.part "a" [5]]⟩ Sys.init).puts ∧
    Blob.mk "zz" [1] ∉
      (storeA.uploadHandler
        ⟨"POST", .ok ([.part "a" [5]] ++ .part "zz" [1] :: [.part "aa" [1, 2]])⟩
        Sys.init).puts :=
  ⟨by decide, by decide,
    upload_bad_hash storeA Sys.init requestA [.part "a" [5]] [.part "aa" [1, 2]] "zz" [1]
      (by decide) (by decide)⟩

/-! ## Properties of the replication key -/

/-- The array of 32 zero bytes after `copy(out[:], data)`: the first 32 bytes
of `data`, padded with zero bytes. -/
theorem goCopy_out (data : Bytes) :
    goCopy (List.replicate 32 0) data = data.take 32 ++ List.replicate (32 - data.length) 0 := by
  simp only [goCopy, List.length_replicate, List.drop_replicate]

/-- C20: the method `S3Repl.Key`. Without a key file it returns `(nil, nil)`.
With a key file that `ReadFile` reads as `data`, it returns no error and a
key of 32 bytes: the first 32 bytes of `data`, padded with zero bytes. The
key is `data` exactly when `data` has 32 bytes: for a longer file it is the
first 32 bytes, for a shorter one `data` followed by zero bytes, and in both
cases it is not the contents of the file. When `ReadFile` fails, its error is
returned. -/
theorem s3repl_key (readFile : String → Except Error Bytes) (s3 : S3Repl) (data : Bytes)
    (err : Error) :
    (s3.KeyFile = "" → s3.Key readFile = .ok none) ∧
    (s3.KeyFile ≠ "" → readFile s3.KeyFile = .ok data →
      s3.Key readFile = .ok (some (data.take 32 ++ List.replicate (32 - data.length) 0)) ∧
      (data.take 32 ++ List.replicate (32 - data.length) 0).length = 32 ∧
      (data.length = 32 → data.take 32 ++ List.replicate (32 - data.length) 0 = data) ∧
      (32 < data.length → data.take 32 ++ List.replicate (32 - data.length) 0 = data.take 32) ∧
      (data.length < 32 →
        data.take 32 ++ List.replicate (32 - data.length) 0
          = data ++ List.replicate (32 - data.length) 0) ∧
      (data.length ≠ 32 → data.take 32 ++ List.replicate (32 - data.length) 0 ≠ data)) ∧
    (s3.KeyFile ≠ "" → readFile s3.KeyFile = .error err → s3.Key readFile = .error err) := by
  refine ⟨?_, ?_, ?_⟩
  · intro h
    simp [S3Repl.Key, h]
  · intro h hread
    have hlen : (data.take 32 ++ List.replicate (32 - data.length) 0).length = 32 := by
      simp only [List.length_append, List.length_take, List.length_replicate]
      omega
    refine ⟨?_, hlen, ?_, ?_, ?_, ?_⟩
    · simp only [S3Repl.Key, h, if_false, hread]
      rw [goCopy_out]
    · intro h32
      rw [h32, Nat.sub_self, List.replicate_zero, List.append_nil, ← h32, List.take_length]
    · intro h32
      rw [Nat.sub_eq_zero_of_le (Nat.le_of_lt h32), List.replicate_zero, List.append_nil]
    · intro h32
      rw [List.take_of_length_le (Nat.le_of_lt h32)]
    · intro hne heq
      rw [heq] at hlen
      exact hne hlen
  · intro h hread
    simp [S3Repl.Key, h, hread]

/-- C20 at a concrete input: a key file of three bytes. -/
theorem s3repl_key_witness :
    s3A.KeyFile ≠ "" ∧ readFileA s3A.KeyFile = .ok [1, 2, 3] ∧
    s3A.Key readFileA
      = .ok (some (List.take 32 [1, 2, 3] ++ List.replicate (32 - [1, 2, 3].length) 0)) ∧
    [1, 2, 3].length ≠ 32 ∧
    List.take 32 [1, 2, 3] ++ List.replicate (32 - [1, 2, 3].length) 0 ≠ [1, 2, 3] :=
  ⟨by decide, rfl,
    ((s3repl_key readFileA s3A [1, 2, 3] ⟨""⟩).2.1 (by decide) rfl).1,
    by decide,
    ((s3repl_key readFileA s3A [1, 2, 3] ⟨""⟩).2.1 (by decide) rfl).2.2.2.2.2 (by decide)⟩

/-! ## The reverse range -/

/-- C11, at the failing input: on the empty database, for every `min` and
`max`, the first call of `Next` on the reverse range `Range(min, max, true)`
panics. `Seek(max)` returns an enumerator on no pair, `Prev` returns `io.EOF`,
`SeekLast` returns no enumerator (and `io.EOF`, which line 85 drops), and
line 86 calls `Prev` on the `nil` enumerator. The forward range on the same
database returns `io.EOF`. -/
theorem range_reverse_empty_panics (min max : Bytes) (n : Nat) :
    Range.calls refKV (n + 1) (RangeDB.Range ⟨[]⟩ min max true) = [none] ∧
    Range.calls refKV (n + 1) (RangeDB.Range ⟨[]⟩ min max false)
      = yieldsThenEOF (n + 1) ((⟨[]⟩ : DB).inRange min max) := by
  constructor
  · simp [Range.calls, Range.Next, Range.next, Range.first, RangeDB.Range, refKV, DB.Seek,
      DB.SeekLast, Enumerator.Prev, Enumerator.cur]
  · have h := calls_exhausted [] (n + 1)
      { Reverse := false, Min := min, Max := max, db := ⟨[]⟩, enum := some ⟨[], 0⟩ } rfl rfl
    rw [show (⟨[]⟩ : DB).inRange min max = [] from rfl, ← h]
    simp [Range.calls, Range.Next, Range.next, Range.first, RangeDB.Range, refKV, DB.Seek]

/-! ## The steps of a first-time `Put` -/

/-- The facade `New` returns holds an S3 backend exactly when replication is
configured, and the backend, the hub and the hasher it was given. -/
theorem new_fields {W : Type} (conf : Config) (hub : Hub W) (hash : Bytes → String)
    (newBack : Except Error (BlobsFiles W)) (newS3 : BlobsFiles W → Except Error (S3Backend W))
    (bs : BlobStore W) (h : New conf hub hash newBack newS3 = .ok bs) :
    bs.s3back.isSome = conf.replicates ∧ bs.hub = hub ∧ bs.hash = hash := by
  unfold New at h
  cases newBack with
  | error e => simp at h
  | ok back =>
    simp only at h
    cases hc : conf.S3Repl with
    | none =>
      rw [hc] at h
      simp only [Except.ok.injEq] at h
      subst h
      simp [Config.replicates, hc]
    | some r =>
      rw [hc] at h
      simp only at h
      by_cases hb : r.Bucket ≠ ""
      · rw [if_pos hb] at h
        cases hs : newS3 back with
        | error e => rw [hs] at h; simp at h
        | ok s3 =>
          rw [hs] at h
          simp only [Except.ok.injEq] at h
          subst h
          simp [Config.replicates, hc, hb]
      · rw [if_neg hb] at h
        simp only [Except.ok.injEq] at h
        subst h
        simpa [Config.replicates, hc] using hb

/-- The calls of a `Put` that returns `nil` for a blob the backend reports
absent: the backend `Exists` and `Put`, then the S3 enqueue when the facade
has an S3 backend, then the `NewBlob` publication, each once and without
error. -/
theorem put_first_trace {W : Type} (bs : BlobStore W) (s : Sys W) (blob : Blob)
    (hfirst : (bs.back.Exists s.world blob.Hash).1 = .ok false)
    (hok : (bs.Put s blob).1 = none) :
    blob.Check bs.hash = none ∧
    (bs.Put s blob).2.trace
      = s.trace ++ [.backExists blob.Hash (.ok false), .backPut blob.Hash blob.Data none]
          ++ (if bs.s3back.isSome then [.s3Put blob.Hash none] else [])
          ++ [.newBlobEvent blob none] := by
  cases hc : blob.Check bs.hash with
  | some e => simp [BlobStore.Put, hc] at hok
  | none =>
    refine ⟨rfl, ?_⟩
    cases hp : (bs.back.Put (bs.back.Exists s.world blob.Hash).2 blob.Hash blob.Data).1 with
    | some e => simp [BlobStore.Put, hc, hfirst, hp, Sys.call] at hok
    | none =>
      cases hs3 : bs.s3back with
      | none =>
        simp only [BlobStore.Put, hc, hfirst, hp, Sys.call, BlobStore.putNotify, hs3] at hok ⊢
        simp [hok]
      | some s3 =>
        simp only [BlobStore.Put, hc, hfirst, hp, Sys.call, BlobStore.putNotify, hs3] at hok ⊢
        cases hq : (s3.Put (bs.back.Put (bs.back.Exists s.world blob.Hash).2 blob.Hash
            blob.Data).2 blob.Hash).1 with
        | some e => simp [hq] at hok
        | none =>
          simp only [hq] at hok ⊢
          simp [hok]

/-- A facade without S3 backend never enqueues: however `Put` ends, none of
its calls is an S3 enqueue. -/
theorem put_no_enqueue {W : Type} (bs : BlobStore W) (hs3 : bs.s3back = none) (t : Sys W)
    (b : Blob) (h : String) (r : Option Error) :
    Call.s3Put h r ∉ (bs.Put t b).2.callsSince t.trace.length := by
  cases hc : b.Check bs.hash with
  | some e => simp [BlobStore.Put, hc, Sys.callsSince]
  | none =>
    cases hx : (bs.back.Exists t.world b.Hash).1 with
    | error e => simp [BlobStore.Put, hc, hx, Sys.call, Sys.callsSince]
    | ok found =>
      cases found with
      | true => simp [BlobStore.Put, hc, hx, Sys.call, Sys.callsSince]
      | false =>
        cases hp : (bs.back.Put (bs.back.Exists t.world b.Hash).2 b.Hash b.Data).1 with
        | some e => simp [BlobStore.Put, hc, hx, hp, Sys.call, Sys.callsSince]
        | none =>
          simp [BlobStore.Put, hc, hx, hp, Sys.call, Sys.callsSince, BlobStore.putNotify, hs3]

/-- C22: the steps of a first-time successful `Put`. For the facade `New`
built from a configuration, over arbitrary collaborators: when the backend
reports the hash absent and `Put` returns `nil`, the blob is well-formed and
the calls of `Put` are, in this order, the backend `Exists` and `Put`, then
one S3 enqueue of the hash exactly when replication is configured (`S3Repl`
present with a non-empty bucket), then one `NewBlob` publication. When
replication is not configured, no `Put`, of any blob, in any state and
however it ends, makes an S3 enqueue. -/
theorem put_first_time_steps {W : Type} (conf : Config) (hub : Hub W) (hash : Bytes → String)
    (newBack : Except Error (BlobsFiles W)) (newS3 : BlobsFiles W → Except Error (S3Backend W))
    (bs : BlobStore W) (s : Sys W) (blob : Blob)
    (hnew : New conf hub hash newBack newS3 = .ok bs)
    (hfirst : (bs.back.Exists s.world blob.Hash).1 = .ok false)
    (hok : (bs.Put s blob).1 = none) :
    blob.Hash = hash blob.Data ∧
    (bs.Put s blob).2.callsSince s.trace.length
      = [.backExists blob.Hash (.ok false), .backPut blob.Hash blob.Data none]
          ++ (if conf.replicates then [.s3Put blob.Hash none] else [])
          ++ [.newBlobEvent blob none] ∧
    (conf.replicates = false →
      ∀ (t : Sys W) (b : Blob) (h : String) (r : Option Error),
        Call.s3Put h r ∉ (bs.Put t b).2.callsSince t.trace.length) := by
  obtain ⟨hs3, _, hhash⟩ := new_fields conf hub hash newBack newS3 bs hnew
  obtain ⟨hwf, htrace⟩ := put_first_trace bs s blob hfirst hok
  refine ⟨?_, ?_, ?_⟩
  · rw [← hhash]
    unfold Blob.Check at hwf
    by_contra hne
    rw [if_neg hne] at hwf
    simp at hwf
  · rw [Sys.callsSince, htrace, hs3]
    simp [List.append_assoc]
  · intro hoff t b h r
    have hnone : bs.s3back = none := by
      rw [hoff] at hs3
      cases hb : bs.s3back with
      | none => rfl
      | some x => rw [hb] at hs3; simp at hs3
    exact put_no_enqueue bs hnone t b h r

/-- C22 at a concrete input: the facade built over the reference
collaborators from a configuration with a bucket stores `blobA` in the empty
store. -/
theorem put_first_time_steps_witness :
    New confA (refHub Faults.none) toyHash (.ok (refBack Faults.none))
        (fun _ => .ok (refS3 Faults.none)) = .ok (refStore toyHash true Faults.none) ∧
    ((refStore toyHash true Faults.none).back.Exists Sys.init.world blobA.Hash).1
      = .ok false ∧
    ((refStore toyHash true Faults.none).Put Sys.init blobA).1 = none ∧
    blobA.Hash = toyHash blobA.Data ∧
    ((refStore toyHash true Faults.none).Put Sys.init blobA).2.callsSince Sys.init.trace.length
      = [.backExists blobA.Hash (.ok false), .backPut blobA.Hash blobA.Data none]
          ++ (if confA.replicates then [.s3Put blobA.Hash none] else [])
          ++ [.newBlobEvent blobA none] :=
  ⟨rfl, by decide, by decide,
    (put_first_time_steps confA (refHub Faults.none) toyHash (.ok (refBack Faults.none))
      (fun _ => .ok (refS3 Faults.none)) (refStore toyHash true Faults.none) Sys.init blobA
      rfl (by decide) (by decide)).1,
    (put_first_time_steps confA (refHub Faults.none) toyHash (.ok (refBack Faults.none))
      (fun _ => .ok (refS3 Faults.none)) (refStore toyHash true Faults.none) Sys.init blobA
      rfl (by decide) (by decide)).2.1⟩

/-! ## The errors of `writeReader` -/

/-- C26: `writeReader` never returns an error. Over any blob store, whenever
`writeReader` returns, it returns `nil`, and so does its loop from every
state, whatever results the chunker gives: the test of line 54 reads the
error of `Stat`, which is `nil` there. At a result of `Next` that is not
`io.EOF`, a failed `Stat` panics and a failed `Put` panics. A read error of
the stream other than `io.EOF` is not returned: over the reference store on
which no `Put` fails, `writeReader` returns `nil` for every stream, also one
that ends with a read error. -/
theorem writeReader_never_errs {W : Type} (up : Uploader W) (s : UpSys W) (f : Reader)
    (m : RawNode) (rs : List (Chunk × Option Error)) (chunk : Chunk) (err : Option Error)
    (size : Nat) (e : Error) (upS : Uploader Store) (t : UpSys Store) :
    (∀ x s1, up.writeReader s f m = (.ret x, s1) → x.1 = none) ∧
    (∀ x s1, up.writeLoop rs size s m = (.ret x, s1) → x.1 = none) ∧
    (err ≠ some EOF → (up.bs.Stat s.world (up.hash chunk.Data)).1.2 = some e →
      (up.writeLoop ((chunk, err) :: rs) size s m).1 = .panic) ∧
    (err ≠ some EOF → (up.bs.Stat s.world (up.hash chunk.Data)).1.2 = none →
      (up.bs.Stat s.world (up.hash chunk.Data)).1.1 = false →
      (up.bs.Put (up.statted s (up.hash chunk.Data)).world (up.hash chunk.Data)
        chunk.Data).1 = some e →
      (up.writeLoop ((chunk, err) :: rs) size s m).1 = .panic) ∧
    ((upS.onRef Faults.none).writeReader t f m).1
      = .ret (none, readerNode upS.hash upS.blake2b (upS.chunker pol f) f.data m) := by
  refine ⟨?_, ?_, ?_, ?_, writeReader_total upS t f m⟩
  · intro x s1 h
    rw [writeReader_ret up s s1 f m x h]
  · intro x s1 h
    rw [writeLoop_ret up rs size s m x s1 h]
  · intro hEOF hst
    rw [writeLoop_statErr up chunk err rs size s m e hEOF hst]
  · intro hEOF hst hf hp
    rw [writeLoop_putErr up chunk err rs size s m e hEOF hst hf hp]

/-- C26 at concrete inputs: a `Stat` that fails and a `Put` that fails on the
first chunk, and a stream that ends with a read error. -/
theorem writeReader_never_errs_witness :
    ((Uploader.mk failStat injHash toyBlake toyEnc (chunkerOf 2 2 (fun _ _ => false))).writeLoop
      [(⟨2, [1, 2]⟩, none)] 0 ⟨(), []⟩ RawNode.zero).1 = .panic ∧
    ((toyUploader faultPut).writeLoop [(⟨2, [1, 2]⟩, none)] 0 UpSys.init RawNode.zero).1
      = .panic ∧
    (toyUploader Faults.none).chunker pol readerErr
      = [(⟨2, [1, 2]⟩, none), (⟨0, []⟩, some ⟨"read failed"⟩)] ∧
    (((toyUploader Faults.none).onRef Faults.none).writeReader UpSys.init readerErr
        RawNode.zero).1
      = .ret (none, readerNode injHash toyBlake ((toyUploader Faults.none).chunker pol readerErr)
          readerErr.data RawNode.zero) ∧
    (toyUploader Faults.none).writeReader UpSys.init readerErr RawNode.zero
      = (.ret (none, readerNode injHash toyBlake
            ((toyUploader Faults.none).chunker pol readerErr) readerErr.data RawNode.zero),
          ((toyUploader Faults.none).writeReader UpSys.init readerErr RawNode.zero).2) ∧
    ((none : Option Error), readerNode injHash toyBlake
      ((toyUploader Faults.none).chunker pol readerErr) readerErr.data RawNode.zero).1 = none :=
  ⟨(writeReader_never_errs
      (Uploader.mk failStat injHash toyBlake toyEnc (chunkerOf 2 2 (fun _ _ => false)))
      ⟨(), []⟩ readerA RawNode.zero [] ⟨2, [1, 2]⟩ none 0 ⟨"db down"⟩
      (toyUploader Faults.none) UpSys.init).2.2.1 (by decide) (by decide),
    (writeReader_never_errs (toyUploader faultPut) UpSys.init readerA RawNode.zero []
      ⟨2, [1, 2]⟩ none 0 ⟨"disk full"⟩ (toyUploader Faults.none) UpSys.init).2.2.2.1
      (by decide) (by decide) (by decide) (by decide),
    by decide,
    (writeReader_never_errs (toyUploader faultPut) UpSys.init readerErr RawNode.zero []
      ⟨2, [1, 2]⟩ none 0 ⟨"disk full"⟩ (toyUploader Faults.none) UpSys.init).2.2.2.2,
    Prod.ext (by decide) rfl,
    (writeReader_never_errs (toyUploader Faults.none) UpSys.init readerErr RawNode.zero []
      ⟨2, [1, 2]⟩ none 0 ⟨"disk full"⟩ (toyUploader Faults.none) UpSys.init).1 _ _
      (Prod.ext (by decide) rfl)⟩

/-! ## Properties of the context tags -/

/-- A context never derived with a value for the key holds no value for
it. -/
theorem value_untagged (key : CtxKey) :
    ∀ (ctx : Context), ctx.tagged key = false → ctx.Value key = none
  | .background, _ => rfl
  | .withValue parent k v, h => by
    simp only [Context.tagged, Bool.or_eq_false_iff, decide_eq_false_iff_not] at h
    simp only [Context.Value, h.1, if_false]
    exact value_untagged key parent h.2

/-- C23: the tags of a context. For every context, namespace and request:
`Namespace` of `WithNamespace(ctx, ns)` is `(ns, true)`, and `Namespace` of a
context never tagged with a namespace is `("", false)`; `Request` of
`WithRequest(ctx, r)` returns `(r, true)`, and `Request` of a context never
tagged with a request returns `(nil, false)`; `WithNamespace` leaves what
`Request` does unchanged and `WithRequest` leaves the result of `Namespace`
unchanged. -/
theorem context_tags (ctx : Context) (ns : String) (r : Option Request) :
    ctxutil.Namespace (ctxutil.WithNamespace ctx ns) = (ns, true) ∧
    (ctx.tagged namespaceKey = false → ctxutil.Namespace ctx = ("", false)) ∧
    ctxutil.Request (ctxutil.WithRequest ctx r) = .ret (r, true) ∧
    (ctx.tagged requestKey = false → ctxutil.Request ctx = .ret (none, false)) ∧
    ctxutil.Request (ctxutil.WithNamespace ctx ns) = ctxutil.Request ctx ∧
    ctxutil.Namespace (ctxutil.WithRequest ctx r) = ctxutil.Namespace ctx := by
  refine ⟨?_, ?_, ?_, ?_, ?_, ?_⟩
  · simp [ctxutil.Namespace, ctxutil.WithNamespace, Context.Value]
  · intro h
    simp [ctxutil.Namespace, value_untagged namespaceKey ctx h]
  · simp [ctxutil.Request, ctxutil.WithRequest, Context.Value]
  · intro h
    simp [ctxutil.Request, value_untagged requestKey ctx h]
  · have hne : requestKey ≠ namespaceKey := by decide
    simp [ctxutil.Request, ctxutil.WithNamespace, Context.Value, hne]
  · have hne : namespaceKey ≠ requestKey := by decide
    simp [ctxutil.Namespace, ctxutil.WithRequest, Context.Value, hne]

/-- C23 at concrete inputs: a context tagged with a request only, and a
context tagged with a namespace only. -/
theorem context_tags_witness :
    (ctxutil.WithRequest .background (some requestA)).tagged namespaceKey = false ∧
    ctxutil.Namespace (ctxutil.WithRequest .background (some requestA)) = ("", false) ∧
    (ctxutil.WithNamespace (.withValue .background (.foreign 7) (.other 3)) "ns").tagged
      requestKey = false ∧
    ctxutil.Request (ctxutil.WithNamespace (.withValue .background (.foreign 7) (.other 3)) "ns")
      = .ret (none, false) :=
  ⟨by decide,
    (context_tags (ctxutil.WithRequest .background (some requestA)) "ns" none).2.1 (by decide),
    by decide,
    (context_tags (ctxutil.WithNamespace (.withValue .background (.foreign 7) (.other 3)) "ns")
      "ns" none).2.2.2.1 (by decide)⟩

/-! ## The bounds of the range iterator -/

/-- The method `next` changes the enumerator of the range only. -/
theorem next_fields {D E : Type} (kv : KV D E) (r r1 : Range D E) (t : Triple)
    (h : r.next kv = some (t, r1)) :
    r1.Reverse = r.Reverse ∧ r1.Min = r.Min ∧ r1.Max = r.Max ∧ r1.db = r.db := by
  unfold Range.next at h
  cases he : r.enum with
  | some e =>
    rw [he] at h
    simp only at h
    split_ifs at h <;>
      · simp only [Option.some.injEq, Prod.mk.injEq] at h
        rw [← h.2]
        exact ⟨rfl, rfl, rfl, rfl⟩
  | none =>
    rw [he] at h
    simp only [Range.first] at h
    repeat' split at h
    all_goals first
      | (simp only [Option.some.injEq, Prod.mk.injEq] at h
         rw [← h.2]
         exact ⟨rfl, rfl, rfl, rfl⟩)
      | simp at h

/-- A reverse range whose enumerator has passed the first pair returns
`io.EOF` at every call. -/
theorem calls_exhausted_rev (items : List (Bytes × Bytes)) (n : Nat) :
    ∀ (r : Range DB Enumerator), r.Reverse = true → r.enum = some ⟨items, -1⟩ →
      Range.calls refKV n r = yieldsThenEOF n [] := by
  induction n with
  | zero => intro r _ _; rfl
  | succ n ih =>
    intro r hrev henum
    have hnext : r.Next refKV = some ((none, none, some EOF), r) := by
      cases r
      simp_all [Range.Next, Range.next, refKV, Enumerator.Prev, Enumerator.cur,
        Range.shouldContinue]
    simp only [Range.calls, hnext, yieldsThenEOF]
    exact congrArg (fun t => atEnd :: t) (ih r hrev henum)

/-- A reverse range whose enumerator is positioned on the last pair of the
ascending prefix `A` yields the pairs of `A` whose key is at least `Min`, in
descending key order, and then `io.EOF`. -/
theorem calls_reverse (min : Bytes) (A : List (Bytes × Bytes)) :
    ∀ (post : List (Bytes × Bytes)) (n : Nat) (r : Range DB Enumerator),
      r.Reverse = true → r.Min = min →
      r.enum = some ⟨A ++ post, (A.length : Int) - 1⟩ →
      A.Pairwise (fun a b => Compare a.1 b.1 < 0) →
      Range.calls refKV n r
        = yieldsThenEOF n (A.filter (fun p => decide (Compare min p.1 ≤ 0))).reverse := by
  induction A using List.reverseRecOn with
  | nil =>
    intro post n r hrev _ henum _
    exact calls_exhausted_rev ([] ++ post) n r hrev (by simpa using henum)
  | append_singleton B p ih =>
    intro post n r hrev hmin henum hsorted
    cases n with
    | zero => rfl
    | succ n =>
      have hpos : (((B ++ [p]).length : Int) - 1) = (B.length : Int) := by
        simp
      have hcur : Enumerator.cur ⟨B ++ [p] ++ post, (B.length : Int)⟩ = some p := by
        have := cur_append B (p :: post)
        simpa using this
      obtain ⟨hB, _, hlast⟩ := List.pairwise_append.mp hsorted
      have hrec := ih (p :: post) n
        { r with enum := some ⟨B ++ [p] ++ post, (B.length : Int) - 1⟩ } hrev hmin
        (by simp) hB
      rw [hpos] at henum
      by_cases hp : Compare min p.1 ≤ 0
      · have hge : Compare p.1 min ≥ 0 := by
          have := Compare_swap min p.1
          omega
        have hnext : r.Next refKV = some ((some p.1, some p.2, none),
            { r with enum := some ⟨B ++ [p] ++ post, (B.length : Int) - 1⟩ }) := by
          cases r
          simp_all [Range.Next, Range.next, refKV, Enumerator.Prev, Range.shouldContinue]
        simp only [Range.calls, hnext, List.filter_append, List.filter_cons, hp, decide_True,
          if_true, List.filter_nil, List.reverse_append, List.reverse_cons, List.reverse_nil,
          List.nil_append, List.singleton_append, yieldsThenEOF]
        exact congrArg (fun t => yielded p :: t) hrec
      · have hlt : ¬ Compare p.1 min ≥ 0 := by
          have := Compare_swap min p.1
          omega
        have hnext : r.Next refKV = some ((none, none, some EOF),
            { r with enum := some ⟨B ++ [p] ++ post, (B.length : Int) - 1⟩ }) := by
          cases r
          simp_all [Range.Next, Range.next, refKV, Enumerator.Prev, Range.shouldContinue]
        have hnone : B.filter (fun q => decide (Compare min q.1 ≤ 0)) = [] := by
          rw [List.filter_eq_nil_iff]
          intro q hq hle
          have hle2 : Compare min q.1 ≤ 0 := by simpa using hle
          have hqp : Compare q.1 p.1 < 0 := hlast q hq p (List.mem_singleton.mpr rfl)
          exact hp (le_of_lt ((Compare_trans min q.1 p.1).2.2 hle2 hqp))
        rw [hnone] at hrec
        simp only [Range.calls, hnext, List.filter_append, List.filter_cons, hp, decide_False,
          hnone, List.filter_nil, List.append_nil, List.reverse_nil, yieldsThenEOF]
        exact congrArg (fun t => atEnd :: t) hrec

/-- `SeekLast` on a database that holds a pair: an enumerator on the last
pair. -/
theorem seekLast_cons (db : DB) (hne : db.items ≠ []) :
    db.SeekLast = (some ⟨db.items, (db.items.length : Int) - 1⟩, none) := by
  unfold DB.SeekLast
  cases h : db.items with
  | nil => exact absurd h hne
  | cons a l => rfl

/-- The first call of `Next` on a reverse range, over a database that holds
a pair and whose pairs are `T`, with keys below `max`, followed by `D`, that
starts with no such key: the call runs like a call on a range whose
enumerator is positioned on the last pair with a key at most `max`. -/
theorem first_reverse (db : DB) (min max : Bytes) (T D A : List (Bytes × Bytes))
    (hitems : db.items = T ++ D) (hne : db.items ≠ [])
    (hlen : (db.items.takeWhile (fun p => decide (Compare p.1 max < 0))).length = T.length)
    (hA : (D = [] ∧ A = T) ∨
      ∃ d D2, D = d :: D2 ∧
        ((Compare d.1 max > 0 ∧ A = T) ∨ (¬ Compare d.1 max > 0 ∧ A = T ++ [d]))) :
    (RangeDB.Range db min max true).Next refKV
      = (⟨true, min, max, db, some ⟨db.items, (A.length : Int) - 1⟩⟩ :
          Range DB Enumerator).Next refKV := by
  have hcur : Enumerator.cur ⟨db.items, (T.length : Int)⟩ = D.head? := by
    rw [hitems]; exact cur_append T D
  rcases hA with ⟨hD, hAT⟩ | ⟨d, D2, hD, ⟨hgt, hAT⟩ | ⟨hgt, hAT⟩⟩
  · subst hD hAT
    have hT : A.length = db.items.length := by rw [hitems]; simp
    simp only [List.head?_nil] at hcur
    rw [hT] at hcur hlen
    rw [hT]
    simp [Range.Next, Range.next, Range.first, RangeDB.Range, refKV, DB.Seek, hlen,
      Enumerator.Prev, hcur, seekLast_cons db hne]
  · subst hD hAT
    simp only [List.head?_cons] at hcur
    simp [Range.Next, Range.next, Range.first, RangeDB.Range, refKV, DB.Seek, hlen,
      Enumerator.Prev, hcur, hgt, EOF]
  · subst hD hAT
    simp only [List.head?_cons] at hcur
    simp [Range.Next, Range.next, Range.first, RangeDB.Range, refKV, DB.Seek, hlen,
      Enumerator.Prev, hcur, hgt, EOF]

/-- In an ascending list, the pairs whose key is at most `max` are the pairs
before the first key not below `max`, and that pair when its key is `max`. -/
theorem filter_le_max (max : Bytes) (items : List (Bytes × Bytes))
    (hs : items.Pairwise (fun a b => Compare a.1 b.1 < 0)) :
    ∃ A post, items = A ++ post ∧
      items.filter (fun p => decide (Compare p.1 max ≤ 0)) = A ∧
      ((items.dropWhile (fun p => decide (Compare p.1 max < 0)) = [] ∧
          A = items.takeWhile (fun p => decide (Compare p.1 max < 0))) ∨
        ∃ d D2, items.dropWhile (fun p => decide (Compare p.1 max < 0)) = d :: D2 ∧
          ((Compare d.1 max > 0 ∧ A = items.takeWhile (fun p => decide (Compare p.1 max < 0))) ∨
           (¬ Compare d.1 max > 0 ∧
              A = items.takeWhile (fun p => decide (Compare p.1 max < 0)) ++ [d]))) := by
  have hitems : items.takeWhile (fun p => decide (Compare p.1 max < 0))
      ++ items.dropWhile (fun p => decide (Compare p.1 max < 0)) = items :=
    List.takeWhile_append_dropWhile _ _
  have hT : (items.takeWhile (fun p => decide (Compare p.1 max < 0))).filter
      (fun p => decide (Compare p.1 max ≤ 0))
      = items.takeWhile (fun p => decide (Compare p.1 max < 0)) := by
    rw [List.filter_eq_self]
    intro q hq
    have := List.mem_takeWhile_imp hq
    simp only [decide_eq_true_eq] at this ⊢
    omega
  have hfilter : items.filter (fun p => decide (Compare p.1 max ≤ 0))
      = items.takeWhile (fun p => decide (Compare p.1 max < 0))
        ++ (items.dropWhile (fun p => decide (Compare p.1 max < 0))).filter
            (fun p => decide (Compare p.1 max ≤ 0)) := by
    conv_lhs => rw [← hitems]
    rw [List.filter_append, hT]
  have hhead := List.head?_dropWhile_not (fun p => decide (Compare p.1 max < 0)) items
  have hsD : (items.dropWhile (fun p => decide (Compare p.1 max < 0))).Pairwise
      (fun a b => Compare a.1 b.1 < 0) := List.Pairwise.sublist (List.dropWhile_sublist _) hs
  cases hD : items.dropWhile (fun p => decide (Compare p.1 max < 0)) with
  | nil =>
    rw [hD] at hfilter hitems
    refine ⟨_, [], hitems.symm, ?_, Or.inl ⟨rfl, rfl⟩⟩
    simpa using hfilter
  | cons d D2 =>
    rw [hD] at hfilter hitems hhead hsD
    have hd : ¬ Compare d.1 max < 0 := by simpa using hhead
    obtain ⟨hdD, _⟩ := List.pairwise_cons.mp hsD
    have hD2 : D2.filter (fun p => decide (Compare p.1 max ≤ 0)) = [] := by
      rw [List.filter_eq_nil_iff]
      intro q hq hle
      have hle2 : Compare q.1 max ≤ 0 := by simpa using hle
      exact hd ((Compare_trans d.1 q.1 max).2.1 (hdD q hq) hle2)
    by_cases hgt : Compare d.1 max > 0
    · have hnot : ¬ Compare d.1 max ≤ 0 := by omega
      refine ⟨_, d :: D2, hitems.symm, ?_, Or.inr ⟨d, D2, rfl, Or.inl ⟨hgt, rfl⟩⟩⟩
      rw [hfilter, List.filter_cons, hD2]
      simp [hnot]
    · have hle : Compare d.1 max ≤ 0 := by omega
      refine ⟨_, D2, ?_, ?_, Or.inr ⟨d, D2, rfl, Or.inr ⟨hgt, rfl⟩⟩⟩
      · rw [List.append_assoc]
        exact hitems.symm
      · rw [hfilter, List.filter_cons, hD2]
        simp [hle]

/-- Over a database that holds a pair, with strictly ascending keys, the
successive calls of `Next` on the reverse range `Range(min, max, true)`
return the pairs with `min ≤ k ≤ max` in descending key order, and then
`(nil, nil, io.EOF)` at every further call. -/
theorem reverse_calls (db : DB) (min max : Bytes) (n : Nat) (hs : db.Sorted)
    (hne : db.items ≠ []) :
    Range.calls refKV n (RangeDB.Range db min max true)
      = yieldsThenEOF n (db.inRange min max).reverse := by
  obtain ⟨A, post, hitems, hfilter, hA⟩ := filter_le_max max db.items hs
  have hin : db.inRange min max = A.filter (fun p => decide (Compare min p.1 ≤ 0)) := by
    rw [← hfilter, List.filter_filter]
    rfl
  cases n with
  | zero => rfl
  | succ n =>
    have hsA : A.Pairwise (fun a b => Compare a.1 b.1 < 0) := by
      have : (A ++ post).Pairwise (fun a b => Compare a.1 b.1 < 0) := hitems ▸ hs
      exact (List.pairwise_append.mp this).1
    have hrev := calls_reverse min A post (n + 1)
      ⟨true, min, max, db, some ⟨db.items, (A.length : Int) - 1⟩⟩ rfl rfl (by rw [hitems]) hsA
    have hfirst := first_reverse db min max
      (db.items.takeWhile (fun p => decide (Compare p.1 max < 0)))
      (db.items.dropWhile (fun p => decide (Compare p.1 max < 0))) A
      (List.takeWhile_append_dropWhile _ _).symm hne rfl hA
    rw [hin, ← hrev]
    simp only [Range.calls, hfirst]

/-- Over a database with strictly ascending keys, the successive calls of
`Next` on the forward range `Range(min, max, false)` return the pairs with
`min ≤ k ≤ max` in ascending key order, and then `(nil, nil, io.EOF)`. -/
theorem forward_calls (db : DB) (min max : Bytes) (n : Nat) (hs : db.Sorted) :
    Range.calls refKV n (RangeDB.Range db min max false)
      = yieldsThenEOF n (db.inRange min max) := by
  have hitems : db.items.takeWhile (fun p => decide (Compare p.1 min < 0))
      ++ db.items.dropWhile (fun p => decide (Compare p.1 min < 0)) = db.items :=
    List.takeWhile_append_dropWhile _ _
  have hfwd := calls_forward max (db.items.dropWhile (fun p => decide (Compare p.1 min < 0)))
    (db.items.takeWhile (fun p => decide (Compare p.1 min < 0))) n
    { Reverse := false, Min := min, Max := max, db := db,
      enum := some ⟨db.items,
        ((db.items.takeWhile (fun p => decide (Compare p.1 min < 0))).length : Int)⟩ }
    rfl rfl (by rw [hitems]) (List.Pairwise.sublist (List.dropWhile_sublist _) hs)
  rw [filter_dropWhile min max db.items hs] at hfwd
  cases n with
  | zero => rfl
  | succ n =>
    rw [DB.inRange, ← hfwd]
    simp [Range.calls, Range.Next, Range.next, Range.first, RangeDB.Range, refKV, DB.Seek]

/-- A result of a range that yields the pairs `ps` and then `io.EOF` is the
end of the range or one of the pairs. -/
theorem yields_mem (t : Option Triple) :
    ∀ (n : Nat) (ps : List (Bytes × Bytes)), t ∈ yieldsThenEOF n ps →
      t = atEnd ∨ ∃ p ∈ ps, t = yielded p
  | 0, _, h => by simp [yieldsThenEOF] at h
  | n + 1, [], h => by
    simp only [yieldsThenEOF, List.mem_cons] at h
    rcases h with h | h
    · exact Or.inl h
    · exact yields_mem t n [] h
  | n + 1, p :: ps, h => by
    simp only [yieldsThenEOF, List.mem_cons] at h
    rcases h with h | h
    · exact Or.inr ⟨p, List.mem_cons_self _ _, h⟩
    · rcases yields_mem t n ps h with h | ⟨q, hq, h⟩
      · exact Or.inl h
      · exact Or.inr ⟨q, List.mem_cons_of_mem _ hq, h⟩

/-- Over a database with strictly ascending keys, every key a range returns,
forward or reverse, lies in `[min, max]`. -/
theorem calls_in_range (db : DB) (min max : Bytes) (rev : Bool) (n : Nat) (hs : db.Sorted)
    (k : Bytes) (v : Option Bytes) (e : Option Error)
    (h : some (some k, v, e) ∈ Range.calls refKV n (RangeDB.Range db min max rev)) :
    Compare min k ≤ 0 ∧ Compare k max ≤ 0 := by
  have hmem : ∀ ps : List (Bytes × Bytes), (∀ p ∈ ps, p ∈ db.inRange min max) →
      some (some k, v, e) ∈ yieldsThenEOF n ps → Compare min k ≤ 0 ∧ Compare k max ≤ 0 := by
    intro ps hps hy
    rcases yields_mem _ n ps hy with h1 | ⟨p, hp, h1⟩
    · simp [atEnd] at h1
    · have hin := hps p hp
      simp only [DB.inRange, List.mem_filter, Bool.and_eq_true, decide_eq_true_eq] at hin
      simp only [yielded, Option.some.injEq, Prod.mk.injEq] at h1
      rw [h1.1]
      exact hin.2
  cases rev with
  | false =>
    rw [forward_calls db min max n hs] at h
    exact hmem _ (fun p hp => hp) h
  | true =>
    by_cases hne : db.items = []
    · have hdb : db = ⟨[]⟩ := by cases db; simpa using hne
      subst hdb
      cases n with
      | zero => simp [Range.calls] at h
      | succ n =>
        simp [Range.calls, Range.Next, Range.next, Range.first, RangeDB.Range, refKV, DB.Seek,
          DB.SeekLast, Enumerator.Prev, Enumerator.cur] at h
    · rw [reverse_calls db min max n hs hne] at h
      exact hmem _ (fun p hp => List.mem_reverse.mp hp) h

/-- C25: the bounds of `Range.Next`. Over any database: when the underlying
enumerator yields no key, with `io.EOF` or with any other error, `Next`
returns `(nil, nil, io.EOF)`, and so it does when the key is past the bound
of the direction (above `Max` forward, below `Min` in reverse); every key
`Next` returns is within that bound. Over the reference database with
strictly ascending keys, every key a range returns, forward or reverse, lies
in `[Min, Max]`. -/
theorem range_next_bounds {D E : Type} (kv : KV D E) (r r1 : Range D E) (t : Triple)
    (k : Bytes) (v : Option Bytes) (e : Option Error) (db : DB) (min max : Bytes) (rev : Bool)
    (n : Nat) :
    (r.next kv = some (t, r1) → t.1 = none →
      r.Next kv = some ((none, none, some EOF), r1)) ∧
    (r.next kv = some (t, r1) → r.Reverse = false → t.1 = some k → Compare k r.Max > 0 →
      r.Next kv = some ((none, none, some EOF), r1)) ∧
    (r.next kv = some (t, r1) → r.Reverse = true → t.1 = some k → Compare k r.Min < 0 →
      r.Next kv = some ((none, none, some EOF), r1)) ∧
    (r.Next kv = some ((some k, v, e), r1) →
      (r.Reverse = false → Compare k r.Max ≤ 0) ∧ (r.Reverse = true → Compare k r.Min ≥ 0)) ∧
    (db.Sorted → some (some k, v, e) ∈ Range.calls refKV n (RangeDB.Range db min max rev) →
      Compare min k ≤ 0 ∧ Compare k max ≤ 0) := by
  refine ⟨?_, ?_, ?_, ?_, fun hs h => calls_in_range db min max rev n hs k v e h⟩
  · intro h hk
    obtain ⟨hrev, hmin, hmax, _⟩ := next_fields kv r r1 t h
    simp [Range.Next, h, Range.shouldContinue, hk]
  · intro h hrev hk hgt
    obtain ⟨hrev1, hmin, hmax, _⟩ := next_fields kv r r1 t h
    have hnot : ¬ Compare k r.Max ≤ 0 := by omega
    simp [Range.Next, h, Range.shouldContinue, hk, hrev1, hrev, hmax, hnot]
  · intro h hrev hk hlt
    obtain ⟨hrev1, hmin, hmax, _⟩ := next_fields kv r r1 t h
    have hnot : ¬ Compare k r.Min ≥ 0 := by omega
    simp [Range.Next, h, Range.shouldContinue, hk, hrev1, hrev, hmin, hnot]
  · intro h
    unfold Range.Next at h
    cases hn : r.next kv with
    | none => rw [hn] at h; simp at h
    | some x =>
      obtain ⟨t2, r2⟩ := x
      obtain ⟨hrev1, hmin, hmax, _⟩ := next_fields kv r r2 t2 hn
      rw [hn] at h
      simp only at h
      by_cases hc : r2.shouldContinue t2.1 = true
      · rw [if_pos hc] at h
        simp only [Option.some.injEq, Prod.mk.injEq] at h
        have hk : t2.1 = some k := by rw [h.1]
        rw [hk] at hc
        constructor
        · intro hrev
          simpa [Range.shouldContinue, hrev1, hrev, hmax] using hc
        · intro hrev
          simpa [Range.shouldContinue, hrev1, hrev, hmin] using hc
      · rw [if_neg hc] at h
        simp at h

/-- C25 at concrete inputs: an enumerator that fails with an error that is
not `io.EOF`; over the database `db4`, a forward range that meets a key above
`Max`, a reverse range that meets a key below `Min`, a call that returns a
key, and a key among the results of a reverse range. -/
theorem range_next_bounds_witness :
    ((RangeDB.Range () [1] [5] false : Range Unit Unit).Next errKV
      = some ((none, none, some EOF), ⟨false, [1], [5], (), some ()⟩)) ∧
    ((⟨false, [1], [2], db4, some ⟨db4.items, 2⟩⟩ : Range DB Enumerator).Next refKV
      = some ((none, none, some EOF), ⟨false, [1], [2], db4, some ⟨db4.items, 3⟩⟩)) ∧
    ((⟨true, [2], [4], db4, some ⟨db4.items, 0⟩⟩ : Range DB Enumerator).Next refKV
      = some ((none, none, some EOF), ⟨true, [2], [4], db4, some ⟨db4.items, -1⟩⟩)) ∧
    (Compare [1] [2] ≤ 0) ∧
    db4.Sorted ∧
    some (some [2], some [20], none) ∈ Range.calls refKV 5 (RangeDB.Range db4 [2] [3] true) ∧
    (Compare [2] [2] ≤ 0 ∧ Compare [2] [3] ≤ 0) :=
  ⟨(range_next_bounds errKV (RangeDB.Range () [1] [5] false) ⟨false, [1], [5], (), some ()⟩
      (none, none, some ⟨"read failed"⟩) [] none none db4 [] [] false 0).1 rfl rfl,
    (range_next_bounds refKV ⟨false, [1], [2], db4, some ⟨db4.items, 2⟩⟩
      ⟨false, [1], [2], db4, some ⟨db4.items, 3⟩⟩ (some [2, 0], some [21], none) [2, 0] none none
      db4 [] [] false 0).2.1 rfl rfl rfl (by decide),
    (range_next_bounds refKV ⟨true, [2], [4], db4, some ⟨db4.items, 0⟩⟩
      ⟨true, [2], [4], db4, some ⟨db4.items, -1⟩⟩ (some [1], some [10], none) [1] none none
      db4 [] [] false 0).2.2.1 rfl rfl rfl (by decide),
    ((range_next_bounds refKV ⟨false, [1], [2], db4, some ⟨db4.items, 0⟩⟩
      ⟨false, [1], [2], db4, some ⟨db4.items, 1⟩⟩ (some [1], some [10], none) [1] (some [10])
      none db4 [] [] false 0).2.2.2.1 rfl).1 rfl,
    by decide, by decide,
    (range_next_bounds refKV ⟨false, [1], [2], db4, some ⟨db4.items, 0⟩⟩
      ⟨false, [1], [2], db4, some ⟨db4.items, 1⟩⟩ (some [1], some [10], none) [2] (some [20])
      none db4 [2] [3] true 5).2.2.2.2 (by decide) (by decide)⟩

/-! ## Properties of `nextHexKey` -/

/-- The digits of `hextable` are in the order of their values, and
`fromHexChar` reads the value of a digit. -/
theorem hexDigit_facts :
    ∀ p < 16, fromHexChar (hexDigit p) = some p ∧
      ∀ q < 16, ((hexDigit p).toNat < (hexDigit q).toNat ↔ p < q) := by
  decide

/-- The value `fromHexChar` returns is below 16. -/
theorem fromHexChar_lt (c : Char) (x : Nat) (h : fromHexChar c = some x) : x < 16 := by
  unfold fromHexChar at h
  split_ifs at h <;> simp only [Option.some.injEq] at h <;> omega

/-- A string that decodes has two characters per byte, and its bytes are
below 256. -/
theorem hexDecode_facts :
    ∀ (l : List Char) (b : Bytes), hexDecode l = some b →
      l.length = 2 * b.length ∧ ∀ x ∈ b, x < 256
  | [], b, h => by
    simp only [hexDecode, Option.some.injEq] at h
    subst h
    simp
  | [_], b, h => by simp [hexDecode] at h
  | c1 :: c2 :: rest, b, h => by
    simp only [hexDecode] at h
    cases h1 : fromHexChar c1 with
    | none => simp [h1] at h
    | some x =>
      cases h2 : fromHexChar c2 with
      | none => simp [h1, h2] at h
      | some y =>
        cases h3 : hexDecode rest with
        | none => simp [h1, h2, h3] at h
        | some tl =>
          simp only [h1, h2, h3, Option.some.injEq] at h
          subst h
          obtain ⟨hlen, hb⟩ := hexDecode_facts rest tl h3
          have hx := fromHexChar_lt c1 x h1
          have hy := fromHexChar_lt c2 y h2
          refine ⟨by simp only [List.length_cons]; omega, ?_⟩
          intro z hz
          rcases List.mem_cons.mp hz with rfl | hz
          · omega
          · exact hb z hz

/-- The encoding has two characters per byte. -/
theorem hexEncode_length : ∀ (b : Bytes), (hexEncode b).length = 2 * b.length
  | [] => rfl
  | v :: rest => by
    simp only [hexEncode, List.length_cons, hexEncode_length rest]
    omega

/-- The little-endian value of bytes is below `256 ^ n` for `n` bytes. -/
theorem leValue_lt : ∀ (l : Bytes), (∀ x ∈ l, x < 256) → leValue l < 256 ^ l.length
  | [], _ => by simp [leValue]
  | x :: rest, h => by
    have hx := h x (List.mem_cons_self _ _)
    have hr := leValue_lt rest (fun y hy => h y (List.mem_cons_of_mem _ hy))
    simp only [leValue, List.length_cons, pow_succ]
    omega

/-- When some byte is not `0xff`, the little-endian value is not the
greatest of its length. -/
theorem leValue_succ_lt : ∀ (l : Bytes), (∀ x ∈ l, x < 256) → (∃ x ∈ l, x ≠ 255) →
    leValue l + 1 < 256 ^ l.length
  | [], _, h => by simp at h
  | x :: rest, hb, hne => by
    have hx := hb x (List.mem_cons_self _ _)
    have hbr : ∀ y ∈ rest, y < 256 := fun y hy => hb y (List.mem_cons_of_mem _ hy)
    have hr := leValue_lt rest hbr
    simp only [leValue, List.length_cons, pow_succ]
    by_cases hx255 : x = 255
    · have hne2 : ∃ y ∈ rest, y ≠ 255 := by
        obtain ⟨y, hy, hy2⟩ := hne
        rcases List.mem_cons.mp hy with rfl | hy
        · exact absurd hx255 hy2
        · exact ⟨y, hy, hy2⟩
      have := leValue_succ_lt rest hbr hne2
      omega
    · omega

/-- The loop of `nextHexKey` keeps the number of bytes and bytes below 256,
and adds one to the little-endian value, modulo `256 ^ n`. -/
theorem incrRev_facts : ∀ (l : Bytes), (∀ x ∈ l, x < 256) →
    (incrRev l).length = l.length ∧ (∀ x ∈ incrRev l, x < 256) ∧
    leValue (incrRev l) = (leValue l + 1) % 256 ^ l.length
  | [], _ => by simp [incrRev, leValue]
  | x :: rest, hb => by
    have hx := hb x (List.mem_cons_self _ _)
    have hbr : ∀ y ∈ rest, y < 256 := fun y hy => hb y (List.mem_cons_of_mem _ hy)
    have hr := leValue_lt rest hbr
    obtain ⟨hlen, hbytes, hval⟩ := incrRev_facts rest hbr
    by_cases hc : (x + 1) % 256 ≠ 0
    · have hrun : incrRev (x :: rest) = ((x + 1) % 256) :: rest := by
        simp only [incrRev]
        rw [if_pos hc]
      rw [hrun]
      refine ⟨rfl, ?_, ?_⟩
      · intro y hy
        rcases List.mem_cons.mp hy with rfl | hy
        · exact Nat.mod_lt _ (by norm_num)
        · exact hbr y hy
      · have h1 : (x + 1) % 256 = x + 1 := Nat.mod_eq_of_lt (by omega)
        simp only [leValue, List.length_cons, pow_succ]
        rw [h1, Nat.mod_eq_of_lt (by omega)]
        omega
    · have hx255 : x = 255 := by omega
      subst hx255
      have hrun : incrRev (255 :: rest) = 0 :: incrRev rest := by
        simp only [incrRev]
        rw [if_neg hc]
      rw [hrun]
      refine ⟨by simp [hlen], ?_, ?_⟩
      · intro y hy
        rcases List.mem_cons.mp hy with rfl | hy
        · norm_num
        · exact hbytes y hy
      · have h2 : 255 + 256 * leValue rest + 1 = 256 * (leValue rest + 1) := by omega
        simp only [leValue, List.length_cons, pow_succ, hval]
        rw [h2, Nat.mul_comm (256 ^ rest.length) 256, Nat.mul_mod_mul_left]
        omega

/-- The loop of `nextHexKey` on bytes that are all `0xff` gives zeros. -/
theorem incrRev_ff : ∀ (n : Nat), incrRev (List.replicate n 255) = List.replicate n 0
  | 0 => rfl
  | n + 1 => by
    simp only [List.replicate_succ, incrRev]
    rw [incrRev_ff n]
    rfl

/-- The big-endian value after a last byte. -/
theorem beValue_append (x : Nat) : ∀ (l : Bytes), beValue (l ++ [x]) = beValue l * 256 + x
  | [] => by simp [beValue]
  | y :: rest => by
    show y * 256 ^ (rest ++ [x]).length + beValue (rest ++ [x])
      = (y * 256 ^ rest.length + beValue rest) * 256 + x
    rw [beValue_append x rest, List.length_append, List.length_singleton, pow_succ]
    ring

/-- The big-endian value is the little-endian value of the reversed bytes. -/
theorem beValue_reverse : ∀ (l : Bytes), beValue l.reverse = leValue l
  | [] => rfl
  | x :: rest => by
    simp only [List.reverse_cons, beValue_append, beValue_reverse rest, leValue]
    omega

/-- The bytes after `nextHexKey`: as many, below 256, and of big-endian value
one more, modulo `256 ^ n`. -/
theorem incr_facts (b : Bytes) (hb : ∀ x ∈ b, x < 256) :
    (incr b).length = b.length ∧ (∀ x ∈ incr b, x < 256) ∧
    beValue (incr b) = (beValue b + 1) % 256 ^ b.length := by
  have hrev : ∀ x ∈ b.reverse, x < 256 := fun x hx => hb x (List.mem_reverse.mp hx)
  obtain ⟨hlen, hbytes, hval⟩ := incrRev_facts b.reverse hrev
  refine ⟨by simp [incr, hlen], ?_, ?_⟩
  · intro x hx
    exact hbytes x (List.mem_reverse.mp hx)
  · have h1 : beValue b = leValue b.reverse := by
      rw [← beValue_reverse, List.reverse_reverse]
    rw [incr, beValue_reverse, hval, h1, List.length_reverse]

/-- The big-endian value of bytes is below `256 ^ n` for `n` bytes. -/
theorem beValue_lt (l : Bytes) (h : ∀ x ∈ l, x < 256) : beValue l < 256 ^ l.length := by
  have h1 : beValue l = leValue l.reverse := by
    rw [← beValue_reverse, List.reverse_reverse]
  have := leValue_lt l.reverse (fun x hx => h x (List.mem_reverse.mp hx))
  rw [h1]
  simpa using this

/-- The order of `bytes.Compare` on the digits of two bytes, and then on what
follows, is the order of the bytes, and then of what follows. -/
theorem compare_byte (x y : Nat) (hx : x < 256) (hy : y < 256) (A B : Bytes) :
    Compare ((hexDigit (x / 16)).toNat :: (hexDigit (x % 16)).toNat :: A)
        ((hexDigit (y / 16)).toNat :: (hexDigit (y % 16)).toNat :: B)
      = if x < y then -1 else if y < x then 1 else Compare A B := by
  have h1 := (hexDigit_facts (x / 16) (by omega)).2 (y / 16) (by omega)
  have h2 := (hexDigit_facts (y / 16) (by omega)).2 (x / 16) (by omega)
  have h3 := (hexDigit_facts (x % 16) (by omega)).2 (y % 16) (by omega)
  have h4 := (hexDigit_facts (y % 16) (by omega)).2 (x % 16) (by omega)
  simp only [Compare, h1, h2, h3, h4]
  split_ifs <;> first | rfl | omega

/-- The order of `bytes.Compare` on the lower case encodings of two byte
strings of the same length is the order of their big-endian values. -/
theorem compare_hex : ∀ (a c : Bytes), a.length = c.length → (∀ x ∈ a, x < 256) →
    (∀ x ∈ c, x < 256) →
    (Compare ((hexEncode a).map Char.toNat) ((hexEncode c).map Char.toNat) < 0
      ↔ beValue a < beValue c)
  | [], [], _, _, _ => by simp [hexEncode, Compare, beValue]
  | [], _ :: _, h, _, _ => by simp at h
  | _ :: _, [], h, _, _ => by simp at h
  | x :: a, y :: c, h, ha, hc => by
    have hx := ha x (List.mem_cons_self _ _)
    have hy := hc y (List.mem_cons_self _ _)
    have har : ∀ z ∈ a, z < 256 := fun z hz => ha z (List.mem_cons_of_mem _ hz)
    have hcr : ∀ z ∈ c, z < 256 := fun z hz => hc z (List.mem_cons_of_mem _ hz)
    have hlen : a.length = c.length := by simpa using h
    have ih := compare_hex a c hlen har hcr
    have hva := beValue_lt a har
    have hvc := beValue_lt c hcr
    rw [hlen] at hva
    simp only [hexEncode, List.map_cons, compare_byte x y hx hy, beValue, hlen]
    by_cases hxy : x < y
    · have h1 : (x + 1) * 256 ^ c.length ≤ y * 256 ^ c.length :=
        Nat.mul_le_mul_right _ (by omega)
      rw [Nat.succ_mul] at h1
      simp only [hxy, if_true]
      constructor
      · intro _; omega
      · intro _; norm_num
    · by_cases hyx : y < x
      · have h1 : (y + 1) * 256 ^ c.length ≤ x * 256 ^ c.length :=
          Nat.mul_le_mul_right _ (by omega)
        rw [Nat.succ_mul] at h1
        simp only [hxy, hyx, if_true, if_false]
        constructor
        · intro h0; norm_num at h0
        · intro h0; omega
      · have heq : x = y := by omega
        subst heq
        simp only [hxy, if_false]
        rw [ih]
        omega

/-- The encoding of zeros is a string of the character `0`. -/
theorem hexEncode_zeros : ∀ (n : Nat),
    hexEncode (List.replicate n 0) = List.replicate (2 * n) '0'
  | 0 => rfl
  | n + 1 => by
    have h : 2 * (n + 1) = (2 * n + 1) + 1 := by omega
    rw [h, List.replicate_succ, List.replicate_succ, List.replicate_succ, hexEncode,
      hexEncode_zeros n]
    rfl

/-- The big-endian value of zeros is zero. -/
theorem beValue_zeros : ∀ (n : Nat), beValue (List.replicate n 0) = 0
  | 0 => rfl
  | n + 1 => by
    rw [List.replicate_succ, beValue, beValue_zeros n]
    simp

/-- C24: `nextHexKey`. For a key that decodes as the bytes `b`, `nextHexKey`
returns the lower case encoding of the bytes `incr b`: as many bytes, so a
string of the same length, of big-endian value `(v + 1) mod 256 ^ n`, where
`v` is the value of `b`. For a lower case key whose bytes are not all `0xff`
the value is `v + 1`, the result is greater than the key, and no lower case
encoding of as many bytes lies strictly between the key and the result. For a
non-empty key whose bytes are all `0xff` the result is a string of zeros,
which is smaller than the lower case key. -/
theorem nextHexKey_next (key : String) (b : Bytes) (hdec : hexDecode key.toList = some b) :
    nextHexKey key = some (String.mk (hexEncode (incr b))) ∧
    (incr b).length = b.length ∧ (∀ x ∈ incr b, x < 256) ∧
    beValue (incr b) = (beValue b + 1) % 256 ^ b.length ∧
    (hexEncode (incr b)).length = key.length ∧
    (key.toList = hexEncode b → (∃ x ∈ b, x ≠ 255) →
      beValue (incr b) = beValue b + 1 ∧
      strLess key (String.mk (hexEncode (incr b))) ∧
      ∀ c : Bytes, c.length = b.length → (∀ x ∈ c, x < 256) →
        ¬ (strLess key (String.mk (hexEncode c)) ∧
            strLess (String.mk (hexEncode c)) (String.mk (hexEncode (incr b))))) ∧
    (b ≠ [] → (∀ x ∈ b, x = 255) →
      hexEncode (incr b) = List.replicate key.length '0' ∧
      (key.toList = hexEncode b → strLess (String.mk (hexEncode (incr b))) key)) := by
  obtain ⟨hklen, hb⟩ := hexDecode_facts key.toList b hdec
  obtain ⟨hlen, hbytes, hval⟩ := incr_facts b hb
  have hkey : key.length = 2 * b.length := hklen
  refine ⟨by unfold nextHexKey; rw [hdec], hlen, hbytes, hval, ?_, ?_, ?_⟩
  · rw [hexEncode_length, hlen, hkey]
  · intro hlow hne
    have hsucc : beValue b + 1 < 256 ^ b.length := by
      have h1 : beValue b = leValue b.reverse := by
        rw [← beValue_reverse, List.reverse_reverse]
      have h2 := leValue_succ_lt b.reverse (fun x hx => hb x (List.mem_reverse.mp hx))
        (by
          obtain ⟨x, hx, hx2⟩ := hne
          exact ⟨x, List.mem_reverse.mpr hx, hx2⟩)
      rw [h1]
      simpa using h2
    have hv : beValue (incr b) = beValue b + 1 := by
      rw [hval, Nat.mod_eq_of_lt hsucc]
    have hless : ∀ (c : Bytes), c.length = b.length → (∀ x ∈ c, x < 256) →
        (strLess key (String.mk (hexEncode c)) ↔ beValue b < beValue c) := by
      intro c hc hcb
      unfold strLess strBytes
      rw [hlow]
      exact compare_hex b c hc.symm hb hcb
    refine ⟨hv, ?_, ?_⟩
    · rw [hless (incr b) hlen hbytes, hv]
      omega
    · intro c hc hcb hbetween
      have h1 := (hless c hc hcb).mp hbetween.1
      have h2 : beValue c < beValue (incr b) := by
        have := hbetween.2
        unfold strLess strBytes at this
        exact (compare_hex c (incr b) (hc.trans hlen.symm) hcb hbytes).mp this
      omega
  · intro hne hff
    have hrep : b = List.replicate b.length 255 :=
      List.eq_replicate_iff.mpr ⟨rfl, hff⟩
    have hincr : incr b = List.replicate b.length 0 := by
      rw [incr, hrep, List.reverse_replicate, incrRev_ff, List.reverse_replicate,
        List.length_replicate]
    refine ⟨by rw [hincr, hexEncode_zeros, hkey], ?_⟩
    intro hlow
    have hlt : beValue (incr b) < beValue b := by
      rw [hincr, beValue_zeros]
      cases b with
      | nil => exact absurd rfl hne
      | cons x rest =>
        have hx : x = 255 := hff x (List.mem_cons_self _ _)
        subst hx
        simp only [beValue]
        positivity
    unfold strLess strBytes
    rw [hlow]
    exact (compare_hex (incr b) b hlen hbytes hb).mpr hlt

/-- C24 at concrete inputs: the key `00ff`, whose successor is `0100`, and
the key `ffff`, which wraps to `0000`. -/
theorem nextHexKey_next_witness :
    hexDecode "00ff".toList = some [0, 255] ∧
    nextHexKey "00ff" = some (String.mk (hexEncode (incr [0, 255]))) ∧
    String.mk (hexEncode (incr [0, 255])) = "0100" ∧
    "00ff".toList = hexEncode [0, 255] ∧ (∃ x ∈ [0, 255], x ≠ 255) ∧
    beValue (incr [0, 255]) = beValue [0, 255] + 1 ∧
    strLess "00ff" (String.mk (hexEncode (incr [0, 255]))) ∧
    hexDecode "ffff".toList = some [255, 255] ∧
    hexEncode (incr [255, 255]) = List.replicate "ffff".length '0' ∧
    strLess (String.mk (hexEncode (incr [255, 255]))) "ffff" :=
  ⟨by decide,
    (nextHexKey_next "00ff" [0, 255] (by decide)).1,
    by decide, by decide, by decide,
    ((nextHexKey_next "00ff" [0, 255] (by decide)).2.2.2.2.2.1 (by decide) (by decide)).1,
    ((nextHexKey_next "00ff" [0, 255] (by decide)).2.2.2.2.2.1 (by decide) (by decide)).2.1,
    by decide,
    ((nextHexKey_next "ffff" [255, 255] (by decide)).2.2.2.2.2.2 (by decide) (by decide)).1,
    ((nextHexKey_next "ffff" [255, 255] (by decide)).2.2.2.2.2.2 (by decide) (by decide)).2
      (by decide)⟩

/-! ## Properties of the file writer of the client -/

/-- The recorded offsets of commands sent one after the other. -/
theorem laddsOf_append : ∀ (a b : List DbCall), laddsOf (a ++ b) = laddsOf a ++ laddsOf b
  | [], b => rfl
  | c :: a, b => by
    cases c <;> simp [laddsOf, laddsOf_append a b]

/-- What a flush that returns has done: the size grew by the length of the
buffer, one more blob is counted, the buffer was written to `fullHash`, and
the commands sent record, with `LADD`, the new size and the digest of the
buffer, once. -/
theorem flush_ret {W : Type} (cl : Client W) (key : String) (s s1 : FwSys W)
    (wr wr1 : WriteResult) (full full1 buf : Bytes)
    (h : cl.flush key s wr full buf = (.ret (wr1, full1), s1)) :
    wr1.Size = wr.Size + buf.length ∧ wr1.BlobsCnt = wr.BlobsCnt + 1 ∧ full1 = full ++ buf ∧
    ∃ new, s1.calls = s.calls ++ new ∧ laddsOf new = [(wr.Size + buf.length, cl.SHA1 buf)] := by
  unfold Client.flush at h
  cases hex : (cl.con.BEXISTS s.world (cl.SHA1 buf)).1 with
  | error e => simp [hex] at h
  | ok found =>
    cases found with
    | true =>
      simp only [hex, Bool.not_true, Bool.false_eq_true, if_false, Prod.mk.injEq,
        Outcome.ret.injEq] at h
      obtain ⟨⟨hwr, hfull⟩, hs⟩ := h
      subst hwr hfull hs
      refine ⟨rfl, rfl, rfl, _, by simp only [FwSys.call, List.append_assoc]; rfl, ?_⟩
      simp [laddsOf]
    | false =>
      simp only [hex, Bool.not_false, if_true] at h
      cases hp : (cl.con.BPUT (s.call (.bexists (cl.SHA1 buf) (.ok false))
          (cl.con.BEXISTS s.world (cl.SHA1 buf)).2).world buf).1 with
      | error e => simp [hp] at h
      | ok rsha =>
        simp only [hp] at h
        by_cases hr : rsha ≠ cl.SHA1 buf
        · simp [hr] at h
        · simp only [hr, if_false, Prod.mk.injEq, Outcome.ret.injEq] at h
          obtain ⟨⟨hwr, hfull⟩, hs⟩ := h
          subst hwr hfull hs
          refine ⟨rfl, rfl, rfl, _, by simp only [FwSys.call, List.append_assoc]; rfl, ?_⟩
          simp [laddsOf]

/-- Over the reference server, a flush returns. -/
theorem flush_ref (cl : Client (List (String × Bytes))) (hcon : cl.con = refConn cl.SHA1)
    (key : String) (s : FwSys (List (String × Bytes))) (wr : WriteResult) (full buf : Bytes) :
    ∃ wr1 s1, cl.flush key s wr full buf = (.ret (wr1, full ++ buf), s1) := by
  unfold Client.flush
  rw [hcon]
  cases hf : (List.lookup (cl.SHA1 buf) s.world).isSome <;>
    simp [refConn, hf, FwSys.call]

/-- With a rolling checksum that never signals a split, the loop reads a file
that does not fill the buffer and flushes it at the end of the file. -/
theorem fileLoop_fill {W : Type} (cl : Client W) (hsplit : cl.onSplit = fun _ => false)
    (key : String) (lo hi : Nat) :
    ∀ (rest hist buf : Bytes) (wr : WriteResult) (full : Bytes) (s : FwSys W),
      buf.length + rest.length < hi →
      cl.fileLoop key lo hi rest hist buf wr full s = cl.flush key s wr full (buf ++ rest) := by
  intro rest
  induction rest with
  | nil => intro hist buf wr full s _; simp [Client.fileLoop]
  | cons b rest ih =>
    intro hist buf wr full s hlen
    have hcond : ¬ ((cl.onSplit (hist ++ [b]) = true ∧ (buf ++ [b]).length > lo) ∨
        (buf ++ [b]).length ≥ hi) := by
      simp only [hsplit, List.length_append, List.length_singleton, List.length_cons, List.length_nil] at hlen ⊢
      intro h
      rcases h with ⟨h, _⟩ | h
      · exact absurd h (by simp)
      · omega
    simp only [Client.fileLoop]
    rw [if_neg hcond, ih (hist ++ [b]) (buf ++ [b]) wr full s
      (by simp only [List.length_append, List.length_singleton, List.length_cons, List.length_nil] at hlen ⊢
          omega)]
    simp

/-- With a rolling checksum that never signals a split, a file that fills the
buffer exactly is flushed at its last byte, and then the empty buffer is
flushed at the end of the file. -/
theorem fileLoop_exact {W : Type} (cl : Client W) (hsplit : cl.onSplit = fun _ => false)
    (key : String) (lo hi : Nat) :
    ∀ (rest hist buf : Bytes) (wr : WriteResult) (full : Bytes) (s : FwSys W),
      rest ≠ [] → buf.length + rest.length = hi →
      cl.fileLoop key lo hi rest hist buf wr full s
        = match cl.flush key s wr full (buf ++ rest) with
          | (.panic, s1) => (.panic, s1)
          | (.ret (wr1, full1), s1) => cl.flush key s1 wr1 full1 [] := by
  intro rest
  induction rest with
  | nil => intro hist buf wr full s hne; exact absurd rfl hne
  | cons b rest ih =>
    intro hist buf wr full s _ hlen
    cases rest with
    | nil =>
      have hcond : (cl.onSplit (hist ++ [b]) = true ∧ (buf ++ [b]).length > lo) ∨
          (buf ++ [b]).length ≥ hi := by
        right
        simp only [List.length_append, List.length_singleton, List.length_cons,
          List.length_nil] at hlen ⊢
        omega
      simp only [Client.fileLoop]
      rw [if_pos hcond]
    | cons c rest2 =>
      have hcond : ¬ ((cl.onSplit (hist ++ [b]) = true ∧ (buf ++ [b]).length > lo) ∨
          (buf ++ [b]).length ≥ hi) := by
        simp only [hsplit, List.length_append, List.length_singleton, List.length_cons, List.length_nil]
          at hlen ⊢
        intro h
        rcases h with ⟨h, _⟩ | h
        · exact absurd h (by simp)
        · omega
      rw [Client.fileLoop, if_neg hcond, ih (hist ++ [b]) (buf ++ [b]) wr full s (by simp)
        (by simp only [List.length_append, List.length_singleton, List.length_cons, List.length_nil] at hlen ⊢
            omega)]
      simp

/-- C27, at the failing input: a file of exactly 1 MiB, with a rolling
checksum that never signals a split, written to the reference server. The
buffer is flushed when it holds 1 MiB, at the last byte of the file, and the
empty buffer is flushed again at the end of the file: `FileWriter` returns
without error, counts two blobs, and records with `LADD` the offset 1048576
twice, first with the digest of the file and then with the digest of the
empty chunk. -/
theorem fileWriter_eof_offset (cl : Client (List (String × Bytes)))
    (s : FwSys (List (String × Bytes))) (txID key path : String) (data : Bytes)
    (hcon : cl.con = refConn cl.SHA1) (hsplit : cl.onSplit = fun _ => false)
    (hopen : cl.Open path = .ok data) (hlen : data.length = 1 <<< 20) :
    ∃ wr, (cl.FileWriter s txID key path).1 = .ret (wr, none) ∧
      wr.Size = 1048576 ∧ wr.BlobsCnt = 2 ∧
      laddsOf ((cl.FileWriter s txID key path).2.calls.drop s.calls.length)
        = [(1048576, cl.SHA1 data), (1048576, cl.SHA1 [])] := by
  have hne : data ≠ [] := by
    intro h
    rw [h] at hlen
    exact absurd hlen (by decide)
  have htx : cl.con.TXINIT s.world txID = (none, s.world) := by rw [hcon]; rfl
  obtain ⟨wr1, t1, hf1⟩ := flush_ref cl hcon key (s.call (.txinit txID none) s.world)
    WriteResult.zero [] ([] ++ data)
  obtain ⟨wr2, t2, hf2⟩ := flush_ref cl hcon key t1 wr1 ([] ++ ([] ++ data)) []
  obtain ⟨hsz1, hcnt1, _, new1, hc1, hl1⟩ := flush_ret cl key _ t1 _ wr1 _ _ _ hf1
  obtain ⟨hsz2, hcnt2, _, new2, hc2, hl2⟩ := flush_ret cl key _ t2 _ wr2 _ _ _ hf2
  have hloop := fileLoop_exact cl hsplit key (64 <<< 10) (1 <<< 20) data [] []
    WriteResult.zero [] (s.call (.txinit txID none) s.world) hne (by simpa using hlen)
  rw [hf1] at hloop
  simp only at hloop
  rw [hf2] at hloop
  have hrun : cl.FileWriter s txID key path
      = (.ret ({ wr2 with Hash := cl.fullSum ([] ++ ([] ++ data) ++ []) }, none), t2) := by
    simp only [Client.FileWriter, hopen, htx, hloop]
  have hdl : ((data.length : Nat) : Int) = 1048576 := by
    rw [hlen]
    rfl
  rw [hrun]
  refine ⟨_, rfl, ?_, ?_, ?_⟩
  · simp only [hsz2, hsz1, WriteResult.zero, List.nil_append, List.length_nil, hdl]
    norm_num
  · simp only [hcnt2, hcnt1, WriteResult.zero]
    norm_num
  · have hcalls : t2.calls = s.calls ++ ([.txinit txID none] ++ new1 ++ new2) := by
      rw [hc2, hc1]
      simp [FwSys.call, List.append_assoc]
    simp only [List.nil_append] at hl1 hsz1
    rw [hcalls, List.drop_left, laddsOf_append, laddsOf_append, hl1, hl2, hsz1, hdl]
    simp [laddsOf, WriteResult.zero]

/-- Witness of the failing input of C27: the file of 1 MiB of zero bytes. -/
theorem fileWriter_eof_offset_witness :
    (clientOf fileMiB).con = refConn (clientOf fileMiB).SHA1 ∧
    (clientOf fileMiB).onSplit = (fun _ => false) ∧
    (clientOf fileMiB).Open "f" = .ok fileMiB ∧
    fileMiB.length = 1 <<< 20 ∧
    ∃ wr, ((clientOf fileMiB).FileWriter ⟨[], []⟩ "tx" "k" "f").1 = .ret (wr, none) ∧
      wr.Size = 1048576 ∧ wr.BlobsCnt = 2 ∧
      laddsOf (((clientOf fileMiB).FileWriter ⟨[], []⟩ "tx" "k" "f").2.calls.drop
          (⟨[], []⟩ : FwSys (List (String × Bytes))).calls.length)
        = [(1048576, (clientOf fileMiB).SHA1 fileMiB), (1048576, (clientOf fileMiB).SHA1 [])] :=
  ⟨rfl, rfl, rfl, List.length_replicate _ _,
    fileWriter_eof_offset (clientOf fileMiB) ⟨[], []⟩ "tx" "k" "f" fileMiB rfl rfl rfl
      (List.length_replicate _ _)⟩

/-- What the loop of `FileWriter` has done when it returns, over any
connection and for any split signal: the chunks flushed, in order, make up
the buffer and the bytes read; every chunk is at most `hi` long and every
chunk but the last is not empty; the size grew by the number of bytes, which
were written to `fullHash`; and `LADD` recorded, for every chunk in order,
the size after the chunk and its digest. -/
theorem fileLoop_chunks {W : Type} (cl : Client W) (key : String) (lo hi : Nat) (hhi : 0 < hi) :
    ∀ (rest hist buf : Bytes) (wr : WriteResult) (full : Bytes) (s : FwSys W)
      (wr1 : WriteResult) (full1 : Bytes) (s1 : FwSys W), buf.length < hi →
      cl.fileLoop key lo hi rest hist buf wr full s = (.ret (wr1, full1), s1) →
      ∃ chunks : List Bytes, chunks ≠ [] ∧ chunks.flatten = buf ++ rest ∧
        full1 = full ++ (buf ++ rest) ∧
        wr1.Size = wr.Size + ((buf ++ rest).length : Nat) ∧
        (∃ new, s1.calls = s.calls ++ new ∧
          laddsOf new = laddOffsets cl.SHA1 wr.Size chunks) ∧
        (∀ c ∈ chunks, c.length ≤ hi) ∧ (∀ c ∈ chunks.dropLast, 0 < c.length) := by
  intro rest
  induction rest with
  | nil =>
    intro hist buf wr full s wr1 full1 s1 hbuf h
    simp only [Client.fileLoop] at h
    obtain ⟨hsz, _, hfull, new, hc, hl⟩ := flush_ret cl key s s1 wr wr1 full full1 buf h
    refine ⟨[buf], by simp, by simp, by simpa using hfull, by simpa using hsz,
      ⟨new, hc, by simpa [laddOffsets] using hl⟩, ?_, by simp⟩
    intro c hc2
    rw [List.mem_singleton.mp hc2]
    omega
  | cons b rest ih =>
    intro hist buf wr full s wr1 full1 s1 hbuf h
    by_cases hcond : (cl.onSplit (hist ++ [b]) = true ∧ (buf ++ [b]).length > lo) ∨
        (buf ++ [b]).length ≥ hi
    · rw [Client.fileLoop, if_pos hcond] at h
      cases hf : cl.flush key s wr full (buf ++ [b]) with
      | mk o s2 =>
        rw [hf] at h
        cases o with
        | panic => simp at h
        | ret x =>
          obtain ⟨wr2, full2⟩ := x
          simp only at h
          obtain ⟨hsz, _, hfull, new, hc, hl⟩ :=
            flush_ret cl key s s2 wr wr2 full full2 (buf ++ [b]) hf
          obtain ⟨chunks, hne, hflat, hfull1, hsz1, ⟨new2, hc2, hl2⟩, hmax, hpos⟩ :=
            ih (hist ++ [b]) [] wr2 full2 s2 wr1 full1 s1 hhi h
          refine ⟨(buf ++ [b]) :: chunks, by simp, ?_, ?_, ?_, ⟨new ++ new2, ?_, ?_⟩, ?_, ?_⟩
          · simp [hflat]
          · rw [hfull1, hfull]
            simp
          · rw [hsz1, hsz]
            simp only [List.nil_append, List.length_append, List.length_cons, List.length_nil]
            push_cast
            ring
          · rw [hc2, hc, List.append_assoc]
          · rw [laddsOf_append, hl, hl2, hsz]
            rfl
          · intro c hc3
            rcases List.mem_cons.mp hc3 with rfl | hc3
            · simp only [List.length_append, List.length_singleton]
              omega
            · exact hmax c hc3
          · intro c hc3
            rcases mem_dropLast_cons _ _ _ hc3 with rfl | hc3
            · simp
            · exact hpos c hc3
    · rw [Client.fileLoop, if_neg hcond] at h
      have hlt : (buf ++ [b]).length < hi := by
        by_contra hge
        exact hcond (Or.inr (by omega))
      obtain ⟨chunks, hne, hflat, hfull1, hsz1, hnew, hmax, hpos⟩ :=
        ih (hist ++ [b]) (buf ++ [b]) wr full s wr1 full1 s1 hlt h
      refine ⟨chunks, hne, by simpa using hflat, by simpa using hfull1, ?_, hnew, hmax, hpos⟩
      rw [hsz1]
      simp

/-! ## Properties of the restore of a directory -/

/-- More calls show what fewer calls show. -/
theorem Restored.more {W : Type} (env : DirEnv W) (tr tr2 : List DirCall)
    (hsub : ∀ c ∈ tr, c ∈ tr2) :
    ∀ (depth : Nat) (hash path : String),
      Restored env tr depth hash path → Restored env tr2 depth hash path := by
  intro depth
  induction depth with
  | zero => intro hash path h; exact h
  | succ d ih =>
    intro hash path h
    obtain ⟨js, cmeta, hmk, hget, hdec, hch⟩ := h
    refine ⟨js, cmeta, hsub _ hmk, hsub _ hget, hdec, ?_⟩
    intro hsize ref href
    obtain ⟨h, blob, e, sub, hstr, hg, hd, hfile, hdir⟩ := hch hsize ref href
    exact ⟨h, blob, e, sub, hstr, hsub _ hg, hd, fun hk => hsub _ (hfile hk),
      fun hk => ih _ _ (hdir hk)⟩

/-- When the loop of `GetDir` returns `nil`, none of its calls failed and the
calls show for every ref that it is a string and that the child was fetched,
decoded and materialized. -/
theorem dirLoop_restored {W : Type} (env : DirEnv W) (depth : Nat)
    (rec : DirSys W → String → String → Option (Outcome (Option Error) × DirSys W))
    (hrec : ∀ s h p s2, rec s h p = some (.ret none, s2) →
      ∃ new, s2.trace = s.trace ++ new ∧ Restored env new depth h p ∧ ∀ c ∈ new, c.ok env)
    (path : String) :
    ∀ (refs : List Ref) (s s2 : DirSys W),
      dirLoop env rec path refs s = some (.ret none, s2) →
      ∃ new, s2.trace = s.trace ++ new ∧ (∀ c ∈ new, c.ok env) ∧
        ∀ ref ∈ refs, ∃ h blob e sub, ref = .str h ∧
          DirCall.get h blob e ∈ new ∧ env.NewNodeFromBlob h blob = .ok sub ∧
          (sub.Kind = "file" →
            DirCall.getFile sub.Hash (env.Join path sub.Name) none ∈ new) ∧
          (sub.Kind ≠ "file" → Restored env new depth sub.Hash (env.Join path sub.Name)) := by
  intro refs
  induction refs with
  | nil =>
    intro s s2 h
    simp only [dirLoop, Option.some.injEq, Prod.mk.injEq, true_and] at h
    subst h
    exact ⟨[], by simp, by simp, by simp⟩
  | cons ref rest ih =>
    intro s s2 h
    cases ref with
    | pair i x => simp [dirLoop] at h
    | str x =>
      simp only [dirLoop] at h
      cases hdec : env.NewNodeFromBlob x (env.Get s.world x).1.1 with
      | error err => simp [hdec] at h
      | ok sub =>
        simp only [hdec] at h
        by_cases hk : sub.Kind = "file"
        · simp only [hk, if_true] at h
          cases hr : (env.GetFile (env.fetched s x).world sub.Hash
              (env.Join path sub.Name)).1 with
          | some err => simp [hr] at h
          | none =>
            simp only [hr] at h
            obtain ⟨new, htr, hok, hall⟩ := ih _ s2 h
            refine ⟨[.get x (env.Get s.world x).1.1 (env.Get s.world x).1.2,
              .getFile sub.Hash (env.Join path sub.Name) none] ++ new, ?_, ?_, ?_⟩
            · rw [htr]
              simp only [DirEnv.written, DirSys.call, hr]
              simp [DirEnv.fetched, DirSys.call, List.append_assoc]
            · intro c hc
              simp only [List.cons_append, List.nil_append, List.mem_cons] at hc
              rcases hc with rfl | rfl | hc
              · exact ⟨sub, hdec⟩
              · rfl
              · exact hok c hc
            · intro r hr2
              rcases List.mem_cons.mp hr2 with rfl | hr2
              · exact ⟨x, (env.Get s.world x).1.1, (env.Get s.world x).1.2, sub, rfl, by simp,
                  hdec, fun _ => by simp, fun hne => absurd hk hne⟩
              · obtain ⟨y, blob, e, sub2, hstr, hg, hd, hfile, hdir⟩ := hall r hr2
                exact ⟨y, blob, e, sub2, hstr, List.mem_append_right _ hg, hd,
                  fun hk2 => List.mem_append_right _ (hfile hk2),
                  fun hk2 => Restored.more env new _ (fun c hc => List.mem_append_right _ hc)
                    _ _ _ (hdir hk2)⟩
        · simp only [hk, if_false] at h
          cases hr : rec (env.fetched s x) sub.Hash (env.Join path sub.Name) with
          | none => simp [hr] at h
          | some r =>
            obtain ⟨o, s3⟩ := r
            cases o with
            | panic => simp [hr] at h
            | ret e =>
              cases e with
              | some err => simp [hr] at h
              | none =>
                simp only [hr] at h
                obtain ⟨new1, htr1, hres, hok1⟩ := hrec _ _ _ _ hr
                obtain ⟨new, htr, hok, hall⟩ := ih _ s2 h
                refine ⟨[.get x (env.Get s.world x).1.1 (env.Get s.world x).1.2]
                  ++ new1 ++ new, ?_, ?_, ?_⟩
                · rw [htr, htr1]
                  simp [DirEnv.fetched, DirSys.call, List.append_assoc]
                · intro c hc
                  simp only [List.cons_append, List.nil_append, List.mem_cons,
                    List.mem_append] at hc
                  rcases hc with rfl | hc | hc
                  · exact ⟨sub, hdec⟩
                  · exact hok1 c hc
                  · exact hok c hc
                · intro r hr2
                  rcases List.mem_cons.mp hr2 with rfl | hr2
                  · refine ⟨x, (env.Get s.world x).1.1, (env.Get s.world x).1.2, sub, rfl,
                      by simp, hdec, fun hk2 => absurd hk2 hk, fun _ => ?_⟩
                    exact Restored.more env new1 _
                      (fun c hc => List.mem_append_left _ (List.mem_append_right _ hc)) _ _ _ hres
                  · obtain ⟨y, blob, e, sub2, hstr, hg, hd, hfile, hdir⟩ := hall r hr2
                    exact ⟨y, blob, e, sub2, hstr, List.mem_append_right _ hg, hd,
                      fun hk2 => List.mem_append_right _ (hfile hk2),
                      fun hk2 => Restored.more env new _ (fun c hc => List.mem_append_right _ hc)
                        _ _ _ (hdir hk2)⟩

/-- When `GetDir` returns `nil`, none of its calls failed and the calls show
that the directory was restored. -/
theorem getDir_restored {W : Type} (env : DirEnv W) :
    ∀ (fuel : Nat) (s : DirSys W) (hash path : String) (s2 : DirSys W),
      GetDir env fuel s hash path = some (.ret none, s2) →
      ∃ new, s2.trace = s.trace ++ new ∧ Restored env new fuel hash path ∧
        ∀ c ∈ new, c.ok env := by
  intro fuel
  induction fuel with
  | zero => intro s hash path s2 h; simp [GetDir] at h
  | succ fuel ih =>
    intro s hash path s2 h
    simp only [GetDir] at h
    cases hm : (env.Mkdir s.world path).1 with
    | some err => simp [hm] at h
    | none =>
      simp only [hm] at h
      cases hg : (env.Get (env.made s path).world hash).1.2 with
      | some err => simp [hg] at h
      | none =>
        simp only [hg] at h
        cases hdec : env.NewNodeFromBlob hash (env.Get (env.made s path).world hash).1.1 with
        | error err => simp [hdec] at h
        | ok cmeta =>
          simp only [hdec] at h
          have htr0 : (env.fetched (env.made s path) hash).trace = s.trace ++
              [.mkdir path none, .get hash (env.Get (env.made s path).world hash).1.1 none] := by
            simp only [DirEnv.fetched, DirSys.call, hg]
            simp [DirEnv.made, DirSys.call, hm, List.append_assoc]
          by_cases hsize : cmeta.Size > 0
          · rw [if_pos hsize] at h
            obtain ⟨new, htr, hok, hall⟩ := dirLoop_restored env fuel (GetDir env fuel) ih path
              cmeta.Refs _ s2 h
            refine ⟨[.mkdir path none, .get hash
                (env.Get (env.made s path).world hash).1.1 none] ++ new, ?_,
              ⟨(env.Get (env.made s path).world hash).1.1, cmeta, by simp, by simp, hdec, ?_⟩,
              ?_⟩
            · rw [htr, htr0, List.append_assoc]
            · intro _ ref href
              obtain ⟨y, blob, e, sub, hstr, hg2, hd, hfile, hdir⟩ := hall ref href
              exact ⟨y, blob, e, sub, hstr, List.mem_append_right _ hg2, hd,
                fun hk => List.mem_append_right _ (hfile hk),
                fun hk => Restored.more env new _ (fun c hc => List.mem_append_right _ hc)
                  _ _ _ (hdir hk)⟩
            · intro c hc
              simp only [List.cons_append, List.nil_append, List.mem_cons] at hc
              rcases hc with rfl | rfl | hc
              · rfl
              · exact ⟨cmeta, hdec⟩
              · exact hok c hc
          · rw [if_neg hsize] at h
            simp only [Option.some.injEq, Prod.mk.injEq, true_and] at h
            subst h
            refine ⟨[.mkdir path none, .get hash
                (env.Get (env.made s path).world hash).1.1 none], htr0,
              ⟨(env.Get (env.made s path).world hash).1.1, cmeta, by simp, by simp, hdec,
                fun hpos => absurd hpos hsize⟩, ?_⟩
            intro c hc
            simp only [List.mem_cons, List.mem_singleton, List.not_mem_nil, or_false] at hc
            rcases hc with rfl | rfl
            · rfl
            · exact ⟨cmeta, hdec⟩

/-- When no `GetFile` fails, every ref is a string and every child decodes,
the loop of `GetDir` returns `nil`, if the recursive call does for the
directories among the children. -/
theorem dirLoop_total {W : Type} (env : DirEnv W) (content : String → Bytes) (depth : Nat)
    (hF : ∀ w h p, (env.GetFile w h p).1 = none)
    (hG : ∀ w h, (env.Get w h).1.1 = content h)
    (rec : DirSys W → String → String → Option (Outcome (Option Error) × DirSys W))
    (hrec : ∀ s h p, WellStored env content depth h → ∃ s2, rec s h p = some (.ret none, s2))
    (path : String) :
    ∀ (refs : List Ref) (s : DirSys W),
      (∀ ref ∈ refs, ∃ h sub, ref = .str h ∧ env.NewNodeFromBlob h (content h) = .ok sub ∧
        (sub.Kind ≠ "file" → WellStored env content depth sub.Hash)) →
      ∃ s2, dirLoop env rec path refs s = some (.ret none, s2) := by
  intro refs
  induction refs with
  | nil => intro s _; exact ⟨s, rfl⟩
  | cons ref rest ih =>
    intro s hall
    obtain ⟨x, sub, hstr, hdec, hdir⟩ := hall ref (List.mem_cons_self _ _)
    have hrest := fun r hr => hall r (List.mem_cons_of_mem _ hr)
    subst hstr
    simp only [dirLoop, hG, hdec]
    by_cases hk : sub.Kind = "file"
    · simp only [hk, if_true, hF]
      exact ih _ hrest
    · simp only [hk, if_false]
      obtain ⟨s3, hr⟩ := hrec (env.fetched s x) sub.Hash (env.Join path sub.Name) (hdir hk)
      rw [hr]
      exact ih _ hrest

/-- When no `Mkdir` and no `GetFile` fails and the blob store holds a
directory node whose refs are strings and whose children decode, down to
`depth` levels, `GetDir` with fuel `depth` returns `nil`. -/
theorem getDir_total {W : Type} (env : DirEnv W) (content : String → Bytes)
    (hM : ∀ w p, (env.Mkdir w p).1 = none)
    (hF : ∀ w h p, (env.GetFile w h p).1 = none)
    (hG : ∀ w h, (env.Get w h).1.1 = content h) :
    ∀ (depth : Nat) (s : DirSys W) (hash path : String),
      WellStored env content depth hash →
      ∃ s2, GetDir env depth s hash path = some (.ret none, s2) := by
  intro depth
  induction depth with
  | zero => intro s hash path h; exact absurd h id
  | succ d ih =>
    intro s hash path h
    obtain ⟨hget, cmeta, hdec, hch⟩ := h
    simp only [GetDir, hM, hget, hG, hdec]
    by_cases hsize : cmeta.Size > 0
    · rw [if_pos hsize]
      exact dirLoop_total env content d hF hG (GetDir env d) (fun s h p hw => ih s h p hw) path
        cmeta.Refs _ (hch hsize)
    · rw [if_neg hsize]
      exact ⟨_, rfl⟩

/-- The loop of `GetDir` over the refs `pre` and then `l`: when it returns
`nil` over `pre`, it goes on over `l` from the state reached. -/
theorem dirLoop_append {W : Type} (env : DirEnv W)
    (rec : DirSys W → String → String → Option (Outcome (Option Error) × DirSys W))
    (path : String) :
    ∀ (pre l : List Ref) (s s3 : DirSys W),
      dirLoop env rec path pre s = some (.ret none, s3) →
      dirLoop env rec path (pre ++ l) s = dirLoop env rec path l s3 := by
  intro pre
  induction pre with
  | nil =>
    intro l s s3 h
    simp only [dirLoop, Option.some.injEq, Prod.mk.injEq, true_and] at h
    subst h
    rfl
  | cons ref rest ih =>
    intro l s s3 h
    cases ref with
    | pair i x => simp [dirLoop] at h
    | str x =>
      simp only [dirLoop, List.cons_append] at h ⊢
      cases hdec : env.NewNodeFromBlob x (env.Get s.world x).1.1 with
      | error err => simp [hdec] at h
      | ok sub =>
        simp only [hdec] at h ⊢
        by_cases hk : sub.Kind = "file"
        · simp only [hk, if_true] at h ⊢
          cases hr : (env.GetFile (env.fetched s x).world sub.Hash
              (env.Join path sub.Name)).1 with
          | some err => simp [hr] at h
          | none =>
            simp only [hr] at h ⊢
            exact ih l _ s3 h
        · simp only [hk, if_false] at h ⊢
          cases hr : rec (env.fetched s x) sub.Hash (env.Join path sub.Name) with
          | none => simp [hr] at h
          | some r =>
            obtain ⟨o, s4⟩ := r
            cases o with
            | panic => simp [hr] at h
            | ret e =>
              cases e with
              | some err => simp [hr] at h
              | none =>
                simp only [hr] at h ⊢
                exact ih l _ s3 h

/-- When the directory is made and its node fetched and decoded, with a
positive size, `GetDir` runs its loop over the refs of the node. -/
theorem getDir_open {W : Type} (env : DirEnv W) (fuel : Nat) (s : DirSys W)
    (hash path : String) (cmeta : node.RawNode)
    (hm : (env.Mkdir s.world path).1 = none)
    (hg : (env.Get (env.made s path).world hash).1.2 = none)
    (hdec : env.NewNodeFromBlob hash (env.Get (env.made s path).world hash).1.1 = .ok cmeta)
    (hsize : cmeta.Size > 0) :
    GetDir env (fuel + 1) s hash path
      = dirLoop env (GetDir env fuel) path cmeta.Refs (env.fetched (env.made s path) hash) := by
  simp only [GetDir, hm, hg, hdec, if_pos hsize]

/-- When the children before a ref were materialized, `GetDir` goes on at
that ref. -/
theorem getDir_at {W : Type} (env : DirEnv W) (fuel : Nat) (s s3 : DirSys W)
    (hash path : String) (cmeta : node.RawNode) (pre l : List Ref)
    (hm : (env.Mkdir s.world path).1 = none)
    (hg : (env.Get (env.made s path).world hash).1.2 = none)
    (hdec : env.NewNodeFromBlob hash (env.Get (env.made s path).world hash).1.1 = .ok cmeta)
    (hsize : cmeta.Size > 0) (hrefs : cmeta.Refs = pre ++ l)
    (hpre : dirLoop env (GetDir env fuel) path pre (env.fetched (env.made s path) hash)
      = some (.ret none, s3)) :
    GetDir env (fuel + 1) s hash path = dirLoop env (GetDir env fuel) path l s3 := by
  rw [getDir_open env fuel s hash path cmeta hm hg hdec hsize, hrefs]
  exact dirLoop_append env _ path pre l _ s3 hpre

/-- Counterexample to C21 as stated. The blob store holds a directory node of
size 0 with a ref to the node of a file: `GetDir` makes the directory,
fetches the node and returns `nil`; the child is not fetched, `GetFile` is
not called, and the file system holds the directory only. And the blob store
holds a directory node of size 1 whose ref is the pair `[0, child_hash]`:
`GetDir` makes the directory, fetches the node and panics at the type
assertion, before the child is fetched. -/
theorem getDir_size_zero_counterexample :
    (dirEnvOf tableZero).NewNodeFromBlob "d" [0]
      = .ok ⟨"d", "photos", "dir", 0, [.str "c"]⟩ ∧
    (GetDir (dirEnvOf tableZero) 3 DirSys.init "d" "/out").map
        (fun r => (r.1, r.2.world, r.2.trace))
      = some (.ret none, ⟨["/out"], []⟩, [.mkdir "/out" none, .get "d" [0] none]) ∧
    (dirEnvOf tablePair).NewNodeFromBlob "d" [0]
      = .ok ⟨"d", "photos", "dir", 1, [.pair 0 "c"]⟩ ∧
    (GetDir (dirEnvOf tablePair) 3 DirSys.init "d" "/out").map
        (fun r => (r.1, r.2.world, r.2.trace))
      = some (.panic, ⟨["/out"], []⟩, [.mkdir "/out" none, .get "d" [0] none]) := by
  decide

/-- C21, amended: `GetDir` over any collaborators.
(1) When `GetDir` returns `nil`, none of its calls failed and its calls show
that the directory was restored: the directory was made, the node fetched and
decoded and, when the size of the node is positive, every ref is a string
and the child it names was fetched and decoded, a file child handed to
`GetFile` under the path of the directory and a directory child restored by
recursion.
(2) For a node whose size is not positive `GetDir` makes the directory,
fetches the node and returns `nil` without a further call, whatever its refs.
(3) When `Mkdir` fails, `GetDir` returns its error. (4) When the `Get` of the
node fails, `GetDir` returns its error. (5) When the node does not decode,
`GetDir` returns the error `failed to fetch meta`.
(6) When the node has a positive size and the children of the refs `pre`
were materialized, `GetDir` at the next ref: panics if the ref is not a
string; returns an error if the bytes fetched for the child do not decode, if
`GetFile` fails for a file child, or if the recursive `GetDir` returns an
error for a directory child; and panics if the recursive `GetDir` does.
(7) When no `Mkdir` and no `GetFile` fails and the blob store holds a
directory node whose refs are strings and whose children decode, down to as
many levels as there is fuel, `GetDir` returns `nil`. -/
theorem getDir_children {W : Type} (env : DirEnv W) (fuel : Nat) (s s2 s3 : DirSys W)
    (hash path x : String) (cmeta sub : node.RawNode) (content : String → Bytes)
    (pre rest : List Ref) (ref : Ref) (i : Int) (err : Error) :
    (GetDir env fuel s hash path = some (.ret none, s2) →
      ∃ new, s2.trace = s.trace ++ new ∧ Restored env new fuel hash path ∧
        ∀ c ∈ new, c.ok env) ∧
    ((env.Mkdir s.world path).1 = none →
      (env.Get (env.made s path).world hash).1.2 = none →
      env.NewNodeFromBlob hash (env.Get (env.made s path).world hash).1.1 = .ok cmeta →
      ¬ cmeta.Size > 0 →
      GetDir env (fuel + 1) s hash path
        = some (.ret none, env.fetched (env.made s path) hash) ∧
      (env.fetched (env.made s path) hash).trace = s.trace ++ [.mkdir path none,
        .get hash (env.Get (env.made s path).world hash).1.1 none]) ∧
    ((env.Mkdir s.world path).1 = some err →
      GetDir env (fuel + 1) s hash path = some (.ret (some err), env.made s path)) ∧
    ((env.Mkdir s.world path).1 = none →
      (env.Get (env.made s path).world hash).1.2 = some err →
      GetDir env (fuel + 1) s hash path
        = some (.ret (some err), env.fetched (env.made s path) hash)) ∧
    ((env.Mkdir s.world path).1 = none →
      (env.Get (env.made s path).world hash).1.2 = none →
      env.NewNodeFromBlob hash (env.Get (env.made s path).world hash).1.1 = .error err →
      GetDir env (fuel + 1) s hash path
        = some (.ret (some ⟨"failed to fetch meta " ++ hash ++ " \""
            ++ env.fmtBytes (env.Get (env.made s path).world hash).1.1 ++ "\": " ++ err.msg⟩),
          env.fetched (env.made s path) hash)) ∧
    ((env.Mkdir s.world path).1 = none →
      (env.Get (env.made s path).world hash).1.2 = none →
      env.NewNodeFromBlob hash (env.Get (env.made s path).world hash).1.1 = .ok cmeta →
      cmeta.Size > 0 → cmeta.Refs = pre ++ ref :: rest →
      dirLoop env (GetDir env fuel) path pre (env.fetched (env.made s path) hash)
        = some (.ret none, s3) →
      (ref = .pair i x → GetDir env (fuel + 1) s hash path = some (.panic, s3)) ∧
      (ref = .str x → env.NewNodeFromBlob x (env.Get s3.world x).1.1 = .error err →
        GetDir env (fuel + 1) s hash path
          = some (.ret (some ⟨"failed to fetch meta: " ++ err.msg⟩), env.fetched s3 x)) ∧
      (ref = .str x → env.NewNodeFromBlob x (env.Get s3.world x).1.1 = .ok sub →
        sub.Kind = "file" →
        (env.GetFile (env.fetched s3 x).world sub.Hash (env.Join path sub.Name)).1 = some err →
        GetDir env (fuel + 1) s hash path
          = some (.ret (some ⟨"failed to GetFile " ++ env.fmtNode sub ++ ": " ++ err.msg⟩),
            env.written (env.fetched s3 x) sub.Hash (env.Join path sub.Name))) ∧
      (ref = .str x → env.NewNodeFromBlob x (env.Get s3.world x).1.1 = .ok sub →
        sub.Kind ≠ "file" →
        GetDir env fuel (env.fetched s3 x) sub.Hash (env.Join path sub.Name)
          = some (.ret (some err), s2) →
        GetDir env (fuel + 1) s hash path
          = some (.ret (some ⟨"failed to GetDir " ++ env.fmtNode sub ++ ": " ++ err.msg⟩), s2)) ∧
      (ref = .str x → env.NewNodeFromBlob x (env.Get s3.world x).1.1 = .ok sub →
        sub.Kind ≠ "file" →
        GetDir env fuel (env.fetched s3 x) sub.Hash (env.Join path sub.Name)
          = some (.panic, s2) →
        GetDir env (fuel + 1) s hash path = some (.panic, s2))) ∧
    ((∀ w p, (env.Mkdir w p).1 = none) → (∀ w h p, (env.GetFile w h p).1 = none) →
      (∀ w h, (env.Get w h).1.1 = content h) → WellStored env content fuel hash →
      ∃ t, GetDir env fuel s hash path = some (.ret none, t)) := by
  refine ⟨getDir_restored env fuel s hash path s2, ?_, ?_, ?_, ?_, ?_, ?_⟩
  · intro hm hg hdec hsize
    refine ⟨by simp only [GetDir, hm, hg, hdec, if_neg hsize], ?_⟩
    simp only [DirEnv.fetched, DirSys.call, hg]
    simp [DirEnv.made, DirSys.call, hm, List.append_assoc]
  · intro hm
    simp only [GetDir, hm]
  · intro hm hg
    simp only [GetDir, hm, hg]
  · intro hm hg hdec
    simp only [GetDir, hm, hg, hdec]
  · intro hm hg hdec hsize hrefs hpre
    have hat := getDir_at env fuel s s3 hash path cmeta pre (ref :: rest) hm hg hdec hsize
      hrefs hpre
    refine ⟨?_, ?_, ?_, ?_, ?_⟩
    · intro hr
      subst hr
      rw [hat]
      simp only [dirLoop]
    · intro hr hd
      subst hr
      rw [hat]
      simp only [dirLoop, hd]
    · intro hr hd hk hf
      subst hr
      rw [hat]
      simp only [dirLoop, hd, hk, if_true, hf]
    · intro hr hd hk hrec
      subst hr
      rw [hat]
      simp only [dirLoop, hd, hk, if_false, hrec]
    · intro hr hd hk hrec
      subst hr
      rw [hat]
      simp only [dirLoop, hd, hk, if_false, hrec]
  · intro hM hF hG hw
    exact getDir_total env content hM hF hG fuel s hash path hw

/-- The blobs of the blob store of `dirEnvOf` are those of `contentOf`. -/
theorem dirEnvOf_get (table : List (String × node.RawNode)) (w : FS) (h : String) :
    ((dirEnvOf table).Get w h).1.1 = contentOf table h := by
  simp only [dirEnvOf, contentOf]
  cases List.findIdx? (fun p => p.1 == h) table <;> rfl

/-- The blob store of `tableTree` holds the directory `d` with children that
decode, over two levels of directories. -/
theorem tableTree_stored : WellStored (dirEnvOf tableTree) (contentOf tableTree) 3 "d" := by
  refine ⟨fun w => rfl, ⟨"d", "photos", "dir", 2, [.str "c", .str "e"]⟩, by decide,
    fun _ ref href => ?_⟩
  simp only [List.mem_cons, List.mem_singleton, List.not_mem_nil, or_false] at href
  rcases href with rfl | rfl
  · exact ⟨"c", ⟨"c", "a.txt", "file", 3, [.pair 3 "x"]⟩, rfl, by decide,
      fun hk => absurd rfl hk⟩
  · refine ⟨"e", ⟨"e", "sub", "dir", 1, [.str "c"]⟩, rfl, by decide, fun _ => ?_⟩
    refine ⟨fun w => rfl, ⟨"e", "sub", "dir", 1, [.str "c"]⟩, by decide,
      fun _ ref href => ?_⟩
    simp only [List.mem_cons, List.mem_singleton, List.not_mem_nil, or_false] at href
    subst href
    exact ⟨"c", ⟨"c", "a.txt", "file", 3, [.pair 3 "x"]⟩, rfl, by decide,
      fun hk => absurd rfl hk⟩

/-- C21 as amended, at concrete inputs. The directory `d` of `tableTree`, of
positive size, is restored with its file and its directory. The directory `d`
of `tableZero`, of size 0, is made without its child. A `Mkdir` that fails, a
node the store does not hold and a node that does not decode end `GetDir`
with an error. After the first child of `d`, a ref that is a pair makes
`GetDir` panic and a ref to a blob the store does not hold makes it return an
error; so do a `GetFile` that fails and a directory child for which `GetDir`
returns an error, and a directory child for which `GetDir` panics makes
`GetDir` panic. -/
theorem getDir_children_witness :
    GetDir (dirEnvOf tableTree) 3 DirSys.init "d" "/out" = some (.ret none, stateTree) ∧
    (∃ new, stateTree.trace = DirSys.init.trace ++ new ∧
      Restored (dirEnvOf tableTree) new 3 "d" "/out" ∧
      ∀ c ∈ new, c.ok (dirEnvOf tableTree)) ∧
    (dirEnvOf tableZero).fetched ((dirEnvOf tableZero).made DirSys.init "/out") "d"
      = stateOpen ∧
    (GetDir (dirEnvOf tableZero) (2 + 1) DirSys.init "d" "/out"
        = some (.ret none,
          (dirEnvOf tableZero).fetched ((dirEnvOf tableZero).made DirSys.init "/out") "d") ∧
      ((dirEnvOf tableZero).fetched ((dirEnvOf tableZero).made DirSys.init "/out") "d").trace
        = DirSys.init.trace ++ [.mkdir "/out" none,
          .get "d" ((dirEnvOf tableZero).Get
            ((dirEnvOf tableZero).made DirSys.init "/out").world "d").1.1 none]) ∧
    GetDir (dirEnvDenied tableTree) (2 + 1) DirSys.init "d" "/out"
      = some (.ret (some ⟨"permission denied"⟩),
        (dirEnvDenied tableTree).made DirSys.init "/out") ∧
    GetDir (dirEnvOf tableTree) (2 + 1) DirSys.init "zz" "/out"
      = some (.ret (some ErrBlobNotFound),
        (dirEnvOf tableTree).fetched ((dirEnvOf tableTree).made DirSys.init "/out") "zz") ∧
    GetDir (dirEnvGarbled tableTree) (2 + 1) DirSys.init "d" "/out"
      = some (.ret (some ⟨"failed to fetch meta " ++ "d" ++ " \""
          ++ (dirEnvGarbled tableTree).fmtBytes ((dirEnvGarbled tableTree).Get
            ((dirEnvGarbled tableTree).made DirSys.init "/out").world "d").1.1 ++ "\": "
          ++ (⟨"invalid character"⟩ : Error).msg⟩),
        (dirEnvGarbled tableTree).fetched
          ((dirEnvGarbled tableTree).made DirSys.init "/out") "d") ∧
    dirLoop (dirEnvOf tableMixed) (GetDir (dirEnvOf tableMixed) 2) "/out" [.str "c"]
        ((dirEnvOf tableMixed).fetched ((dirEnvOf tableMixed).made DirSys.init "/out") "d")
      = some (.ret none, stateFirst) ∧
    GetDir (dirEnvOf tableMixed) (2 + 1) DirSys.init "d" "/out" = some (.panic, stateFirst) ∧
    GetDir (dirEnvOf tableGap) (2 + 1) DirSys.init "d" "/out"
      = some (.ret (some ⟨"failed to fetch meta: "
          ++ (⟨"unexpected end of JSON input"⟩ : Error).msg⟩),
        (dirEnvOf tableGap).fetched stateFirst "zz") ∧
    GetDir (dirEnvFail tableTree) (2 + 1) DirSys.init "d" "/out"
      = some (.ret (some ⟨"failed to GetFile "
          ++ (dirEnvFail tableTree).fmtNode ⟨"c", "a.txt", "file", 3, [.pair 3 "x"]⟩ ++ ": "
          ++ (⟨"disk full"⟩ : Error).msg⟩),
        (dirEnvFail tableTree).written ((dirEnvFail tableTree).fetched stateOpen "c")
          (⟨"c", "a.txt", "file", 3, [.pair 3 "x"]⟩ : node.RawNode).Hash
          ((dirEnvFail tableTree).Join "/out"
            (⟨"c", "a.txt", "file", 3, [.pair 3 "x"]⟩ : node.RawNode).Name)) ∧
    GetDir (dirEnvOf tableDeep) 2 ((dirEnvOf tableDeep).fetched stateOpen "e") "e" "/out/sub"
      = some (.ret (some ⟨"failed to fetch meta: unexpected end of JSON input"⟩),
        (dirEnvOf tableDeep).fetched ((dirEnvOf tableDeep).fetched
          ((dirEnvOf tableDeep).made ((dirEnvOf tableDeep).fetched stateOpen "e") "/out/sub")
          "e") "zz") ∧
    GetDir (dirEnvOf tableDeep) (2 + 1) DirSys.init "d" "/out"
      = some (.ret (some ⟨"failed to GetDir "
          ++ (dirEnvOf tableDeep).fmtNode ⟨"e", "sub", "dir", 1, [.str "zz"]⟩ ++ ": "
          ++ (⟨"failed to fetch meta: unexpected end of JSON input"⟩ : Error).msg⟩),
        (dirEnvOf tableDeep).fetched ((dirEnvOf tableDeep).fetched
          ((dirEnvOf tableDeep).made ((dirEnvOf tableDeep).fetched stateOpen "e") "/out/sub")
          "e") "zz") ∧
    GetDir (dirEnvOf tableNest) (2 + 1) DirSys.init "d" "/out"
      = some (.panic, (dirEnvOf tableNest).fetched
          ((dirEnvOf tableNest).made ((dirEnvOf tableNest).fetched stateOpen "e") "/out/sub")
          "e") ∧
    WellStored (dirEnvOf tableTree) (contentOf tableTree) 3 "d" ∧
    (∃ t, GetDir (dirEnvOf tableTree) 3 DirSys.init "d" "/out" = some (.ret none, t)) :=
  ⟨rfl,
    (getDir_children (dirEnvOf tableTree) 3 DirSys.init stateTree stateTree "d" "/out" "c"
      ⟨"", "", "", 0, []⟩ ⟨"", "", "", 0, []⟩ (contentOf tableTree) [] [] (.str "c") 0
      ⟨""⟩).1 rfl,
    rfl,
    (getDir_children (dirEnvOf tableZero) 2 DirSys.init stateTree stateTree "d" "/out" "c"
      ⟨"d", "photos", "dir", 0, [.str "c"]⟩ ⟨"", "", "", 0, []⟩ (contentOf tableZero) [] []
      (.str "c") 0 ⟨""⟩).2.1 rfl rfl (by decide) (by decide),
    (getDir_children (dirEnvDenied tableTree) 2 DirSys.init stateTree stateTree "d" "/out" "c"
      ⟨"", "", "", 0, []⟩ ⟨"", "", "", 0, []⟩ (contentOf tableTree) [] [] (.str "c") 0
      ⟨"permission denied"⟩).2.2.1 rfl,
    (getDir_children (dirEnvOf tableTree) 2 DirSys.init stateTree stateTree "zz" "/out" "c"
      ⟨"", "", "", 0, []⟩ ⟨"", "", "", 0, []⟩ (contentOf tableTree) [] [] (.str "c") 0
      ErrBlobNotFound).2.2.2.1 rfl rfl,
    (getDir_children (dirEnvGarbled tableTree) 2 DirSys.init stateTree stateTree "d" "/out" "c"
      ⟨"", "", "", 0, []⟩ ⟨"", "", "", 0, []⟩ (contentOf tableTree) [] [] (.str "c") 0
      ⟨"invalid character"⟩).2.2.2.2.1 rfl rfl rfl,
    rfl,
    ((getDir_children (dirEnvOf tableMixed) 2 DirSys.init stateFirst stateFirst "d" "/out" "c"
      ⟨"d", "photos", "dir", 2, [.str "c", .pair 0 "c"]⟩ ⟨"", "", "", 0, []⟩
      (contentOf tableMixed) [.str "c"] [] (.pair 0 "c") 0 ⟨""⟩).2.2.2.2.2.1
      rfl rfl (by decide) (by decide) rfl rfl).1 rfl,
    ((getDir_children (dirEnvOf tableGap) 2 DirSys.init stateFirst stateFirst "d" "/out" "zz"
      ⟨"d", "photos", "dir", 3, [.str "c", .str "zz", .pair 0 "c"]⟩ ⟨"", "", "", 0, []⟩
      (contentOf tableGap) [.str "c"] [.pair 0 "c"] (.str "zz") 0
      ⟨"unexpected end of JSON input"⟩).2.2.2.2.2.1
      rfl rfl (by decide) (by decide) rfl rfl).2.1 rfl (by decide),
    ((getDir_children (dirEnvFail tableTree) 2 DirSys.init stateOpen stateOpen "d" "/out" "c"
      ⟨"d", "photos", "dir", 2, [.str "c", .str "e"]⟩ ⟨"c", "a.txt", "file", 3, [.pair 3 "x"]⟩
      (contentOf tableTree) [] [.str "e"] (.str "c") 0 ⟨"disk full"⟩).2.2.2.2.2.1
      rfl rfl (by decide) (by decide) rfl rfl).2.2.1 rfl (by decide) (by decide) rfl,
    rfl,
    ((getDir_children (dirEnvOf tableDeep) 2 DirSys.init
      ((dirEnvOf tableDeep).fetched ((dirEnvOf tableDeep).fetched
        ((dirEnvOf tableDeep).made ((dirEnvOf tableDeep).fetched stateOpen "e") "/out/sub")
        "e") "zz")
      stateOpen "d" "/out" "e"
      ⟨"d", "photos", "dir", 1, [.str "e"]⟩ ⟨"e", "sub", "dir", 1, [.str "zz"]⟩
      (contentOf tableDeep) [] [] (.str "e") 0
      ⟨"failed to fetch meta: unexpected end of JSON input"⟩).2.2.2.2.2.1
      rfl rfl (by decide) (by decide) rfl rfl).2.2.2.1 rfl (by decide) (by decide) rfl,
    ((getDir_children (dirEnvOf tableNest) 2 DirSys.init
      ((dirEnvOf tableNest).fetched
        ((dirEnvOf tableNest).made ((dirEnvOf tableNest).fetched stateOpen "e") "/out/sub")
        "e")
      stateOpen "d" "/out" "e"
      ⟨"d", "photos", "dir", 1, [.str "e"]⟩ ⟨"e", "sub", "dir", 1, [.pair 0 "c"]⟩
      (contentOf tableNest) [] [] (.str "e") 0 ⟨""⟩).2.2.2.2.2.1
      rfl rfl (by decide) (by decide) rfl rfl).2.2.2.2 rfl (by decide) (by decide) rfl,
    tableTree_stored,
    (getDir_children (dirEnvOf tableTree) 3 DirSys.init stateTree stateTree "d" "/out" "c"
      ⟨"", "", "", 0, []⟩ ⟨"", "", "", 0, []⟩ (contentOf tableTree) [] [] (.str "c") 0
      ⟨""⟩).2.2.2.2.2.2 (fun _ _ => rfl) (fun _ _ _ => rfl) (dirEnvOf_get tableTree)
      tableTree_stored⟩

end BlobStash
